import Mathlib

/-! # Claim keeper of Passage3D (`x/claim/keeper/claim.go`)

A shallow embedding of the airdrop claim keeper.  The keeper's collaborators
(protobuf codec, bech32 decoding, the bank keeper's block list, the
distribution keeper, the enumeration of actions and the `IsAirdropEnabled`
gate of `types.Params`) are fields of `Deps`, the way the Go `Keeper` holds
them as interface values.

Conventions of the embedding:

* `sdk.Int` is `Int`.  Its 255-bit overflow check is not reached by the code
  under study for amounts that are themselves valid `sdk.Int` values with one
  entry per denomination, since every computed amount is bounded by an input.
* `time.Duration` is an `int64`: additions and subtractions wrap (`wrap64`),
  `Time.Sub` saturates (`timeSub`).  Instants are nanosecond counts.
* a Go `panic` is the exit `Exit.panicked`; a Go return `(coins, err)` is
  `Exit.returned coins err`, with `nil` and `sdk.Coins{}` both the empty list.
-/

namespace Claim

/-! ## Basic types -/

/-- Raw bytes of an account address (`sdk.AccAddress`). -/
abbrev AccAddress := List Nat

/-- Errors returned by the keeper and its collaborators. -/
inductive Err where
  | airdropNotEnabled
  | invalidAddress
  | encoding
  | unauthorized
  | insufficientFunds
  | invalidCoins
  deriving DecidableEq, Repr

/-- Go run-time panics reachable from the keeper. -/
inductive Panic where
  | indexOutOfRange
  | divisionByZero
  | invalidDenom
  | negativeCoinAmount
  | invalidCoins
  | int64OutOfBound
  | ofError (err : Err)
  deriving DecidableEq, Repr

/-- One `sdk.Coin`: a denomination and an amount. -/
structure Coin where
  denom : String
  amount : Int
  deriving DecidableEq, Repr

/-- A value of `sdk.Coins`, a slice of coins. -/
abbrev Coins := List Coin

/-- The message `types.ClaimRecord`. -/
structure ClaimRecord where
  address : String
  initialClaimableAmount : Coins
  actionCompleted : List Bool
  deriving DecidableEq, Repr

/-- The zero value `types.ClaimRecord{}`. -/
def ClaimRecord.empty : ClaimRecord := ⟨"", [], []⟩

/-- The fields of `types.Params` that the keeper reads. -/
structure Params where
  airdropStartTime : Int
  durationUntilDecay : Int
  durationOfDecay : Int
  deriving DecidableEq, Repr

/-- Result of a keeper call that returns `(sdk.Coins, error)` or panics. -/
inductive Exit where
  | returned (coins : Coins) (err : Option Err)
  | panicked (p : Panic)
  deriving DecidableEq, Repr

/-- Result of a keeper call that returns only an `error`, or panics. -/
inductive ExitErr where
  | returned (err : Option Err)
  | panicked (p : Panic)
  deriving DecidableEq, Repr

/-! ## Machine integers and time -/

/-- Largest `int64`. -/
def maxInt64 : Int := 9223372036854775807

/-- Smallest `int64`. -/
def minInt64 : Int := -9223372036854775808

/-- Two's complement wrap-around of `int64` arithmetic. -/
def wrap64 (x : Int) : Int := (x + 9223372036854775808) % 18446744073709551616 - 9223372036854775808

/-- Go `t.Sub(u)`: the difference of two instants, saturating at the `int64` bounds. -/
def timeSub (t u : Int) : Int :=
  if t - u < minInt64 then minInt64 else if maxInt64 < t - u then maxInt64 else t - u

/-! ## `sdk.Dec`: 18-digit fixed point -/

/-- The scaling factor `10^18` of `sdk.Dec` (`precisionReuse`). -/
def precisionReuse : Int := 1000000000000000000

/-- Half of the scaling factor (`fivePrecision`). -/
def fivePrecision : Int := 500000000000000000

/-- A value of `sdk.Dec`, held as its scaled integer. -/
structure Dec where
  i : Int
  deriving DecidableEq, Repr

/-- The non-negative branch of `chopPrecisionAndRound`: divide by `10^18`, round
half to even. -/
def chopNonneg (d : Int) : Int :=
  let quo := Int.tdiv d precisionReuse
  let rem := Int.tmod d precisionReuse
  if rem = 0 then quo
  else if rem < fivePrecision then quo
  else if fivePrecision < rem then quo + 1
  else if quo % 2 = 0 then quo
  else quo + 1

/-- The function `chopPrecisionAndRound` of `sdk.Dec`: a negative argument is negated, chopped and
negated back. -/
def chopPrecisionAndRound (d : Int) : Int :=
  if d < 0 then -(chopNonneg (-d)) else chopNonneg d

/-- Go `sdk.NewDec(i)`. -/
def Dec.newDec (i : Int) : Dec := ⟨i * precisionReuse⟩

/-- Go `sdk.OneDec()`. -/
def Dec.oneDec : Dec := ⟨precisionReuse⟩

/-- Go `d.QuoInt64(i)`: truncated quotient of the scaled integer; panics on a zero divisor. -/
def Dec.quoInt64 (d : Dec) (i : Int) : Except Panic Dec :=
  if i = 0 then .error .divisionByZero else .ok ⟨Int.tdiv d.i i⟩

/-- Go `d.Sub(d2)`. -/
def Dec.sub (d d2 : Dec) : Dec := ⟨d.i - d2.i⟩

/-- Go `d.Mul(d2)`: product of the scaled integers, chopped back to 18 digits. -/
def Dec.mul (d d2 : Dec) : Dec := ⟨chopPrecisionAndRound (d.i * d2.i)⟩

/-- Go `d.RoundInt()`. -/
def Dec.roundInt (d : Dec) : Int := chopPrecisionAndRound d.i

/-- Go `i.ToDec()` on an `sdk.Int`. -/
def Dec.ofInt (i : Int) : Dec := ⟨i * precisionReuse⟩

/-! ## `sdk.Coins` -/

/-- Go `strings.Compare(a, b) == -1`, the lexicographic order of denominations. -/
def denomLt (a b : String) : Bool := decide (a.toList < b.toList)

/-- Go `coin.IsZero()`. -/
def Coin.isZero (c : Coin) : Bool := decide (c.amount = 0)

/-- The helper `removeZeroCoins`. -/
def removeZeroCoins (cs : Coins) : Coins := cs.filter (fun c => !c.isZero)

/-- The inner loop of `safeAdd` while the head `a` of the first operand is fixed: `restA` is
the first operand from `a` on, `recA` continues with the first operand after `a`. -/
def safeAddGo (a : Coin) (restA : Coins) (recA : Coins → Coins) : Coins → Coins
  | [] => removeZeroCoins restA
  | b :: bs =>
    if denomLt a.denom b.denom then
      (if a.isZero then recA (b :: bs) else a :: recA (b :: bs))
    else if a.denom = b.denom then
      (if a.amount + b.amount = 0 then recA bs else ⟨a.denom, a.amount + b.amount⟩ :: recA bs)
    else
      (if b.isZero then safeAddGo a restA recA bs else b :: safeAddGo a restA recA bs)

/-- Go `coins.Add(coinsB...)` (`safeAdd`): merge of two denomination-sorted coin lists that sums
equal denominations and drops zero coins. -/
def Coins.add : Coins → Coins → Coins
  | [], b => removeZeroCoins b
  | a :: as, b => safeAddGo a (a :: as) (Coins.add as) b

/-- Amount held in a denomination: the sum of the entries of that denomination. -/
def Coins.amountOf (denom : String) : Coins → Int
  | [] => 0
  | c :: cs => (if c.denom = denom then c.amount else 0) + Coins.amountOf denom cs

/-- Go `coins.Validate() == nil` (`IsValid`): every denomination well formed, every amount
positive, denominations strictly increasing. -/
def Coins.isValid (validateDenom : String → Bool) : Coins → Bool
  | [] => true
  | [c] => validateDenom c.denom && decide (0 < c.amount)
  | c :: c2 :: cs =>
    validateDenom c.denom && decide (0 < c.amount) && denomLt c.denom c2.denom &&
      Coins.isValid validateDenom (c2 :: cs)

/-! ## Collaborators and state -/

/-- The key-value store under `types.ClaimRecordsStorePrefix`: encoded records by address
bytes, kept in ascending key order as the store iterator visits them. -/
abbrev Store (β : Type) := List (AccAddress × β)

/-- Go `prefixStore.Get(addr)`, with `none` for an absent key (`!prefixStore.Has(addr)`). -/
def Store.get {β : Type} (st : Store β) (addr : AccAddress) : Option β :=
  match st with
  | [] => none
  | (k, v) :: rest => if k = addr then some v else Store.get rest addr

/-- Go `prefixStore.Set(addr, bz)`: overwrite the entry of `addr` or insert it in key order. -/
def Store.set {β : Type} (st : Store β) (addr : AccAddress) (bz : β) : Store β :=
  match st with
  | [] => [(addr, bz)]
  | (k, v) :: rest =>
    if k = addr then (addr, bz) :: rest
    else if decide (addr < k) then (addr, bz) :: (k, v) :: rest
    else (k, v) :: Store.set rest addr bz

/-- Go `store.Delete(key)`. -/
def Store.delete {β : Type} (st : Store β) (addr : AccAddress) : Store β :=
  st.filter (fun kv => !decide (kv.1 = addr))

/-- The ledger of the bank module: balance of every account in every denomination. -/
structure Bank where
  balances : AccAddress → String → Int

/-- What the keeper takes from outside this file: the codec (`proto.Marshal`,
`proto.Unmarshal`), `sdk.AccAddressFromBech32`, `sdk.ValidateDenom`, the number of actions
`len(types.Action_name)`, the gate `Params.IsAirdropEnabled`, the module account addresses, the
bank keeper's block list and the distribution keeper's `FundCommunityPool`, which maps the
ledger, the community pool, the amount and the sender to the error, if any, and the ledger and
community pool the call leaves. -/
structure Deps (β : Type) where
  numActions : Nat
  isAirdropEnabled : Params → Int → Bool
  marshal : ClaimRecord → Except Err β
  unmarshal : β → Except Err ClaimRecord
  accAddressFromBech32 : String → Except Err AccAddress
  validateDenom : String → Bool
  moduleAddress : AccAddress
  distrModuleAddress : AccAddress
  blockedAddr : AccAddress → Bool
  claimDenom : String
  fundCommunityPool : Bank → Coins → Coins → AccAddress → Option Err × Bank × Coins

/-- Everything a call reads or writes through `ctx`: the claim record store, the parameters, the
block time, the ledger, the community pool of the distribution module and the emitted claim
events. -/
structure State (β : Type) where
  store : Store β
  params : Params
  blockTime : Int
  bank : Bank
  communityPool : Coins
  events : List (AccAddress × Coins)

/-! ## The bank keeper -/

/-- Go `bankKeeper.GetBalance(ctx, addr, denom)`, the amount only. -/
def Bank.getBalance (b : Bank) (addr : AccAddress) (denom : String) : Int :=
  b.balances addr denom

/-- The bank keeper's `setBalance`. -/
def Bank.setBalance (b : Bank) (addr : AccAddress) (denom : String) (amount : Int) : Bank :=
  ⟨fun a dn => if a = addr ∧ dn = denom then amount else b.balances a dn⟩

/-- The loop of `subUnlockedCoins`: debit coin after coin, every new balance written as soon as
it is computed.  On the first coin the balance does not cover, the loop stops with an error and
the debits already written stay in the ledger.  Returns the error, if any, and the ledger the
loop leaves. -/
def Bank.subLoop (b : Bank) (addr : AccAddress) : Coins → Option Err × Bank
  | [] => (none, b)
  | c :: cs =>
    if b.getBalance addr c.denom < c.amount then (some .insufficientFunds, b)
    else Bank.subLoop (b.setBalance addr c.denom (b.getBalance addr c.denom - c.amount)) addr cs

/-- The loop of `addCoins`: credit coin after coin. -/
def Bank.addLoop (b : Bank) (addr : AccAddress) : Coins → Bank
  | [] => b
  | c :: cs =>
    Bank.addLoop (b.setBalance addr c.denom (b.getBalance addr c.denom + c.amount)) addr cs

/-- Go `bankKeeper.SendCoins(ctx, from, to, amt)`: invalid coins are refused, the sender is
debited, the recipient credited.  Returns the error, if any, and the ledger the call leaves:
when the debit stops at an uncovered coin, the coins before it stay debited and nothing is
credited. -/
def Bank.sendCoins (validateDenom : String → Bool) (b : Bank) (sender recipient : AccAddress)
    (amt : Coins) : Option Err × Bank :=
  if !Coins.isValid validateDenom amt then (some .invalidCoins, b)
  else
    match Bank.subLoop b sender amt with
    | (some e, b1) => (some e, b1)
    | (none, b1) => (none, Bank.addLoop b1 recipient amt)

/-- Go `bankKeeper.SendCoinsFromModuleToAccount(ctx, types.ModuleName, addr, amt)`: a blocked
recipient is refused, otherwise the coins go from the module account to `addr`.  Returns the
error, if any, and the ledger the call leaves. -/
def sendCoinsFromModuleToAccount {β : Type} (d : Deps β) (b : Bank) (addr : AccAddress)
    (amt : Coins) : Option Err × Bank :=
  if d.blockedAddr addr then (some .unauthorized, b)
  else Bank.sendCoins d.validateDenom b d.moduleAddress addr amt

/-- The distribution keeper's `FundCommunityPool(ctx, amount, sender)` as the SDK implements
it: the coins go from the sender to the distribution module account and are added to the
community pool of the fee pool.  When the transfer fails the error is returned with the ledger
the transfer left, and the community pool is not touched. -/
def sdkFundCommunityPool (validateDenom : String → Bool) (distrModuleAddress : AccAddress)
    (b : Bank) (communityPool amount : Coins) (sender : AccAddress) :
    Option Err × Bank × Coins :=
  match Bank.sendCoins validateDenom b sender distrModuleAddress amount with
  | (some err, b1) => (some err, b1, communityPool)
  | (none, b1) => (none, b1, Coins.add communityPool amount)

/-! ## The keeper (`claim.go`) -/

/-- Go `sdk.NewCoin(denom, amount)`: panics on a malformed denomination, then on a negative
amount. -/
def NewCoin {β : Type} (d : Deps β) (denom : String) (amount : Int) : Except Panic Coin :=
  if !d.validateDenom denom then .error .invalidDenom
  else if amount < 0 then .error .negativeCoinAmount
  else .ok ⟨denom, amount⟩

/-- Go `amount.QuoRaw(int64(len(types.Action_name)))`: truncated quotient, panics on zero. -/
def quoRawActions {β : Type} (d : Deps β) (amount : Int) : Except Panic Int :=
  if d.numActions = 0 then .error .divisionByZero else .ok (Int.tdiv amount d.numActions)

/-- The shape of both `for _, coin := range` loops of `GetClaimableAmountForAction`:
`acc = acc.Add(sdk.NewCoin(coin.Denom, f(coin.Amount)))` for every coin in turn. -/
def addEachCoin {β : Type} (d : Deps β) (f : Int → Except Panic Int) :
    Coins → Coins → Except Panic Coins
  | [], acc => .ok acc
  | coin :: rest, acc =>
    match f coin.amount with
    | .error p => .error p
    | .ok a =>
      match NewCoin d coin.denom a with
      | .error p => .error p
      | .ok c => addEachCoin d f rest (Coins.add acc [c])

/-- Lines 141-148: the per-action share `InitialClaimablePerAction`. -/
def initialClaimablePerAction {β : Type} (d : Deps β) (initial : Coins) : Except Panic Coins :=
  addEachCoin d (quoRawActions d) initial []

/-- Lines 166-169: every coin of the share scaled by `claimablePercent` and rounded. -/
def claimableCoins {β : Type} (d : Deps β) (perAction : Coins) (claimablePercent : Dec) :
    Except Panic Coins :=
  addEachCoin d (fun a => .ok (Dec.roundInt (Dec.mul (Dec.ofInt a) claimablePercent)))
    perAction []

/-- Go `Keeper.SetClaimRecord`: marshal the record, decode its address, write the entry.
Returns the error, if any, and the state after the call. -/
def SetClaimRecord {β : Type} (d : Deps β) (s : State β) (claimRecord : ClaimRecord) :
    Option Err × State β :=
  match d.marshal claimRecord with
  | .error err => (some err, s)
  | .ok bz =>
    match d.accAddressFromBech32 claimRecord.address with
    | .error err => (some err, s)
    | .ok addr => (none, { s with store := Store.set s.store addr bz })

/-- Go `Keeper.SetClaimRecords`: set the records in turn, stop at the first error. -/
def SetClaimRecords {β : Type} (d : Deps β) (s : State β) :
    List ClaimRecord → Option Err × State β
  | [] => (none, s)
  | claimRecord :: rest =>
    match SetClaimRecord d s claimRecord with
    | (some err, s1) => (some err, s1)
    | (none, s1) => SetClaimRecords d s1 rest

/-- Go `Keeper.GetClaimRecord`: the zero record for an absent address, the decoded record
otherwise. -/
def GetClaimRecord {β : Type} (d : Deps β) (s : State β) (addr : AccAddress) :
    ClaimRecord × Option Err :=
  match Store.get s.store addr with
  | none => (ClaimRecord.empty, none)
  | some bz =>
    match d.unmarshal bz with
    | .error err => (ClaimRecord.empty, some err)
    | .ok claimRecord => (claimRecord, none)

/-- Go `Keeper.GetClaimableAmountForAction`. -/
def GetClaimableAmountForAction {β : Type} (d : Deps β) (s : State β) (addr : AccAddress)
    (action : Nat) : Exit :=
  match GetClaimRecord d s addr with
  | (_, some err) => .returned [] (some err)
  | (claimRecord, none) =>
    if claimRecord.address = "" then .returned [] none
    else
      match claimRecord.actionCompleted[action]? with
      | none => .panicked .indexOutOfRange
      | some true => .returned [] none
      | some false =>
        let params := s.params
        if s.blockTime < params.airdropStartTime then .returned [] none
        else
          match initialClaimablePerAction d claimRecord.initialClaimableAmount with
          | .error p => .panicked p
          | .ok perAction =>
            let elapsedAirdropTime := timeSub s.blockTime params.airdropStartTime
            if elapsedAirdropTime ≤ params.durationUntilDecay then .returned perAction none
            else if wrap64 (params.durationUntilDecay + params.durationOfDecay)
                < elapsedAirdropTime then .returned [] none
            else
              let decayTime := wrap64 (elapsedAirdropTime - params.durationUntilDecay)
              match Dec.quoInt64 (Dec.newDec decayTime) params.durationOfDecay with
              | .error p => .panicked p
              | .ok decayPercent =>
                let claimablePercent := Dec.sub Dec.oneDec decayPercent
                match claimableCoins d perAction claimablePercent with
                | .error p => .panicked p
                | .ok coins => .returned coins none

/-- Go `Keeper.ClaimCoinsForAction`: the exit of the call and the state it leaves. -/
def ClaimCoinsForAction {β : Type} (d : Deps β) (s : State β) (addr : AccAddress)
    (action : Nat) : Exit × State β :=
  let params := s.params
  if !d.isAirdropEnabled params s.blockTime then (.returned [] (some .airdropNotEnabled), s)
  else
    match GetClaimableAmountForAction d s addr action with
    | .panicked p => (.panicked p, s)
    | .returned claimableAmount (some err) => (.returned claimableAmount (some err), s)
    | .returned claimableAmount none =>
      if claimableAmount.isEmpty then (.returned claimableAmount none, s)
      else
        match GetClaimRecord d s addr with
        | (_, some err) => (.returned [] (some err), s)
        | (claimRecord, none) =>
          match sendCoinsFromModuleToAccount d s.bank addr claimableAmount with
          | (some err, bank1) => (.returned [] (some err), { s with bank := bank1 })
          | (none, bank1) =>
            let s1 := { s with bank := bank1 }
            if action < claimRecord.actionCompleted.length then
              let claimRecord1 :=
                { claimRecord with
                  actionCompleted := claimRecord.actionCompleted.set action true }
              match SetClaimRecord d s1 claimRecord1 with
              | (some err, s2) => (.returned claimableAmount (some err), s2)
              | (none, s2) =>
                (.returned claimableAmount none,
                  { s2 with events := s2.events ++ [(addr, claimableAmount)] })
            else (.panicked .indexOutOfRange, s1)

/-- Go `Keeper.GetModuleAccountBalance`: the balance of the module account in
`types.DefaultClaimDenom`. -/
def GetModuleAccountBalance {β : Type} (d : Deps β) (s : State β) : Coin :=
  ⟨d.claimDenom, s.bank.getBalance d.moduleAddress d.claimDenom⟩

/-- Insertion of a coin into a denomination-sorted list. -/
def Coins.insertSorted (c : Coin) : Coins → Coins
  | [] => [c]
  | x :: xs => if denomLt x.denom c.denom then x :: Coins.insertSorted c xs else c :: x :: xs

/-- Go `coins.Sort()`: the coins ordered by denomination. -/
def Coins.sort : Coins → Coins
  | [] => []
  | c :: cs => Coins.insertSorted c (Coins.sort cs)

/-- Go `sdk.NewCoins(coins...)`: zero coins removed, the rest sorted, and a panic when the result
is not a valid coin set. -/
def NewCoins {β : Type} (d : Deps β) (coins : Coins) : Except Panic Coins :=
  let newCoins := Coins.sort (removeZeroCoins coins)
  if Coins.isValid d.validateDenom newCoins then .ok newCoins else .error .invalidCoins

/-- The loop of `GetClaimRecords` over the entries of the store in key order: a record that
does not decode makes the call panic with the decoding error. -/
def getClaimRecordsLoop {β : Type} (d : Deps β) : Store β → Except Panic (List ClaimRecord)
  | [] => .ok []
  | (_, bz) :: rest =>
    match d.unmarshal bz with
    | .error err => .error (.ofError err)
    | .ok claimRecord =>
      match getClaimRecordsLoop d rest with
      | .error p => .error p
      | .ok claimRecords => .ok (claimRecord :: claimRecords)

/-- Go `Keeper.GetClaimRecords`. -/
def GetClaimRecords {β : Type} (d : Deps β) (s : State β) : Except Panic (List ClaimRecord) :=
  getClaimRecordsLoop d s.store

/-- The loop of `GetUserTotalClaimable` over the actions still to visit, with the total so
far. -/
def totalClaimableLoop {β : Type} (d : Deps β) (s : State β) (addr : AccAddress) :
    List Nat → Coins → Exit
  | [], totalClaimable => .returned totalClaimable none
  | action :: rest, totalClaimable =>
    match GetClaimableAmountForAction d s addr action with
    | .panicked p => .panicked p
    | .returned _ (some err) => .returned [] (some err)
    | .returned claimableForAction none =>
      totalClaimableLoop d s addr rest (Coins.add totalClaimable claimableForAction)

/-- Go `Keeper.GetUserTotalClaimable`.  The argument `order` is the order in which `range` visits
the keys of the map `types.Action_name`, which Go leaves unspecified; the call reads the state
and writes nothing. -/
def GetUserTotalClaimable {β : Type} (d : Deps β) (s : State β) (addr : AccAddress)
    (order : List Nat) : Exit :=
  match GetClaimRecord d s addr with
  | (_, some err) => .returned [] (some err)
  | (claimRecord, none) =>
    if claimRecord.address = "" then .returned [] none
    else totalClaimableLoop d s addr order []

/-- Go `Keeper.fundRemainingsToCommunity`.  The log line formats `amt.Amount.Int64()`, which
panics when the balance is not an `int64`. -/
def fundRemainingsToCommunity {β : Type} (d : Deps β) (s : State β) : ExitErr × State β :=
  let moduleAccAddr := d.moduleAddress
  let amt := GetModuleAccountBalance d s
  if amt.amount < minInt64 ∨ maxInt64 < amt.amount then (.panicked .int64OutOfBound, s)
  else
    match NewCoins d [amt] with
    | .error p => (.panicked p, s)
    | .ok coins =>
      match d.fundCommunityPool s.bank s.communityPool coins moduleAccAddr with
      | (err, bank1, communityPool1) =>
        (.returned err, { s with bank := bank1, communityPool := communityPool1 })

/-- Go `Keeper.clearInitialClaimables`: every key the iterator visits is deleted. -/
def clearInitialClaimables {β : Type} (s : State β) : State β :=
  { s with store := s.store.foldl (fun st kv => Store.delete st kv.1) s.store }

/-- Go `Keeper.EndAirdrop`. -/
def EndAirdrop {β : Type} (d : Deps β) (s : State β) : ExitErr × State β :=
  match fundRemainingsToCommunity d s with
  | (.panicked p, s1) => (.panicked p, s1)
  | (.returned (some err), s1) => (.returned (some err), s1)
  | (.returned none, s1) => (.returned none, clearInitialClaimables s1)

/-! ## Auxiliary notions used in the proofs -/

/-- Closed form of `addEachCoin` on a denomination-sorted list: every amount mapped through
`g`, zero coins dropped. -/
def scaleCoins (g : Int → Int) (cs : Coins) : Coins :=
  removeZeroCoins (cs.map (fun c => ⟨c.denom, g c.amount⟩))

/-- Strictly increasing denominations. -/
def DenomSorted (cs : Coins) : Prop := cs.Pairwise (fun a b => denomLt a.denom b.denom = true)

/-- The scaled claimable fraction that `GetClaimableAmountForAction` computes inside the decay
window: `10^18 - floor(10^18 * decayTime / durationOfDecay)`. -/
def claimablePercentAt (decayTime durationOfDecay : Int) : Int :=
  precisionReuse - decayTime * precisionReuse / durationOfDecay

/-- The record `ClaimCoinsForAction` writes back: `ActionCompleted[action] = true`. -/
def markCompleted (claimRecord : ClaimRecord) (action : Nat) : ClaimRecord :=
  { claimRecord with actionCompleted := claimRecord.actionCompleted.set action true }

/-- The record stored under `addr`, when there is one, carries the address that decodes to
`addr`: what `SetClaimRecord`, the only writer of the store, guarantees. -/
def KeyedByAddress {β : Type} (d : Deps β) (s : State β) (addr : AccAddress) : Prop :=
  ∀ rec, GetClaimRecord d s addr = (rec, none) → rec.address ≠ "" →
    d.accAddressFromBech32 rec.address = .ok addr

/-! ## A concrete instance for the scenarios of the specification -/

/-- Modelled from the spec: `Params.IsAirdropEnabled` is declared in `x/claim/types`, which is
not among the sources.  Section 4.3 step 1 and the scenario of section 8: claiming is refused
when the current time is before `airdropStartTime`, and the reference gate is computed from the
parameters and the current time alone. -/
def Params.IsAirdropEnabled (p : Params) (t : Int) : Bool := !decide (t < p.airdropStartTime)

/-- The default denomination pattern of the SDK: a letter followed by 2 to 127 letters, digits
or separators. -/
def defaultValidateDenom (denom : String) : Bool :=
  match denom.toList with
  | [] => false
  | c :: cs =>
    c.isAlpha && decide (2 ≤ cs.length) && decide (cs.length ≤ 127) &&
      cs.all (fun x => x.isAlphanum || x == '/' || x == ':' || x == '.' || x == '_' || x == '-')

/-- A stand-in for bech32 decoding in the scenarios: the part after `pasg1` is the address,
one byte per character; any other string is refused. -/
def scenarioBech32 (address : String) : Except Err AccAddress :=
  match address.toList with
  | 'p' :: 'a' :: 's' :: 'g' :: '1' :: c :: cs => .ok ((c :: cs).map Char.toNat)
  | _ => .error .invalidAddress

/-- Collaborators of the scenarios: four actions, records stored as they are, the gate of the
specification, module accounts blocked as recipients. -/
def scenarioDeps : Deps ClaimRecord where
  numActions := 4
  isAirdropEnabled := Params.IsAirdropEnabled
  marshal := .ok
  unmarshal := .ok
  accAddressFromBech32 := scenarioBech32
  validateDenom := defaultValidateDenom
  moduleAddress := [0]
  distrModuleAddress := [1]
  blockedAddr := fun a => decide (a = [0]) || decide (a = [1])
  claimDenom := "upasg"
  fundCommunityPool := sdkFundCommunityPool defaultValidateDenom [1]

/-- State of the scenarios: one record, for the address `pasg1a`, with `allocation` units of
`upasg` and no action completed; the module account holds `pool` units. -/
def scenarioState (allocation pool : Int) (p : Params) (now : Int) : State ClaimRecord where
  store := [([97], ⟨"pasg1a", [⟨"upasg", allocation⟩], [false, false, false, false]⟩)]
  params := p
  blockTime := now
  bank := ⟨fun a dn => if a = [0] ∧ dn = "upasg" then pool else 0⟩
  communityPool := []
  events := []

/-- A state with an allocation in two denominations: the record of `pasg1a` holds 200 `aaa`
and 200 `bbb` with no action completed, the module account holds 1000 `aaa` and no `bbb`. -/
def twoDenomState (now : Int) : State ClaimRecord where
  store :=
    [([97], ⟨"pasg1a", [⟨"aaa", 200⟩, ⟨"bbb", 200⟩], [false, false, false, false]⟩)]
  params := ⟨1000, 100, 100⟩
  blockTime := now
  bank := ⟨fun a dn => if a = [0] ∧ dn = "aaa" then 1000 else 0⟩
  communityPool := []
  events := []

/-- Keys strictly ascending: the order in which the key-value store keeps and iterates its
entries, so that no key occurs twice. -/
def StoreSorted {β : Type} (st : Store β) : Prop := st.Pairwise (fun a b => a.1 < b.1)

/-- Every entry decodes to a record whose address decodes to the key of the entry: what
`SetClaimRecord`, the only writer of the store, guarantees with a lossless codec. -/
def StoreKeyed {β : Type} (d : Deps β) (st : Store β) : Prop :=
  ∀ kv ∈ st, ∃ r, d.unmarshal kv.2 = .ok r ∧ d.accAddressFromBech32 r.address = .ok kv.1

/-- The entries that `SetClaimRecords` writes for a list of records: for each leading record
that marshals and whose address decodes, the key and the bytes `SetClaimRecord` passes to
`prefixStore.Set`; the list ends before the first record that `SetClaimRecord` refuses. -/
def writtenEntries {β : Type} (d : Deps β) : List ClaimRecord → List (AccAddress × β)
  | [] => []
  | r :: rs =>
    match d.marshal r with
    | .error _ => []
    | .ok bz =>
      match d.accAddressFromBech32 r.address with
      | .error _ => []
      | .ok k => (k, bz) :: writtenEntries d rs

/-- A store after `prefixStore.Set` has been called for each entry of a list in turn. -/
def Store.setAll {β : Type} (st : Store β) (kvs : List (AccAddress × β)) : Store β :=
  kvs.foldl (fun acc kv => Store.set acc kv.1 kv.2) st

/-- The records of a list whose address decodes to `a`. -/
def recordsAt {β : Type} (d : Deps β) (a : AccAddress) (recs : List ClaimRecord) :
    List ClaimRecord :=
  recs.filter (fun r =>
    match d.accAddressFromBech32 r.address with
    | .ok k => decide (k = a)
    | .error _ => false)

/-- The amount a call of `GetClaimableAmountForAction` returns, empty when it panics. -/
def claimableOf {β : Type} (d : Deps β) (s : State β) (addr : AccAddress) (action : Nat) :
    Coins :=
  match GetClaimableAmountForAction d s addr action with
  | .returned coins _ => coins
  | .panicked _ => []

/-- Number of actions, among the `n` defined ones, that the record has not completed. -/
def openActions (n : Nat) (r : ClaimRecord) : Int :=
  ((List.range n).map (fun a => if r.actionCompleted.getD a false then (0 : Int) else 1)).sum

/-- Per denomination, the sum over the records and over their open actions of the per-action
share `floor(initialClaimableAmount / n)`. -/
def outstanding (n : Nat) (dn : String) (recs : List ClaimRecord) : Int :=
  (recs.map (fun r =>
    openActions n r * (Coins.amountOf dn r.initialClaimableAmount / (n : Int)))).sum

/-- The collaborators of the scenarios with a distribution keeper that refuses every
funding of the community pool and leaves the ledger and the community pool as they are. -/
def refusingDistrDeps : Deps ClaimRecord :=
  { scenarioDeps with
    fundCommunityPool := fun b communityPool _ _ => (some .unauthorized, b, communityPool) }

/-! ## Lemmas on coins -/
theorem denomLt_trans {a b c : String} (h1 : denomLt a b = true) (h2 : denomLt b c = true) :
    denomLt a c = true := by
  simp only [denomLt, decide_eq_true_eq] at *
  exact lt_trans h1 h2

theorem denomLt_ne {a b : String} (h : denomLt a b = true) : a ≠ b := by
  intro hab
  subst hab
  simp only [denomLt, decide_eq_true_eq] at h
  exact lt_irrefl _ h

theorem removeZeroCoins_idem (cs : Coins) : removeZeroCoins (removeZeroCoins cs) = removeZeroCoins cs := by
  simp [removeZeroCoins, List.filter_filter]

theorem removeZeroCoins_append (a b : Coins) :
    removeZeroCoins (a ++ b) = removeZeroCoins a ++ removeZeroCoins b := by
  simp [removeZeroCoins]

theorem add_single_of_lt (acc : Coins) (c : Coin)
    (h : ∀ a ∈ acc, denomLt a.denom c.denom = true) :
    Coins.add acc [c] = removeZeroCoins acc ++ removeZeroCoins [c] := by
  induction acc with
  | nil => simp [Coins.add, removeZeroCoins]
  | cons a as ih =>
    have ha : denomLt a.denom c.denom = true := h a (List.mem_cons_self _ _)
    have ih2 := ih (fun x hx => h x (List.mem_cons_of_mem _ hx))
    simp only [Coins.add, safeAddGo, ha, if_true]
    rw [ih2]
    by_cases hz : a.isZero = true
    · simp [removeZeroCoins, hz]
    · simp [removeZeroCoins, hz]

theorem mem_removeZeroCoins {cs : Coins} {c : Coin} (h : c ∈ removeZeroCoins cs) : c ∈ cs := by
  simp only [removeZeroCoins] at h
  exact List.mem_of_mem_filter h

theorem addEachCoin_closed {β : Type} (d : Deps β) (f : Int → Except Panic Int) (g : Int → Int)
    (l : Coins) : ∀ (acc : Coins),
    (∀ c ∈ l, f c.amount = .ok (g c.amount) ∧ 0 ≤ g c.amount ∧ d.validateDenom c.denom = true) →
    DenomSorted l →
    (∀ a ∈ acc, ∀ c ∈ l, denomLt a.denom c.denom = true) →
    removeZeroCoins acc = acc →
    addEachCoin d f l acc = .ok (acc ++ scaleCoins g l) := by
  induction l with
  | nil => intro acc _ _ _ _; simp [addEachCoin, scaleCoins, removeZeroCoins]
  | cons c cs ih =>
    intro acc hf hs hacc hnz
    obtain ⟨hfc, hg0, hvd⟩ := hf c (List.mem_cons_self _ _)
    have hs' : DenomSorted cs := (List.pairwise_cons.mp hs).2
    have hc_lt : ∀ x ∈ cs, denomLt c.denom x.denom = true := (List.pairwise_cons.mp hs).1
    have hadd : Coins.add acc [⟨c.denom, g c.amount⟩]
        = acc ++ removeZeroCoins [⟨c.denom, g c.amount⟩] := by
      rw [add_single_of_lt acc ⟨c.denom, g c.amount⟩
        (fun a ha => hacc a ha c (List.mem_cons_self _ _)), hnz]
    have hstep : addEachCoin d f (c :: cs) acc
        = addEachCoin d f cs (Coins.add acc [⟨c.denom, g c.amount⟩]) := by
      simp [addEachCoin, hfc, NewCoin, hvd, not_lt.mpr hg0]
    rw [hstep, hadd]
    rw [ih (acc ++ removeZeroCoins [⟨c.denom, g c.amount⟩])
      (fun x hx => hf x (List.mem_cons_of_mem _ hx)) hs']
    · simp only [scaleCoins, List.map_cons, List.append_assoc]
      congr 1
      rw [← removeZeroCoins_append]
      rfl
    · intro a ha x hx
      rcases List.mem_append.mp ha with h1 | h2
      · exact hacc a h1 x (List.mem_cons_of_mem _ hx)
      · have h3 := mem_removeZeroCoins h2
        simp only [List.mem_singleton] at h3
        subst h3
        exact hc_lt x hx
    · rw [removeZeroCoins_append, hnz, removeZeroCoins_idem]

theorem amountOf_removeZeroCoins (dn : String) (cs : Coins) :
    Coins.amountOf dn (removeZeroCoins cs) = Coins.amountOf dn cs := by
  induction cs with
  | nil => rfl
  | cons c cs ih =>
    by_cases hz : c.amount = 0
    · have : removeZeroCoins (c :: cs) = removeZeroCoins cs := by
        simp [removeZeroCoins, Coin.isZero, hz]
      rw [this, ih]
      simp [Coins.amountOf, hz]
    · have : removeZeroCoins (c :: cs) = c :: removeZeroCoins cs := by
        simp [removeZeroCoins, Coin.isZero, hz]
      rw [this]
      simp [Coins.amountOf, ih]

theorem amountOf_eq_zero_of_lt (dn : String) (cs : Coins)
    (h : ∀ x ∈ cs, denomLt dn x.denom = true) : Coins.amountOf dn cs = 0 := by
  induction cs with
  | nil => rfl
  | cons c cs ih =>
    have h1 := denomLt_ne (h c (List.mem_cons_self _ _))
    simp [Coins.amountOf, Ne.symm h1, ih (fun x hx => h x (List.mem_cons_of_mem _ hx))]

theorem amountOf_scaleCoins (g : Int → Int) (hg : g 0 = 0) (dn : String) (cs : Coins)
    (hs : DenomSorted cs) :
    Coins.amountOf dn (scaleCoins g cs) = g (Coins.amountOf dn cs) := by
  rw [scaleCoins, amountOf_removeZeroCoins]
  induction cs with
  | nil => simp [Coins.amountOf, hg]
  | cons c cs ih =>
    have hs' : DenomSorted cs := (List.pairwise_cons.mp hs).2
    have hc_lt : ∀ x ∈ cs, denomLt c.denom x.denom = true := (List.pairwise_cons.mp hs).1
    simp only [List.map_cons, Coins.amountOf]
    rw [ih hs']
    by_cases hd : c.denom = dn
    · subst hd
      simp [amountOf_eq_zero_of_lt _ cs hc_lt, hg]
    · simp [hd]

theorem denomSorted_scaleCoins (g : Int → Int) (cs : Coins) (hs : DenomSorted cs) :
    DenomSorted (scaleCoins g cs) := by
  unfold scaleCoins removeZeroCoins DenomSorted
  apply List.Pairwise.filter
  rw [List.pairwise_map]
  exact hs

theorem isValid_sorted (vd : String → Bool) (cs : Coins) (h : Coins.isValid vd cs = true) :
    DenomSorted cs ∧ ∀ c ∈ cs, vd c.denom = true ∧ 0 < c.amount := by
  induction cs with
  | nil => exact ⟨List.Pairwise.nil, by simp⟩
  | cons c cs ih =>
    cases cs with
    | nil =>
      simp only [Coins.isValid, Bool.and_eq_true, decide_eq_true_eq] at h
      exact ⟨List.pairwise_singleton _ _, by simpa using h⟩
    | cons c2 cs2 =>
      simp only [Coins.isValid, Bool.and_eq_true, decide_eq_true_eq] at h
      obtain ⟨⟨⟨hv, hp⟩, hlt⟩, hrest⟩ := h
      obtain ⟨ihs, ihv⟩ := ih hrest
      refine ⟨?_, ?_⟩
      · refine List.pairwise_cons.mpr ⟨?_, ihs⟩
        intro x hx
        rcases List.mem_cons.mp hx with h1 | h1
        · subst h1; exact hlt
        · exact denomLt_trans hlt ((List.pairwise_cons.mp ihs).1 x h1)
      · intro x hx
        rcases List.mem_cons.mp hx with h1 | h1
        · subst h1; exact ⟨hv, hp⟩
        · exact ihv x h1

/-! ## Lemmas on `sdk.Dec` rounding -/

theorem chopNonneg_eq (x : Int) (hx : 0 ≤ x) :
    chopNonneg x =
      if x % precisionReuse < fivePrecision then x / precisionReuse
      else if fivePrecision < x % precisionReuse then x / precisionReuse + 1
      else if (x / precisionReuse) % 2 = 0 then x / precisionReuse
      else x / precisionReuse + 1 := by
  have hP : (0:Int) ≤ precisionReuse := by decide
  simp only [chopNonneg, Int.tdiv_eq_ediv hx hP, Int.tmod_eq_emod hx hP]
  by_cases h0 : x % precisionReuse = 0
  · have : x % precisionReuse < fivePrecision := by rw [h0]; decide
    rw [if_pos h0, if_pos this]
  · rw [if_neg h0]

theorem chopPrecisionAndRound_nonneg (x : Int) (hx : 0 ≤ x) :
    chopPrecisionAndRound x = chopNonneg x := by
  simp [chopPrecisionAndRound, not_lt.mpr hx]

theorem chopNonneg_zero : chopNonneg 0 = 0 := by decide

theorem chopNonneg_nonneg (x : Int) (hx : 0 ≤ x) : 0 ≤ chopNonneg x := by
  rw [chopNonneg_eq x hx]
  have h : 0 ≤ x / precisionReuse := Int.ediv_nonneg hx (by decide)
  split_ifs <;> omega

theorem chopNonneg_mono (x y : Int) (hx : 0 ≤ x) (hxy : x ≤ y) : chopNonneg x ≤ chopNonneg y := by
  rw [chopNonneg_eq x hx, chopNonneg_eq y (le_trans hx hxy)]
  simp only [precisionReuse, fivePrecision]
  split_ifs <;> omega

theorem chopNonneg_nearest (x : Int) (hx : 0 ≤ x) :
    -precisionReuse ≤ 2 * (chopNonneg x * precisionReuse - x) ∧
    2 * (chopNonneg x * precisionReuse - x) ≤ precisionReuse ∧
      (2 * (chopNonneg x * precisionReuse - x) = precisionReuse ∨
        2 * (chopNonneg x * precisionReuse - x) = -precisionReuse → chopNonneg x % 2 = 0) := by
  rw [chopNonneg_eq x hx]
  simp only [precisionReuse, fivePrecision]
  split_ifs <;> omega

theorem chopNonneg_mul_exact (a : Int) (ha : 0 ≤ a) :
    chopNonneg (a * precisionReuse) = a := by
  rw [chopNonneg_eq _ (Int.mul_nonneg ha (by decide))]
  simp only [precisionReuse, fivePrecision]
  split_ifs <;> omega

/-- `coin.Amount.ToDec().Mul(pct).RoundInt()` for a non-negative product. -/
theorem roundInt_mul_ofInt (a : Int) (pct : Dec) (h : 0 ≤ a * pct.i) :
    Dec.roundInt (Dec.mul (Dec.ofInt a) pct) = chopNonneg (a * pct.i) := by
  have h1 : a * precisionReuse * pct.i = (a * pct.i) * precisionReuse := by ring
  have h2 : (0:Int) ≤ a * precisionReuse * pct.i := by
    rw [h1]; exact Int.mul_nonneg h (by decide)
  simp only [Dec.roundInt, Dec.mul, Dec.ofInt]
  rw [chopPrecisionAndRound_nonneg _ h2, h1, chopNonneg_mul_exact _ h,
    chopPrecisionAndRound_nonneg _ h]

theorem chopNonneg_le (a c : Int) (ha : 0 ≤ a) (hc0 : 0 ≤ c) (hc : c ≤ precisionReuse) :
    chopNonneg (a * c) ≤ a := by
  have h1 : a * c ≤ a * precisionReuse := Int.mul_le_mul_of_nonneg_left hc ha
  have := chopNonneg_mono (a * c) (a * precisionReuse) (Int.mul_nonneg ha hc0) h1
  rwa [chopNonneg_mul_exact a ha] at this

/-! ## The three time windows of `GetClaimableAmountForAction` -/

theorem mem_scaleCoins {g : Int → Int} {cs : Coins} {c : Coin} (h : c ∈ scaleCoins g cs) :
    ∃ c0 ∈ cs, c = ⟨c0.denom, g c0.amount⟩ := by
  have h1 := mem_removeZeroCoins h
  obtain ⟨c0, hc0, rfl⟩ := List.mem_map.mp h1
  exact ⟨c0, hc0, rfl⟩

theorem perAction_closed {β : Type} (d : Deps β) (initial : Coins) (hN : 0 < d.numActions)
    (hv : Coins.isValid d.validateDenom initial = true) :
    initialClaimablePerAction d initial
      = .ok (scaleCoins (fun a => a / (d.numActions : Int)) initial) := by
  obtain ⟨hs, hall⟩ := isValid_sorted _ _ hv
  have h := addEachCoin_closed d (quoRawActions d) (fun a => a / (d.numActions : Int)) initial []
    (fun c hc => by
      obtain ⟨hvd, hpos⟩ := hall c hc
      have hn : (0:Int) ≤ (d.numActions : Int) := Int.ofNat_nonneg _
      refine ⟨?_, Int.ediv_nonneg (le_of_lt hpos) hn, hvd⟩
      simp [quoRawActions, Nat.pos_iff_ne_zero.mp hN, Int.tdiv_eq_ediv (le_of_lt hpos) hn])
    hs (by simp) rfl
  simpa [initialClaimablePerAction] using h

theorem perAction_props {β : Type} (d : Deps β) (initial : Coins)
    (hv : Coins.isValid d.validateDenom initial = true) :
    DenomSorted (scaleCoins (fun a => a / (d.numActions : Int)) initial) ∧
    ∀ c ∈ scaleCoins (fun a => a / (d.numActions : Int)) initial,
      d.validateDenom c.denom = true ∧ 0 ≤ c.amount := by
  obtain ⟨hs, hall⟩ := isValid_sorted _ _ hv
  refine ⟨denomSorted_scaleCoins _ _ hs, ?_⟩
  intro c hc
  obtain ⟨c0, hc0, rfl⟩ := mem_scaleCoins hc
  exact ⟨(hall c0 hc0).1, Int.ediv_nonneg (le_of_lt (hall c0 hc0).2) (Int.ofNat_nonneg _)⟩

theorem claimableCoins_closed {β : Type} (d : Deps β) (perAction : Coins) (pct : Dec)
    (hp : 0 ≤ pct.i) (hs : DenomSorted perAction)
    (hall : ∀ c ∈ perAction, d.validateDenom c.denom = true ∧ 0 ≤ c.amount) :
    claimableCoins d perAction pct
      = .ok (scaleCoins (fun a => chopNonneg (a * pct.i)) perAction) := by
  have h := addEachCoin_closed d
    (fun a => .ok (Dec.roundInt (Dec.mul (Dec.ofInt a) pct)))
    (fun a => chopNonneg (a * pct.i)) perAction []
    (fun c hc => by
      obtain ⟨hvd, hpos⟩ := hall c hc
      have hnn : 0 ≤ c.amount * pct.i := Int.mul_nonneg hpos hp
      exact ⟨by simp only [roundInt_mul_ofInt _ _ hnn], chopNonneg_nonneg _ hnn, hvd⟩)
    hs (by simp) rfl
  simpa [claimableCoins] using h

theorem wrap64_id (x : Int) (h1 : minInt64 ≤ x) (h2 : x ≤ maxInt64) : wrap64 x = x := by
  simp only [wrap64, minInt64, maxInt64] at *
  omega

theorem timeSub_id (t u : Int) (h1 : minInt64 ≤ t - u) (h2 : t - u ≤ maxInt64) :
    timeSub t u = t - u := by
  simp only [timeSub, minInt64, maxInt64] at *
  split_ifs <;> omega

theorem claimablePercentAt_nonneg (t D : Int) (h0 : 0 < t) (h1 : t ≤ D) :
    0 ≤ claimablePercentAt t D := by
  have hD : 0 < D := lt_of_lt_of_le h0 h1
  have : t * precisionReuse / D ≤ precisionReuse := by
    apply Int.ediv_le_of_le_mul hD
    rw [mul_comm precisionReuse D]
    exact Int.mul_le_mul_of_nonneg_right h1 (show (0:Int) ≤ precisionReuse by decide)
  unfold claimablePercentAt
  omega

theorem claimablePercentAt_le (t D : Int) (h0 : 0 < t) (h1 : t ≤ D) :
    claimablePercentAt t D ≤ precisionReuse := by
  have hD : 0 < D := lt_of_lt_of_le h0 h1
  have : 0 ≤ t * precisionReuse / D :=
    Int.ediv_nonneg (Int.mul_nonneg (le_of_lt h0) (by decide)) (le_of_lt hD)
  unfold claimablePercentAt
  omega

/-- Before the start time the call returns the empty amount. -/
theorem claimable_before_start {β : Type} (d : Deps β) (s : State β) (addr : AccAddress)
    (action : Nat) (rec : ClaimRecord)
    (hrec : GetClaimRecord d s addr = (rec, none))
    (hidx : rec.address ≠ "" → action < rec.actionCompleted.length)
    (hnow : s.blockTime < s.params.airdropStartTime) :
    GetClaimableAmountForAction d s addr action = .returned [] none := by
  unfold GetClaimableAmountForAction
  rw [hrec]
  by_cases ha : rec.address = ""
  · simp [ha]
  · have hlt := hidx ha
    simp only [ha, if_false]
    rw [List.getElem?_eq_getElem hlt]
    cases rec.actionCompleted[action] <;> simp [hnow]

/-- Inside the no-decay window the call returns the per-action share. -/
theorem claimable_full_window {β : Type} (d : Deps β) (s : State β) (addr : AccAddress)
    (action : Nat) (rec : ClaimRecord)
    (hrec : GetClaimRecord d s addr = (rec, none))
    (haddr : rec.address ≠ "")
    (hflag : rec.actionCompleted[action]? = some false)
    (hN : 0 < d.numActions)
    (hv : Coins.isValid d.validateDenom rec.initialClaimableAmount = true)
    (hU : s.params.durationUntilDecay ≤ maxInt64)
    (h0 : 0 ≤ s.blockTime - s.params.airdropStartTime)
    (h1 : s.blockTime - s.params.airdropStartTime ≤ s.params.durationUntilDecay) :
    GetClaimableAmountForAction d s addr action =
      .returned (scaleCoins (fun a => a / (d.numActions : Int)) rec.initialClaimableAmount)
        none := by
  have hnow : ¬ s.blockTime < s.params.airdropStartTime := by omega
  have hsub : timeSub s.blockTime s.params.airdropStartTime
      = s.blockTime - s.params.airdropStartTime :=
    timeSub_id _ _ (by simp only [minInt64]; omega) (by omega)
  unfold GetClaimableAmountForAction
  rw [hrec]
  simp only [haddr, if_false, hflag, hnow, perAction_closed d _ hN hv, hsub, h1, if_true]

/-- Inside the decay window the call returns the share scaled by the claimable fraction. -/
theorem claimable_decay_window {β : Type} (d : Deps β) (s : State β) (addr : AccAddress)
    (action : Nat) (rec : ClaimRecord)
    (hrec : GetClaimRecord d s addr = (rec, none))
    (haddr : rec.address ≠ "")
    (hflag : rec.actionCompleted[action]? = some false)
    (hN : 0 < d.numActions)
    (hv : Coins.isValid d.validateDenom rec.initialClaimableAmount = true)
    (hU : 0 ≤ s.params.durationUntilDecay)
    (hD : s.params.durationOfDecay ≤ maxInt64)
    (hsum : s.params.durationUntilDecay + s.params.durationOfDecay ≤ maxInt64)
    (h1 : s.params.durationUntilDecay < s.blockTime - s.params.airdropStartTime)
    (h2 : s.blockTime - s.params.airdropStartTime
      ≤ s.params.durationUntilDecay + s.params.durationOfDecay) :
    GetClaimableAmountForAction d s addr action =
      .returned
        (scaleCoins
          (fun a => chopNonneg (a * claimablePercentAt
            (s.blockTime - s.params.airdropStartTime - s.params.durationUntilDecay)
            s.params.durationOfDecay))
          (scaleCoins (fun a => a / (d.numActions : Int)) rec.initialClaimableAmount))
        none := by
  have hmin : minInt64 = -9223372036854775808 := rfl
  have hmax : maxInt64 = 9223372036854775807 := rfl
  have hnow : ¬ s.blockTime < s.params.airdropStartTime := by omega
  have hsub : timeSub s.blockTime s.params.airdropStartTime
      = s.blockTime - s.params.airdropStartTime :=
    timeSub_id _ _ (by omega) (by omega)
  have hw1 : wrap64 (s.params.durationUntilDecay + s.params.durationOfDecay)
      = s.params.durationUntilDecay + s.params.durationOfDecay :=
    wrap64_id _ (by omega) hsum
  have hw2 : wrap64 (s.blockTime - s.params.airdropStartTime - s.params.durationUntilDecay)
      = s.blockTime - s.params.airdropStartTime - s.params.durationUntilDecay :=
    wrap64_id _ (by omega) (by omega)
  have ht0 : 0 < s.blockTime - s.params.airdropStartTime - s.params.durationUntilDecay := by
    omega
  have htD : s.blockTime - s.params.airdropStartTime - s.params.durationUntilDecay
      ≤ s.params.durationOfDecay := by omega
  have hDpos : 0 < s.params.durationOfDecay := by omega
  have hquo : Dec.quoInt64
      (Dec.newDec (s.blockTime - s.params.airdropStartTime - s.params.durationUntilDecay))
      s.params.durationOfDecay
      = .ok ⟨(s.blockTime - s.params.airdropStartTime - s.params.durationUntilDecay)
          * precisionReuse / s.params.durationOfDecay⟩ := by
    simp only [Dec.quoInt64, Dec.newDec, ne_of_gt hDpos, if_false]
    rw [Int.tdiv_eq_ediv (Int.mul_nonneg (le_of_lt ht0) (by decide)) (le_of_lt hDpos)]
  obtain ⟨hps, hpall⟩ := perAction_props d _ hv
  have hcc := claimableCoins_closed d _
    (Dec.sub Dec.oneDec ⟨(s.blockTime - s.params.airdropStartTime - s.params.durationUntilDecay)
          * precisionReuse / s.params.durationOfDecay⟩)
    (claimablePercentAt_nonneg _ _ ht0 htD) hps hpall
  unfold GetClaimableAmountForAction
  rw [hrec]
  simp only [haddr, if_false, hflag, hnow, perAction_closed d _ hN hv, hsub, hw1, hw2,
    not_le.mpr h1, not_lt.mpr h2, hquo, hcc]
  rfl

/-! ## Lemmas on the store and on `ClaimCoinsForAction` -/

theorem Store.get_set_same {β : Type} (st : Store β) (k : AccAddress) (v : β) :
    Store.get (Store.set st k v) k = some v := by
  induction st with
  | nil => simp [Store.set, Store.get]
  | cons kv rest ih =>
    obtain ⟨k0, v0⟩ := kv
    simp only [Store.set]
    by_cases h1 : k0 = k
    · simp [h1, Store.get]
    · by_cases h2 : k < k0
      · simp [h1, h2, Store.get]
      · simp [h1, h2, Store.get, ih]

theorem Store.get_set_other {β : Type} (st : Store β) (k k1 : AccAddress) (v : β)
    (hne : k1 ≠ k) : Store.get (Store.set st k v) k1 = Store.get st k1 := by
  induction st with
  | nil => simp [Store.set, Store.get, Ne.symm hne]
  | cons kv rest ih =>
    obtain ⟨k0, v0⟩ := kv
    simp only [Store.set]
    by_cases h1 : k0 = k
    · subst h1
      simp [Store.get, Ne.symm hne]
    · by_cases h2 : k < k0
      · simp [h1, h2, Store.get, Ne.symm hne]
      · simp only [h1, h2, if_false, decide_False, Store.get, ih]

/-- A non-empty claimable amount comes from a stored record whose action is still open. -/
theorem claimable_nonempty_inv {β : Type} (d : Deps β) (s : State β) (addr : AccAddress)
    (action : Nat) (c : Coins) (e : Option Err)
    (h : GetClaimableAmountForAction d s addr action = .returned c e) (hc : c ≠ []) :
    e = none ∧ ∃ rec, GetClaimRecord d s addr = (rec, none) ∧ rec.address ≠ "" ∧
      rec.actionCompleted[action]? = some false := by
  unfold GetClaimableAmountForAction at h
  rcases hrec : GetClaimRecord d s addr with ⟨rec, _ | err⟩
  · rw [hrec] at h
    simp only at h
    by_cases ha : rec.address = ""
    · simp [ha] at h; exact absurd h.1 hc
    · simp only [ha, if_false] at h
      rcases hf : rec.actionCompleted[action]? with _ | b
      · simp [hf] at h
      · cases b
        · refine ⟨?_, rec, rfl, ha, hf⟩
          simp only [hf] at h
          split at h
          · simp at h; exact h.2.symm
          · split at h
            · simp at h
            · split at h
              · simp at h; exact h.2.symm
              · split at h
                · simp at h; exact h.2.symm
                · split at h
                  · simp at h
                  · split at h
                    · simp at h
                    · simp at h; exact h.2.symm
        · simp [hf] at h; exact absurd h.1 hc
  · rw [hrec] at h
    simp at h
    exact absurd h.1 hc

/-- Every way a call of `ClaimCoinsForAction` can end. -/
theorem claim_cases {β : Type} (d : Deps β) (s : State β) (addr : AccAddress) (action : Nat) :
    (d.isAirdropEnabled s.params s.blockTime = false ∧
      ClaimCoinsForAction d s addr action = (.returned [] (some .airdropNotEnabled), s)) ∨
    (d.isAirdropEnabled s.params s.blockTime = true ∧
      ((∃ p, GetClaimableAmountForAction d s addr action = .panicked p ∧
          ClaimCoinsForAction d s addr action = (.panicked p, s)) ∨
       (∃ c e, GetClaimableAmountForAction d s addr action = .returned c (some e) ∧
          ClaimCoinsForAction d s addr action = (.returned c (some e), s)) ∨
       (GetClaimableAmountForAction d s addr action = .returned [] none ∧
          ClaimCoinsForAction d s addr action = (.returned [] none, s)) ∨
       (∃ c rec, c ≠ [] ∧ GetClaimableAmountForAction d s addr action = .returned c none ∧
          GetClaimRecord d s addr = (rec, none) ∧ rec.address ≠ "" ∧
          rec.actionCompleted[action]? = some false ∧
          ((∃ e bank1, sendCoinsFromModuleToAccount d s.bank addr c = (some e, bank1) ∧
              ClaimCoinsForAction d s addr action
                = (.returned [] (some e), { s with bank := bank1 })) ∨
           (∃ bank1, sendCoinsFromModuleToAccount d s.bank addr c = (none, bank1) ∧
              ((∃ e, SetClaimRecord d { s with bank := bank1 } (markCompleted rec action)
                    = (some e, { s with bank := bank1 }) ∧
                  ClaimCoinsForAction d s addr action
                    = (.returned c (some e), { s with bank := bank1 })) ∨
               (∃ bz k, d.marshal (markCompleted rec action) = .ok bz ∧
                  d.accAddressFromBech32 rec.address = .ok k ∧
                  ClaimCoinsForAction d s addr action
                    = (.returned c none,
                        { s with bank := bank1, store := Store.set s.store k bz,
                                 events := s.events ++ [(addr, c)] })))))))) := by
  by_cases hg : d.isAirdropEnabled s.params s.blockTime = true
  swap
  · left
    have hg' : d.isAirdropEnabled s.params s.blockTime = false := by simpa using hg
    exact ⟨hg', by simp [ClaimCoinsForAction, hg']⟩
  right
  refine ⟨hg, ?_⟩
  rcases hgc : GetClaimableAmountForAction d s addr action with ⟨c, _ | e⟩ | p
  · by_cases hc : c = []
    · subst hc
      right; right; left
      exact ⟨rfl, by simp [ClaimCoinsForAction, hg, hgc]⟩
    · right; right; right
      obtain ⟨-, rec, hrec, haddr, hflag⟩ := claimable_nonempty_inv d s addr action c none hgc hc
      refine ⟨c, rec, hc, rfl, hrec, haddr, hflag, ?_⟩
      have hlen : action < rec.actionCompleted.length := by
        by_contra hlt
        rw [List.getElem?_eq_none (not_lt.mp hlt)] at hflag
        exact absurd hflag (by simp)
      have hemp : c.isEmpty = false := by
        cases c with
        | nil => exact absurd rfl hc
        | cons _ _ => rfl
      rcases hsend : sendCoinsFromModuleToAccount d s.bank addr c with ⟨_ | e, bank1⟩
      swap
      · left
        exact ⟨e, bank1, rfl, by simp [ClaimCoinsForAction, hg, hgc, hemp, hrec, hsend]⟩
      · right
        refine ⟨bank1, rfl, ?_⟩
        rcases hm : d.marshal (markCompleted rec action) with e | bz
        · left
          refine ⟨e, by simp [SetClaimRecord, hm], ?_⟩
          simp [ClaimCoinsForAction, hg, hgc, hemp, hrec, hsend, hlen, SetClaimRecord,
            markCompleted] at hm ⊢
          simp [hm]
        · rcases hk : d.accAddressFromBech32 rec.address with e | k
          · left
            refine ⟨e, by
              have hm1 := hm
              simp only [markCompleted] at hm1
              simp [SetClaimRecord, markCompleted, hm1, hk], ?_⟩
            simp [ClaimCoinsForAction, hg, hgc, hemp, hrec, hsend, hlen, SetClaimRecord,
              markCompleted] at hm ⊢
            simp [hm, hk]
          · right
            refine ⟨bz, k, rfl, rfl, ?_⟩
            simp [ClaimCoinsForAction, hg, hgc, hemp, hrec, hsend, hlen, SetClaimRecord,
              markCompleted] at hm ⊢
            simp [hm, hk]
  · right; left
    exact ⟨c, e, rfl, by simp [ClaimCoinsForAction, hg, hgc]⟩
  · left
    exact ⟨p, rfl, by simp [ClaimCoinsForAction, hg, hgc]⟩

/-! ## Lemmas on the ledger -/

theorem Bank.getBalance_setBalance (b : Bank) (a x : AccAddress) (dn dn1 : String) (v : Int) :
    (b.setBalance a dn v).getBalance x dn1
      = if x = a ∧ dn1 = dn then v else b.getBalance x dn1 := rfl

theorem Bank.subLoop_balance (a : AccAddress) (cs : Coins) :
    ∀ (b b1 : Bank), Bank.subLoop b a cs = (none, b1) →
      ∀ x dn, b1.getBalance x dn
        = if x = a then b.getBalance a dn - Coins.amountOf dn cs else b.getBalance x dn := by
  induction cs with
  | nil =>
    intro b b1 h x dn
    simp only [Bank.subLoop, Prod.mk.injEq, true_and] at h
    subst h
    by_cases hx : x = a <;> simp [hx, Coins.amountOf]
  | cons c cs ih =>
    intro b b1 h x dn
    simp only [Bank.subLoop] at h
    split at h
    · exact absurd h (by simp)
    · rw [ih _ _ h x dn]
      simp only [Bank.getBalance_setBalance, Coins.amountOf]
      by_cases hx : x = a
      · by_cases hd : dn = c.denom
        · subst hd; simp [hx]; ring
        · simp [hx, hd, Ne.symm hd]
      · simp [hx]

/-- A debit that fails has stopped at a coin the balance does not cover: the coins before it
are debited, no other account is touched, and the error is `insufficientFunds`. -/
theorem Bank.subLoop_fail (a : AccAddress) (cs : Coins) :
    ∀ (b b1 : Bank) (e : Err), Bank.subLoop b a cs = (some e, b1) →
      e = .insufficientFunds ∧
      ∃ pre c post, cs = pre ++ c :: post ∧
        b1.getBalance a c.denom < c.amount ∧
        ∀ x dn, b1.getBalance x dn
          = if x = a then b.getBalance a dn - Coins.amountOf dn pre else b.getBalance x dn := by
  induction cs with
  | nil =>
    intro b b1 e h
    simp [Bank.subLoop] at h
  | cons c cs ih =>
    intro b b1 e h
    simp only [Bank.subLoop] at h
    split at h
    · rename_i hlt
      simp only [Prod.mk.injEq, Option.some.injEq] at h
      obtain ⟨he, hb⟩ := h
      subst hb
      refine ⟨he.symm, [], c, cs, rfl, hlt, fun x dn => ?_⟩
      by_cases hx : x = a <;> simp [hx, Coins.amountOf]
    · obtain ⟨he, pre, c1, post, hcs, hlt, hbal⟩ := ih _ _ _ h
      refine ⟨he, c :: pre, c1, post, by rw [hcs]; rfl, hlt, fun x dn => ?_⟩
      rw [hbal x dn]
      simp only [Bank.getBalance_setBalance, Coins.amountOf]
      by_cases hx : x = a
      · by_cases hd : dn = c.denom
        · subst hd; simp [hx]; ring
        · simp [hx, hd, Ne.symm hd]
      · simp [hx]

/-- A transfer out of the module account that fails either has left the ledger as it was, or
has failed for lack of funds at a coin of the amount, with the coins before it debited from
the module account and nothing credited. -/
theorem send_fail_cases {β : Type} (d : Deps β) (b b1 : Bank) (addr : AccAddress) (amt : Coins)
    (e : Err) (h : sendCoinsFromModuleToAccount d b addr amt = (some e, b1)) :
    b1 = b ∨
    (e = .insufficientFunds ∧
      ∃ pre c post, amt = pre ++ c :: post ∧
        b1.getBalance d.moduleAddress c.denom < c.amount ∧
        ∀ x dn, b1.getBalance x dn
          = if x = d.moduleAddress then
              b.getBalance d.moduleAddress dn - Coins.amountOf dn pre
            else b.getBalance x dn) := by
  unfold sendCoinsFromModuleToAccount at h
  split at h
  · left
    simp only [Prod.mk.injEq] at h
    exact h.2.symm
  · unfold Bank.sendCoins at h
    split at h
    · left
      simp only [Prod.mk.injEq] at h
      exact h.2.symm
    · rcases hsub : Bank.subLoop b d.moduleAddress amt with ⟨_ | e2, b2⟩
      · rw [hsub] at h
        exact absurd h (by simp)
      · rw [hsub] at h
        simp only [Prod.mk.injEq, Option.some.injEq] at h
        obtain ⟨he, hb⟩ := h
        subst he hb
        right
        exact Bank.subLoop_fail _ _ _ _ _ hsub

theorem Bank.addLoop_balance (a : AccAddress) (cs : Coins) :
    ∀ (b : Bank) x dn, (Bank.addLoop b a cs).getBalance x dn
        = if x = a then b.getBalance a dn + Coins.amountOf dn cs else b.getBalance x dn := by
  induction cs with
  | nil =>
    intro b x dn
    by_cases hx : x = a <;> simp [hx, Coins.amountOf, Bank.addLoop]
  | cons c cs ih =>
    intro b x dn
    simp only [Bank.addLoop]
    rw [ih]
    simp only [Bank.getBalance_setBalance, Coins.amountOf]
    by_cases hx : x = a
    · by_cases hd : dn = c.denom
      · subst hd; simp [hx]; ring
      · simp [hx, hd, Ne.symm hd]
    · simp [hx]

/-- A successful transfer out of the module account debits it, per denomination, by the amount
sent, provided the recipient is another account. -/
theorem send_debits_module {β : Type} (d : Deps β) (b b1 : Bank) (addr : AccAddress) (amt : Coins)
    (h : sendCoinsFromModuleToAccount d b addr amt = (none, b1)) (hne : addr ≠ d.moduleAddress)
    (dn : String) :
    b1.getBalance d.moduleAddress dn = b.getBalance d.moduleAddress dn - Coins.amountOf dn amt ∧
    b1.getBalance addr dn = b.getBalance addr dn + Coins.amountOf dn amt := by
  unfold sendCoinsFromModuleToAccount at h
  split at h
  · exact absurd h (by simp)
  · unfold Bank.sendCoins at h
    split at h
    · exact absurd h (by simp)
    · rcases hsub : Bank.subLoop b d.moduleAddress amt with ⟨_ | e, b2⟩
      swap
      · rw [hsub] at h; exact absurd h (by simp)
      · rw [hsub] at h
        simp only [Prod.mk.injEq, true_and] at h
        subst h
        have h1 := Bank.subLoop_balance _ _ _ _ hsub
        constructor
        · simp only [Bank.addLoop_balance, h1]
          simp [Ne.symm hne]
        · simp only [Bank.addLoop_balance, h1]
          simp [hne]

/-! ## Further lemmas on `GetClaimableAmountForAction` -/

theorem getClaimRecord_blockTime {β : Type} (d : Deps β) (s : State β) (t : Int)
    (a : AccAddress) : GetClaimRecord d { s with blockTime := t } a = GetClaimRecord d s a := rfl

theorem amountOf_nonneg (dn : String) (cs : Coins) (h : ∀ c ∈ cs, 0 ≤ c.amount) :
    0 ≤ Coins.amountOf dn cs := by
  induction cs with
  | nil => simp [Coins.amountOf]
  | cons c cs ih =>
    have h1 := h c (List.mem_cons_self _ _)
    have h2 := ih (fun x hx => h x (List.mem_cons_of_mem _ hx))
    simp only [Coins.amountOf]
    split_ifs <;> omega

theorem amountOf_share {β : Type} (d : Deps β) (initial : Coins)
    (hv : Coins.isValid d.validateDenom initial = true) (dn : String) :
    Coins.amountOf dn (scaleCoins (fun a => a / (d.numActions : Int)) initial)
      = Coins.amountOf dn initial / (d.numActions : Int) :=
  amountOf_scaleCoins _ (by simp) dn initial (isValid_sorted _ _ hv).1

theorem amountOf_decayed {β : Type} (d : Deps β) (initial : Coins)
    (hv : Coins.isValid d.validateDenom initial = true) (pct : Int) (dn : String) :
    Coins.amountOf dn
        (scaleCoins (fun a => chopNonneg (a * pct))
          (scaleCoins (fun a => a / (d.numActions : Int)) initial))
      = chopNonneg (Coins.amountOf dn initial / (d.numActions : Int) * pct) := by
  rw [amountOf_scaleCoins _ (by simp [chopNonneg_zero]) dn _ (perAction_props d initial hv).1,
    amountOf_share d initial hv]

theorem share_nonneg {β : Type} (d : Deps β) (initial : Coins)
    (hv : Coins.isValid d.validateDenom initial = true) (dn : String) :
    0 ≤ Coins.amountOf dn initial / (d.numActions : Int) :=
  Int.ediv_nonneg
    (amountOf_nonneg dn _ (fun c hc => le_of_lt ((isValid_sorted _ _ hv).2 c hc).2))
    (Int.ofNat_nonneg _)

/-- Without a stored record the claimable amount is empty. -/
theorem claimable_no_record {β : Type} (d : Deps β) (s : State β) (addr : AccAddress)
    (action : Nat) (rec : ClaimRecord)
    (hrec : GetClaimRecord d s addr = (rec, none)) (haddr : rec.address = "") :
    GetClaimableAmountForAction d s addr action = .returned [] none := by
  unfold GetClaimableAmountForAction
  rw [hrec]
  simp [haddr]

theorem claimable_completed {β : Type} (d : Deps β) (s : State β) (addr : AccAddress)
    (action : Nat) (rec : ClaimRecord)
    (hrec : GetClaimRecord d s addr = (rec, none))
    (hflag : rec.actionCompleted[action]? = some true) :
    GetClaimableAmountForAction d s addr action = .returned [] none := by
  unfold GetClaimableAmountForAction
  rw [hrec]
  by_cases ha : rec.address = ""
  · simp [ha]
  · simp [ha, hflag]

/-- After the decay window the call returns the empty amount. -/
theorem claimable_after_window {β : Type} (d : Deps β) (s : State β) (addr : AccAddress)
    (action : Nat) (rec : ClaimRecord)
    (hrec : GetClaimRecord d s addr = (rec, none))
    (haddr : rec.address ≠ "")
    (hflag : rec.actionCompleted[action]? = some false)
    (hN : 0 < d.numActions)
    (hv : Coins.isValid d.validateDenom rec.initialClaimableAmount = true)
    (hU : minInt64 ≤ s.params.durationUntilDecay)
    (hD : 0 ≤ s.params.durationOfDecay)
    (hE : s.blockTime - s.params.airdropStartTime ≤ maxInt64)
    (h : s.params.durationUntilDecay + s.params.durationOfDecay
      < s.blockTime - s.params.airdropStartTime) :
    GetClaimableAmountForAction d s addr action = .returned [] none := by
  have hmin : minInt64 = -9223372036854775808 := rfl
  have hmax : maxInt64 = 9223372036854775807 := rfl
  by_cases hnow : s.blockTime < s.params.airdropStartTime
  · exact claimable_before_start d s addr action rec hrec
      (fun _ => by
        by_contra hlt
        rw [List.getElem?_eq_none (not_lt.mp hlt)] at hflag
        exact absurd hflag (by simp)) hnow
  · have hsub : timeSub s.blockTime s.params.airdropStartTime
        = s.blockTime - s.params.airdropStartTime :=
      timeSub_id _ _ (by omega) hE
    have hw1 : wrap64 (s.params.durationUntilDecay + s.params.durationOfDecay)
        = s.params.durationUntilDecay + s.params.durationOfDecay :=
      wrap64_id _ (by omega) (by omega)
    have hnle : ¬ s.blockTime - s.params.airdropStartTime ≤ s.params.durationUntilDecay := by
      omega
    unfold GetClaimableAmountForAction
    rw [hrec]
    simp only [haddr, if_false, hflag, hnow, perAction_closed d _ hN hv, hsub, hw1, hnle, h,
      if_true]

/-- When the end of the decay window overflows `int64`, the amount returned after
`durationUntilDecay` does not depend on the time. -/
theorem claimable_overflow_const {β : Type} (d : Deps β) (s : State β) (addr : AccAddress)
    (action : Nat) (rec : ClaimRecord)
    (hrec : GetClaimRecord d s addr = (rec, none))
    (haddr : rec.address ≠ "")
    (hflag : rec.actionCompleted[action]? = some false)
    (hN : 0 < d.numActions)
    (hv : Coins.isValid d.validateDenom rec.initialClaimableAmount = true)
    (hU : 0 ≤ s.params.durationUntilDecay)
    (hU2 : s.params.durationUntilDecay ≤ maxInt64)
    (hD : s.params.durationOfDecay ≤ maxInt64)
    (hsum : maxInt64 < s.params.durationUntilDecay + s.params.durationOfDecay) :
    ∃ c : Coins, ∀ now : Int, s.params.durationUntilDecay < now - s.params.airdropStartTime →
      GetClaimableAmountForAction d { s with blockTime := now } addr action
        = .returned c none := by
  have hmin : minInt64 = -9223372036854775808 := rfl
  have hmax : maxInt64 = 9223372036854775807 := rfl
  refine ⟨if s.params.durationUntilDecay = maxInt64
      then scaleCoins (fun a => a / (d.numActions : Int)) rec.initialClaimableAmount
      else [], ?_⟩
  intro now hE
  have hnow : ¬ now < s.params.airdropStartTime := by omega
  have hrec2 : GetClaimRecord d { s with blockTime := now } addr = (rec, none) := hrec
  unfold GetClaimableAmountForAction
  rw [hrec2]
  simp only [haddr, if_false, hflag, hnow, perAction_closed d _ hN hv]
  by_cases hUm : s.params.durationUntilDecay = maxInt64
  · have : timeSub now s.params.airdropStartTime ≤ s.params.durationUntilDecay := by
      simp only [timeSub, hmin, hmax] at *
      split_ifs <;> omega
    rw [if_pos this, if_pos hUm]
  · have h1 : ¬ timeSub now s.params.airdropStartTime ≤ s.params.durationUntilDecay := by
      simp only [timeSub, hmin, hmax] at *
      split_ifs <;> omega
    have h2 : wrap64 (s.params.durationUntilDecay + s.params.durationOfDecay)
        < timeSub now s.params.airdropStartTime := by
      simp only [timeSub, wrap64, hmin, hmax] at *
      split_ifs <;> omega
    rw [if_neg h1, if_pos h2, if_neg hUm]

theorem getElem?_set_true (l : List Bool) (action i : Nat) :
    (i ≠ action → (l.set action true)[i]? = l[i]?) ∧
    (l[i]? = some true → (l.set action true)[i]? = some true) := by
  constructor
  · intro h
    rw [List.getElem?_set_ne (Ne.symm h)]
  · intro h
    by_cases hi : action = i
    · subst hi
      have hlen : action < l.length := by
        by_contra hlt
        rw [List.getElem?_eq_none (not_lt.mp hlt)] at h
        exact absurd h (by simp)
      simp [hlen]
    · rw [List.getElem?_set_ne hi]; exact h

theorem claimablePercentAt_anti (t1 t2 D : Int) (h0 : 0 < D) (h : t1 ≤ t2) :
    claimablePercentAt t2 D ≤ claimablePercentAt t1 D := by
  have : t1 * precisionReuse / D ≤ t2 * precisionReuse / D :=
    Int.ediv_le_ediv h0 (Int.mul_le_mul_of_nonneg_right h (show (0:Int) ≤ precisionReuse by decide))
  unfold claimablePercentAt
  omega

theorem claimablePercentAt_midpoint (D : Int) (h0 : 0 < D) (heven : D % 2 = 0) :
    claimablePercentAt (D / 2) D = fivePrecision := by
  have h1 : D / 2 * precisionReuse = D * fivePrecision := by
    have hD : D = 2 * (D / 2) := by omega
    have hP : precisionReuse = 2 * fivePrecision := by decide
    rw [hP]
    conv_rhs => rw [hD]
    ring
  unfold claimablePercentAt
  rw [h1, Int.mul_ediv_cancel_left _ (ne_of_gt h0)]
  decide

theorem flag_lt_length {l : List Bool} {i : Nat} {b : Bool} (h : l[i]? = some b) :
    i < l.length := by
  by_contra hlt
  rw [List.getElem?_eq_none (not_lt.mp hlt)] at h
  exact absurd h (by simp)

/-! ## The claims -/

/-- C1 (idempotence of a claim).  In a state whose record under `addr` was written by
`SetClaimRecord` with a lossless codec, and with a gate that stays open once it is open: when a
first `ClaimCoinsForAction` call succeeds with a non-empty amount, the record of `addr` in the
resulting state has `actionCompleted[action] = true`, and a second call for the same address and
action at the same or any later block time returns the empty amount without error and leaves
the whole state (record store, ledger, events) as it was. -/
theorem claim_twice_pays_once {β : Type} (d : Deps β) (s s1 : State β) (addr : AccAddress)
    (action : Nat) (amt : Coins)
    (hcodec : ∀ r bz, d.marshal r = .ok bz → d.unmarshal bz = .ok r)
    (hkey : KeyedByAddress d s addr)
    (hgate : ∀ t, s.blockTime ≤ t → d.isAirdropEnabled s.params s.blockTime = true →
      d.isAirdropEnabled s.params t = true)
    (hfirst : ClaimCoinsForAction d s addr action = (.returned amt none, s1))
    (hamt : amt ≠ []) :
    (∃ rec1, GetClaimRecord d s1 addr = (rec1, none) ∧
      rec1.actionCompleted[action]? = some true) ∧
    ∀ t, s.blockTime ≤ t →
      ClaimCoinsForAction d { s1 with blockTime := t } addr action
        = (.returned [] none, { s1 with blockTime := t }) := by
  rcases claim_cases d s addr action with ⟨_, h⟩ | ⟨hg, h⟩
  · rw [h] at hfirst; simp at hfirst
  rcases h with ⟨p, _, h⟩ | ⟨c, e, _, h⟩ | ⟨_, h⟩ | ⟨c, rec, hc, hgc, hrec, haddr, hflag, h⟩
  · rw [h] at hfirst; simp at hfirst
  · rw [h] at hfirst; simp at hfirst
  · rw [h] at hfirst
    simp only [Prod.mk.injEq, Exit.returned.injEq] at hfirst
    exact absurd hfirst.1.1.symm hamt
  rcases h with ⟨e, b0, _, h⟩ | ⟨bank1, hsend, ⟨e, _, h⟩ | ⟨bz, k, hm, hk, h⟩⟩
  · rw [h] at hfirst; simp at hfirst
  · rw [h] at hfirst; simp at hfirst
  rw [h] at hfirst
  simp only [Prod.mk.injEq, Exit.returned.injEq] at hfirst
  obtain ⟨-, hs1⟩ := hfirst
  have hkaddr : k = addr := by
    have := hkey rec hrec haddr
    rw [hk] at this
    exact Except.ok.inj this
  subst hkaddr
  have hlen : action < rec.actionCompleted.length := flag_lt_length hflag
  have hget : GetClaimRecord d s1 k = (markCompleted rec action, none) := by
    subst hs1
    simp [GetClaimRecord, Store.get_set_same, hcodec _ _ hm]
  have hflag1 : (markCompleted rec action).actionCompleted[action]? = some true := by
    simp [markCompleted, hlen]
  refine ⟨⟨_, hget, hflag1⟩, ?_⟩
  intro t ht
  have hg2 : d.isAirdropEnabled s1.params t = true := by
    have := hgate t ht hg
    subst hs1
    exact this
  have hc2 : GetClaimableAmountForAction d { s1 with blockTime := t } k action
      = .returned [] none :=
    claimable_completed d _ k action _ (by rw [getClaimRecord_blockTime]; exact hget) hflag1
  simp [ClaimCoinsForAction, hg2, hc2]

/-- Witness of C1: allocation 1000 over four actions, claimed at the midpoint of the decay
window (125 units), then claimed again 25 time units later. -/
theorem claim_twice_pays_once_witness :
    ClaimCoinsForAction scenarioDeps (scenarioState 1000 4000 ⟨1000, 100, 100⟩ 1150) [97] 0
      = (.returned [⟨"upasg", 125⟩] none,
          (ClaimCoinsForAction scenarioDeps
            (scenarioState 1000 4000 ⟨1000, 100, 100⟩ 1150) [97] 0).2) ∧
    ClaimCoinsForAction scenarioDeps
        { (ClaimCoinsForAction scenarioDeps
            (scenarioState 1000 4000 ⟨1000, 100, 100⟩ 1150) [97] 0).2 with blockTime := 1175 }
        [97] 0
      = (.returned [] none,
          { (ClaimCoinsForAction scenarioDeps
              (scenarioState 1000 4000 ⟨1000, 100, 100⟩ 1150) [97] 0).2 with
            blockTime := 1175 }) :=
  ⟨Prod.ext (by decide) rfl,
    (claim_twice_pays_once scenarioDeps (scenarioState 1000 4000 ⟨1000, 100, 100⟩ 1150)
      (ClaimCoinsForAction scenarioDeps
        (scenarioState 1000 4000 ⟨1000, 100, 100⟩ 1150) [97] 0).2 [97] 0 [⟨"upasg", 125⟩]
      (fun _ _ h => by cases h; rfl)
      (fun _ h _ => by cases h; rfl)
      (fun t ht _ => by
        simp only [scenarioDeps, scenarioState, Params.IsAirdropEnabled] at ht ⊢
        simp only [Bool.not_eq_true', decide_eq_false_iff_not, not_lt]
        omega)
      (Prod.ext (by decide) rfl) (by decide)).2 1175 (by decide)⟩

/-- C2 (a failed transfer aborts the claim).  When the gate is open, the claimable amount is
non-empty and the transfer from the module account to `addr` fails with error `e`,
`ClaimCoinsForAction` returns that error with no amount; the record store is the store before
the call, every record reads back as before, and the flag of the action in the record of
`addr` is still false.  The state after the call differs from the state before it in the
ledger only, which is the ledger `bank1` that the failed transfer left. -/
theorem transfer_failure_aborts {β : Type} (d : Deps β) (s : State β) (addr : AccAddress)
    (action : Nat) (amt : Coins) (e : Err) (bank1 : Bank)
    (hgate : d.isAirdropEnabled s.params s.blockTime = true)
    (hamt : GetClaimableAmountForAction d s addr action = .returned amt none)
    (hne : amt ≠ [])
    (hsend : sendCoinsFromModuleToAccount d s.bank addr amt = (some e, bank1)) :
    (ClaimCoinsForAction d s addr action).1 = .returned [] (some e) ∧
    (ClaimCoinsForAction d s addr action).2.store = s.store ∧
    (∀ a, GetClaimRecord d (ClaimCoinsForAction d s addr action).2 a = GetClaimRecord d s a) ∧
    (∃ rec, GetClaimRecord d (ClaimCoinsForAction d s addr action).2 addr = (rec, none) ∧
      rec.actionCompleted[action]? = some false) ∧
    (ClaimCoinsForAction d s addr action).2 = { s with bank := bank1 } := by
  obtain ⟨-, rec, hrec, -, hflag⟩ := claimable_nonempty_inv d s addr action amt none hamt hne
  have hemp : amt.isEmpty = false := by
    cases amt with
    | nil => exact absurd rfl hne
    | cons _ _ => rfl
  have h : ClaimCoinsForAction d s addr action
      = (.returned [] (some e), { s with bank := bank1 }) := by
    simp [ClaimCoinsForAction, hgate, hamt, hemp, hrec, hsend]
  rw [h]
  exact ⟨rfl, rfl, fun _ => rfl, ⟨rec, hrec, hflag⟩, rfl⟩

/-- Witness of C2: the record holds 200 `aaa` and 200 `bbb`, the module account 1000 `aaa` and
no `bbb`; the transfer of 50 `aaa` and 50 `bbb` fails at `bbb`, the store is untouched and the
module account is left with 950 `aaa`. -/
theorem transfer_failure_aborts_witness :
    (ClaimCoinsForAction scenarioDeps (twoDenomState 1050) [97] 0).1
      = .returned [] (some .insufficientFunds) ∧
    (ClaimCoinsForAction scenarioDeps (twoDenomState 1050) [97] 0).2.store
      = (twoDenomState 1050).store ∧
    (ClaimCoinsForAction scenarioDeps (twoDenomState 1050) [97] 0).2.bank.getBalance
      [0] "aaa" = 950 :=
  ⟨(transfer_failure_aborts scenarioDeps (twoDenomState 1050) [97] 0
      [⟨"aaa", 50⟩, ⟨"bbb", 50⟩] .insufficientFunds
      (sendCoinsFromModuleToAccount scenarioDeps (twoDenomState 1050).bank [97]
        [⟨"aaa", 50⟩, ⟨"bbb", 50⟩]).2
      (by decide) (by decide) (by decide) (Prod.ext (by decide) rfl)).1,
    (transfer_failure_aborts scenarioDeps (twoDenomState 1050) [97] 0
      [⟨"aaa", 50⟩, ⟨"bbb", 50⟩] .insufficientFunds
      (sendCoinsFromModuleToAccount scenarioDeps (twoDenomState 1050).bank [97]
        [⟨"aaa", 50⟩, ⟨"bbb", 50⟩]).2
      (by decide) (by decide) (by decide) (Prod.ext (by decide) rfl)).2.1,
    by decide⟩

/-- C3, counterexample.  The record of `pasg1a` holds 200 `aaa` and 200 `bbb`, the module
account 1000 `aaa` and no `bbb`.  The claim of action 0 in the no-decay window transfers 50
`aaa` and 50 `bbb`: the debit of `aaa` is written, the debit of `bbb` is refused, and the call
returns the error.  The module account is left with 950 `aaa` while the stored flag is still
false: neither "debited by the claimable amount and flag stored" nor "not debited and store
unchanged" holds.  The state is one that `SetClaimRecord` writes. -/
theorem claim_not_atomic_on_partial_debit :
    (SetClaimRecord scenarioDeps { twoDenomState 1050 with store := [] }
        ⟨"pasg1a", [⟨"aaa", 200⟩, ⟨"bbb", 200⟩], [false, false, false, false]⟩)
      = (none, twoDenomState 1050) ∧
    (ClaimCoinsForAction scenarioDeps (twoDenomState 1050) [97] 0).1
      = .returned [] (some .insufficientFunds) ∧
    (ClaimCoinsForAction scenarioDeps (twoDenomState 1050) [97] 0).2.bank.getBalance
      [0] "aaa" = 950 ∧
    (GetClaimRecord scenarioDeps (ClaimCoinsForAction scenarioDeps (twoDenomState 1050) [97] 0).2
      [97]).1.actionCompleted[0]? = some false ∧
    ¬ ((((ClaimCoinsForAction scenarioDeps (twoDenomState 1050) [97] 0).2.bank.getBalance
            [0] "aaa" = 1000 - 50 ∧
          (ClaimCoinsForAction scenarioDeps (twoDenomState 1050) [97] 0).2.bank.getBalance
            [0] "bbb" = 0 - 50) ∧
          (GetClaimRecord scenarioDeps
            (ClaimCoinsForAction scenarioDeps (twoDenomState 1050) [97] 0).2
            [97]).1.actionCompleted[0]? = some true) ∨
        ((ClaimCoinsForAction scenarioDeps (twoDenomState 1050) [97] 0).2.bank.getBalance
            [0] "aaa" = 1000 ∧
          (ClaimCoinsForAction scenarioDeps (twoDenomState 1050) [97] 0).2.store
            = (twoDenomState 1050).store)) :=
  ⟨rfl, by decide, by decide, by decide, by decide⟩

/-- C3, amended (atomicity up to a failed debit or a failed write).  For a recipient other
than the module account, every call of `ClaimCoinsForAction` ends in one of four ways.
(1) The state is untouched.  (2) The transfer fails for lack of funds at a coin `c` of the
claimable amount: the call returns the error with no amount and the store is unchanged, but
the module account stays debited by the coins of the amount that precede `c`, and no other
account is touched.  (3) The transfer succeeds, the module account is debited per denomination
by the claimable amount, the call returns the amount without error and the record with
`actionCompleted[action] = true` is written under the key its address decodes to.  (4) The
transfer succeeds and writing the record back fails with an error `e`: the call returns the
amount together with `e`, the module account stays debited and the store is unchanged. -/
theorem claim_atomic_unless_debit_or_persist_fails {β : Type} (d : Deps β) (s : State β)
    (addr : AccAddress) (action : Nat) (hne : addr ≠ d.moduleAddress) :
    (ClaimCoinsForAction d s addr action).2 = s ∨
    (∃ amt bank1 pre c post,
      GetClaimableAmountForAction d s addr action = .returned amt none ∧
      sendCoinsFromModuleToAccount d s.bank addr amt = (some .insufficientFunds, bank1) ∧
      amt = pre ++ c :: post ∧
      bank1.getBalance d.moduleAddress c.denom < c.amount ∧
      ClaimCoinsForAction d s addr action
        = (.returned [] (some .insufficientFunds), { s with bank := bank1 }) ∧
      (∀ dn, bank1.getBalance d.moduleAddress dn
        = s.bank.getBalance d.moduleAddress dn - Coins.amountOf dn pre) ∧
      (∀ x dn, x ≠ d.moduleAddress → bank1.getBalance x dn = s.bank.getBalance x dn)) ∨
    ∃ amt rec bank1,
      GetClaimableAmountForAction d s addr action = .returned amt none ∧
      GetClaimRecord d s addr = (rec, none) ∧
      sendCoinsFromModuleToAccount d s.bank addr amt = (none, bank1) ∧
      (ClaimCoinsForAction d s addr action).2.bank = bank1 ∧
      (∀ dn, (ClaimCoinsForAction d s addr action).2.bank.getBalance d.moduleAddress dn
        = s.bank.getBalance d.moduleAddress dn - Coins.amountOf dn amt) ∧
      ((∃ bz k, d.marshal (markCompleted rec action) = .ok bz ∧
          d.accAddressFromBech32 rec.address = .ok k ∧
          (markCompleted rec action).actionCompleted[action]? = some true ∧
          (ClaimCoinsForAction d s addr action).1 = .returned amt none ∧
          (ClaimCoinsForAction d s addr action).2.store = Store.set s.store k bz) ∨
       (∃ e, (SetClaimRecord d { s with bank := bank1 } (markCompleted rec action)).1 = some e ∧
          (ClaimCoinsForAction d s addr action).1 = .returned amt (some e) ∧
          (ClaimCoinsForAction d s addr action).2.store = s.store)) := by
  rcases claim_cases d s addr action with ⟨_, h⟩ | ⟨hg, h⟩
  · left; rw [h]
  rcases h with ⟨p, _, h⟩ | ⟨c, e, _, h⟩ | ⟨_, h⟩ | ⟨c, rec, hc, hgc, hrec, haddr, hflag, h⟩
  · left; rw [h]
  · left; rw [h]
  · left; rw [h]
  rcases h with ⟨e, b0, hsend0, h⟩ | ⟨bank1, hsend, h⟩
  · rcases send_fail_cases d s.bank b0 addr c e hsend0 with hb | ⟨he, pre, c1, post, hc1, hlt, hbal⟩
    · left
      rw [h, hb]
    · right; left
      subst he
      refine ⟨c, b0, pre, c1, post, hgc, hsend0, hc1, hlt, h, fun dn => ?_, fun x dn hx => ?_⟩
      · rw [hbal]; simp
      · rw [hbal]; simp [hx]
  right; right
  have hlen : action < rec.actionCompleted.length := flag_lt_length hflag
  have hdeb := fun dn => (send_debits_module d s.bank bank1 addr c hsend hne dn).1
  refine ⟨c, rec, bank1, hgc, hrec, hsend, ?_, ?_, ?_⟩
  · rcases h with ⟨e, _, h⟩ | ⟨bz, k, _, _, h⟩ <;> rw [h]
  · intro dn
    rcases h with ⟨e, _, h⟩ | ⟨bz, k, _, _, h⟩ <;> rw [h] <;> exact hdeb dn
  · rcases h with ⟨e, hset, h⟩ | ⟨bz, k, hm, hk, h⟩
    · right
      exact ⟨e, by rw [hset], by rw [h], by rw [h]⟩
    · left
      exact ⟨bz, k, hm, hk, by simp [markCompleted, hlen], by rw [h], by rw [h]⟩

/-- Witness of the amended C3, at the input of the counterexample, where the call ends the
second way. -/
theorem claim_atomic_unless_debit_or_persist_fails_witness :
    ([97] : AccAddress) ≠ scenarioDeps.moduleAddress ∧
    ((ClaimCoinsForAction scenarioDeps (twoDenomState 1050) [97] 0).2 = twoDenomState 1050 ∨
      (∃ amt bank1 pre c post,
        GetClaimableAmountForAction scenarioDeps (twoDenomState 1050) [97] 0
          = .returned amt none ∧
        sendCoinsFromModuleToAccount scenarioDeps (twoDenomState 1050).bank [97] amt
          = (some .insufficientFunds, bank1) ∧
        amt = pre ++ c :: post ∧
        bank1.getBalance scenarioDeps.moduleAddress c.denom < c.amount ∧
        ClaimCoinsForAction scenarioDeps (twoDenomState 1050) [97] 0
          = (.returned [] (some .insufficientFunds),
              { twoDenomState 1050 with bank := bank1 }) ∧
        (∀ dn, bank1.getBalance scenarioDeps.moduleAddress dn
          = (twoDenomState 1050).bank.getBalance scenarioDeps.moduleAddress dn
            - Coins.amountOf dn pre) ∧
        (∀ x dn, x ≠ scenarioDeps.moduleAddress →
          bank1.getBalance x dn = (twoDenomState 1050).bank.getBalance x dn)) ∨
      ∃ amt rec bank1,
        GetClaimableAmountForAction scenarioDeps (twoDenomState 1050) [97] 0
          = .returned amt none ∧
        GetClaimRecord scenarioDeps (twoDenomState 1050) [97] = (rec, none) ∧
        sendCoinsFromModuleToAccount scenarioDeps (twoDenomState 1050).bank [97] amt
          = (none, bank1) ∧
        (ClaimCoinsForAction scenarioDeps (twoDenomState 1050) [97] 0).2.bank = bank1 ∧
        (∀ dn, (ClaimCoinsForAction scenarioDeps (twoDenomState 1050) [97] 0).2.bank.getBalance
            scenarioDeps.moduleAddress dn
          = (twoDenomState 1050).bank.getBalance scenarioDeps.moduleAddress dn
            - Coins.amountOf dn amt) ∧
        ((∃ bz k, scenarioDeps.marshal (markCompleted rec 0) = .ok bz ∧
            scenarioDeps.accAddressFromBech32 rec.address = .ok k ∧
            (markCompleted rec 0).actionCompleted[0]? = some true ∧
            (ClaimCoinsForAction scenarioDeps (twoDenomState 1050) [97] 0).1
              = .returned amt none ∧
            (ClaimCoinsForAction scenarioDeps (twoDenomState 1050) [97] 0).2.store
              = Store.set (twoDenomState 1050).store k bz) ∨
         (∃ e, (SetClaimRecord scenarioDeps { twoDenomState 1050 with bank := bank1 }
              (markCompleted rec 0)).1 = some e ∧
            (ClaimCoinsForAction scenarioDeps (twoDenomState 1050) [97] 0).1
              = .returned amt (some e) ∧
            (ClaimCoinsForAction scenarioDeps (twoDenomState 1050) [97] 0).2.store
              = (twoDenomState 1050).store))) :=
  ⟨by decide,
    claim_atomic_unless_debit_or_persist_fails scenarioDeps (twoDenomState 1050) [97] 0
      (by decide)⟩

/-- C4 (no-decay window).  For a stored record with a valid allocation whose flag for the
action is false, there is one amount `share`, holding per denomination exactly
`floor(initialClaimableAmount / N)`, that `GetClaimableAmountForAction` returns at every
current time `now` with `0 ≤ now - airdropStartTime ≤ durationUntilDecay`. -/
theorem noDecayWindow_returns_share {β : Type} (d : Deps β) (s : State β) (addr : AccAddress)
    (action : Nat) (rec : ClaimRecord)
    (hrec : GetClaimRecord d s addr = (rec, none))
    (haddr : rec.address ≠ "")
    (hflag : rec.actionCompleted[action]? = some false)
    (hN : 0 < d.numActions)
    (hv : Coins.isValid d.validateDenom rec.initialClaimableAmount = true)
    (hU : s.params.durationUntilDecay ≤ maxInt64) :
    ∃ share : Coins,
      (∀ dn, Coins.amountOf dn share
        = Coins.amountOf dn rec.initialClaimableAmount / (d.numActions : Int)) ∧
      ∀ now : Int, 0 ≤ now - s.params.airdropStartTime →
        now - s.params.airdropStartTime ≤ s.params.durationUntilDecay →
        GetClaimableAmountForAction d { s with blockTime := now } addr action
          = .returned share none := by
  refine ⟨scaleCoins (fun a => a / (d.numActions : Int)) rec.initialClaimableAmount,
    amountOf_share d _ hv, ?_⟩
  intro now h0 h1
  exact claimable_full_window d { s with blockTime := now } addr action rec
    (by rw [getClaimRecord_blockTime]; exact hrec) haddr hflag hN hv hU h0 h1

/-- Witness of C4: allocation 1003 over four actions gives the share 250 throughout the
no-decay window. -/
theorem noDecayWindow_returns_share_witness :
    ∃ share : Coins,
      (∀ dn, Coins.amountOf dn share
        = Coins.amountOf dn [⟨"upasg", 1003⟩] / ((4 : Nat) : Int)) ∧
      ∀ now : Int, 0 ≤ now - 1000 → now - 1000 ≤ 100 →
        GetClaimableAmountForAction scenarioDeps
          { scenarioState 1003 4000 ⟨1000, 100, 100⟩ 1050 with blockTime := now } [97] 0
          = .returned share none :=
  noDecayWindow_returns_share scenarioDeps (scenarioState 1003 4000 ⟨1000, 100, 100⟩ 1050)
    [97] 0 ⟨"pasg1a", [⟨"upasg", 1003⟩], [false, false, false, false]⟩
    rfl (by decide) rfl (by decide) (by decide) (by decide)

/-- C5, counterexample.  Allocation 3999932 over four actions (share 999983), a decay window of
3600000000000 ns entered at once, current time 1418685117647 ns after the start: the exact
value `share * (1 - decayElapsed / durationOfDecay)` lies strictly below 605910.5, so its
nearest integer is 605910, but the call returns 605911, which is further than one half away
from the exact value. -/
theorem decayWindow_not_nearest_to_exact :
    GetClaimableAmountForAction scenarioDeps
        (scenarioState 3999932 4000000 ⟨0, 0, 3600000000000⟩ 1418685117647) [97] 0
      = .returned [⟨"upasg", 605911⟩] none ∧
    ¬ (|(2:Int) * (605911 * 3600000000000
        - 3999932 / 4 * (3600000000000 - 1418685117647))| ≤ 3600000000000) := by
  decide

/-- C5, amended (decay window).  For a stored record with a valid allocation whose flag for
the action is false, at a current time inside the decay window
(`durationUntilDecay < elapsed ≤ durationUntilDecay + durationOfDecay`, no `int64` overflow),
`GetClaimableAmountForAction` returns per denomination the integer nearest, ties to even, to
`share * pct / 10^18`, where `share = floor(initialClaimableAmount / N)` and
`pct = 10^18 - floor(10^18 * decayElapsed / durationOfDecay)` is the claimable fraction with
the decay fraction truncated to 18 decimal places. -/
theorem decayWindow_rounds_truncated_fraction {β : Type} (d : Deps β) (s : State β)
    (addr : AccAddress) (action : Nat) (rec : ClaimRecord)
    (hrec : GetClaimRecord d s addr = (rec, none))
    (haddr : rec.address ≠ "")
    (hflag : rec.actionCompleted[action]? = some false)
    (hN : 0 < d.numActions)
    (hv : Coins.isValid d.validateDenom rec.initialClaimableAmount = true)
    (hU : 0 ≤ s.params.durationUntilDecay)
    (hD : s.params.durationOfDecay ≤ maxInt64)
    (hsum : s.params.durationUntilDecay + s.params.durationOfDecay ≤ maxInt64)
    (h1 : s.params.durationUntilDecay < s.blockTime - s.params.airdropStartTime)
    (h2 : s.blockTime - s.params.airdropStartTime
      ≤ s.params.durationUntilDecay + s.params.durationOfDecay) :
    ∃ coins : Coins,
      GetClaimableAmountForAction d s addr action = .returned coins none ∧
      ∀ dn,
        -precisionReuse ≤ 2 * (Coins.amountOf dn coins * precisionReuse
          - Coins.amountOf dn rec.initialClaimableAmount / (d.numActions : Int)
            * (precisionReuse
              - (s.blockTime - s.params.airdropStartTime - s.params.durationUntilDecay)
                * precisionReuse / s.params.durationOfDecay)) ∧
        2 * (Coins.amountOf dn coins * precisionReuse
          - Coins.amountOf dn rec.initialClaimableAmount / (d.numActions : Int)
            * (precisionReuse
              - (s.blockTime - s.params.airdropStartTime - s.params.durationUntilDecay)
                * precisionReuse / s.params.durationOfDecay)) ≤ precisionReuse ∧
        (2 * (Coins.amountOf dn coins * precisionReuse
          - Coins.amountOf dn rec.initialClaimableAmount / (d.numActions : Int)
            * (precisionReuse
              - (s.blockTime - s.params.airdropStartTime - s.params.durationUntilDecay)
                * precisionReuse / s.params.durationOfDecay)) = precisionReuse ∨
         2 * (Coins.amountOf dn coins * precisionReuse
          - Coins.amountOf dn rec.initialClaimableAmount / (d.numActions : Int)
            * (precisionReuse
              - (s.blockTime - s.params.airdropStartTime - s.params.durationUntilDecay)
                * precisionReuse / s.params.durationOfDecay)) = -precisionReuse →
          Coins.amountOf dn coins % 2 = 0) := by
  refine ⟨_, claimable_decay_window d s addr action rec hrec haddr hflag hN hv hU hD hsum h1 h2,
    ?_⟩
  intro dn
  rw [amountOf_decayed d _ hv]
  have hshare := share_nonneg d _ hv dn
  have hpct : 0 ≤ claimablePercentAt
      (s.blockTime - s.params.airdropStartTime - s.params.durationUntilDecay)
      s.params.durationOfDecay :=
    claimablePercentAt_nonneg _ _ (by omega) (by omega)
  exact chopNonneg_nearest _ (Int.mul_nonneg hshare hpct)

/-- Witness of the amended C5, at the input of the counterexample. -/
theorem decayWindow_rounds_truncated_fraction_witness :
    ∃ coins : Coins,
      GetClaimableAmountForAction scenarioDeps
        (scenarioState 3999932 4000000 ⟨0, 0, 3600000000000⟩ 1418685117647) [97] 0
        = .returned coins none ∧
      ∀ dn,
        -precisionReuse ≤ 2 * (Coins.amountOf dn coins * precisionReuse
          - Coins.amountOf dn [⟨"upasg", 3999932⟩] / ((4 : Nat) : Int)
            * (precisionReuse
              - (1418685117647 - 0 - 0) * precisionReuse / 3600000000000)) ∧
        2 * (Coins.amountOf dn coins * precisionReuse
          - Coins.amountOf dn [⟨"upasg", 3999932⟩] / ((4 : Nat) : Int)
            * (precisionReuse
              - (1418685117647 - 0 - 0) * precisionReuse / 3600000000000)) ≤ precisionReuse ∧
        (2 * (Coins.amountOf dn coins * precisionReuse
          - Coins.amountOf dn [⟨"upasg", 3999932⟩] / ((4 : Nat) : Int)
            * (precisionReuse
              - (1418685117647 - 0 - 0) * precisionReuse / 3600000000000)) = precisionReuse ∨
         2 * (Coins.amountOf dn coins * precisionReuse
          - Coins.amountOf dn [⟨"upasg", 3999932⟩] / ((4 : Nat) : Int)
            * (precisionReuse
              - (1418685117647 - 0 - 0) * precisionReuse / 3600000000000)) = -precisionReuse →
          Coins.amountOf dn coins % 2 = 0) :=
  decayWindow_rounds_truncated_fraction scenarioDeps
    (scenarioState 3999932 4000000 ⟨0, 0, 3600000000000⟩ 1418685117647) [97] 0
    ⟨"pasg1a", [⟨"upasg", 3999932⟩], [false, false, false, false]⟩
    rfl (by decide) rfl (by decide) (by decide) (by decide) (by decide) (by decide)
    (by decide) (by decide)

/-- C6 (monotone decay).  For a stored record with a valid allocation and parameters that are
`int64` durations with `durationUntilDecay ≥ 0`, and two times `t1 < t2` both inside the decay
window, `GetClaimableAmountForAction` returns at both times, and the amount at `t2` is per
denomination at most the amount at `t1`. -/
theorem decay_monotone {β : Type} (d : Deps β) (s : State β) (addr : AccAddress)
    (action : Nat) (rec : ClaimRecord)
    (hrec : GetClaimRecord d s addr = (rec, none))
    (hidx : rec.address ≠ "" → action < rec.actionCompleted.length)
    (hN : 0 < d.numActions)
    (hv : Coins.isValid d.validateDenom rec.initialClaimableAmount = true)
    (hU : 0 ≤ s.params.durationUntilDecay)
    (hU2 : s.params.durationUntilDecay ≤ maxInt64)
    (hD : s.params.durationOfDecay ≤ maxInt64)
    (t1 t2 : Int) (h12 : t1 < t2)
    (hw1 : s.params.durationUntilDecay < t1 - s.params.airdropStartTime)
    (hw2 : t2 - s.params.airdropStartTime
      ≤ s.params.durationUntilDecay + s.params.durationOfDecay) :
    ∃ c1 c2 : Coins,
      GetClaimableAmountForAction d { s with blockTime := t1 } addr action = .returned c1 none ∧
      GetClaimableAmountForAction d { s with blockTime := t2 } addr action = .returned c2 none ∧
      ∀ dn, Coins.amountOf dn c2 ≤ Coins.amountOf dn c1 := by
  have hr1 : GetClaimRecord d { s with blockTime := t1 } addr = (rec, none) := hrec
  have hr2 : GetClaimRecord d { s with blockTime := t2 } addr = (rec, none) := hrec
  by_cases haddr : rec.address = ""
  · exact ⟨[], [], claimable_no_record d _ addr action rec hr1 haddr,
      claimable_no_record d _ addr action rec hr2 haddr, fun _ => le_refl _⟩
  have hlen := hidx haddr
  rcases hb : rec.actionCompleted[action] with _ | _
  swap
  · have hflag : rec.actionCompleted[action]? = some true := by
      rw [List.getElem?_eq_getElem hlen, hb]
    exact ⟨[], [], claimable_completed d _ addr action rec hr1 hflag,
      claimable_completed d _ addr action rec hr2 hflag, fun _ => le_refl _⟩
  have hflag : rec.actionCompleted[action]? = some false := by
    rw [List.getElem?_eq_getElem hlen, hb]
  by_cases hsum : s.params.durationUntilDecay + s.params.durationOfDecay ≤ maxInt64
  · refine ⟨_, _,
      claimable_decay_window d { s with blockTime := t1 } addr action rec hr1 haddr hflag hN hv
        hU hD hsum hw1 (by simp only; omega),
      claimable_decay_window d { s with blockTime := t2 } addr action rec hr2 haddr hflag hN hv
        hU hD hsum (by simp only; omega) hw2, ?_⟩
    intro dn
    simp only [amountOf_decayed d _ hv]
    have hshare := share_nonneg d _ hv dn
    have hDpos : 0 < s.params.durationOfDecay := by omega
    have hp2 : 0 ≤ claimablePercentAt
        (t2 - s.params.airdropStartTime - s.params.durationUntilDecay)
        s.params.durationOfDecay :=
      claimablePercentAt_nonneg _ _ (by omega) (by omega)
    have hanti := claimablePercentAt_anti
      (t1 - s.params.airdropStartTime - s.params.durationUntilDecay)
      (t2 - s.params.airdropStartTime - s.params.durationUntilDecay)
      s.params.durationOfDecay hDpos (by omega)
    exact chopNonneg_mono _ _ (Int.mul_nonneg hshare hp2)
      (Int.mul_le_mul_of_nonneg_left hanti hshare)
  · obtain ⟨c, hc⟩ := claimable_overflow_const d s addr action rec hrec haddr hflag hN hv hU hU2
      hD (not_le.mp hsum)
    exact ⟨c, c, hc t1 hw1, hc t2 (by omega), fun _ => le_refl _⟩

/-- Witness of C6: the scenario record at 20 and at 80 time units into a decay window of
100. -/
theorem decay_monotone_witness :
    ∃ c1 c2 : Coins,
      GetClaimableAmountForAction scenarioDeps
        { scenarioState 1000 4000 ⟨1000, 100, 100⟩ 1100 with blockTime := 1120 } [97] 0
        = .returned c1 none ∧
      GetClaimableAmountForAction scenarioDeps
        { scenarioState 1000 4000 ⟨1000, 100, 100⟩ 1100 with blockTime := 1180 } [97] 0
        = .returned c2 none ∧
      ∀ dn, Coins.amountOf dn c2 ≤ Coins.amountOf dn c1 :=
  decay_monotone scenarioDeps (scenarioState 1000 4000 ⟨1000, 100, 100⟩ 1100) [97] 0
    ⟨"pasg1a", [⟨"upasg", 1000⟩], [false, false, false, false]⟩
    rfl (fun _ => by decide) (by decide) (by decide) (by decide) (by decide) (by decide)
    1120 1180 (by decide) (by decide) (by decide)

/-- C7 (nothing claimable outside the campaign).  `GetClaimableAmountForAction` returns the
empty amount, whatever the allocation, (1) whenever the current time is before
`airdropStartTime`, for every record with a slot for the action, and (2) whenever the elapsed
time exceeds `durationUntilDecay + durationOfDecay`, for every record with a slot for the
action and a valid allocation, with `durationOfDecay ≥ 0` and an elapsed time that fits a
`time.Duration`. -/
theorem outside_window_empty :
    (∀ {β : Type} (d : Deps β) (s : State β) (addr : AccAddress) (action : Nat)
        (rec : ClaimRecord),
      GetClaimRecord d s addr = (rec, none) →
      (rec.address ≠ "" → action < rec.actionCompleted.length) →
      s.blockTime < s.params.airdropStartTime →
      GetClaimableAmountForAction d s addr action = .returned [] none) ∧
    (∀ {β : Type} (d : Deps β) (s : State β) (addr : AccAddress) (action : Nat)
        (rec : ClaimRecord),
      GetClaimRecord d s addr = (rec, none) →
      (rec.address ≠ "" → action < rec.actionCompleted.length) →
      0 < d.numActions →
      Coins.isValid d.validateDenom rec.initialClaimableAmount = true →
      minInt64 ≤ s.params.durationUntilDecay →
      0 ≤ s.params.durationOfDecay →
      s.blockTime - s.params.airdropStartTime ≤ maxInt64 →
      s.params.durationUntilDecay + s.params.durationOfDecay
        < s.blockTime - s.params.airdropStartTime →
      GetClaimableAmountForAction d s addr action = .returned [] none) := by
  constructor
  · intro β d s addr action rec hrec hidx hnow
    exact claimable_before_start d s addr action rec hrec hidx hnow
  · intro β d s addr action rec hrec hidx hN hv hU hD hE h
    by_cases haddr : rec.address = ""
    · exact claimable_no_record d s addr action rec hrec haddr
    have hlen := hidx haddr
    rcases hb : rec.actionCompleted[action] with _ | _
    · exact claimable_after_window d s addr action rec hrec haddr
        (by rw [List.getElem?_eq_getElem hlen, hb]) hN hv hU hD hE h
    · exact claimable_completed d s addr action rec hrec
        (by rw [List.getElem?_eq_getElem hlen, hb])

/-- Witness of C7: the scenario record one time unit before the start and one time unit after
the end of the decay window. -/
theorem outside_window_empty_witness :
    GetClaimableAmountForAction scenarioDeps
        (scenarioState 1000 4000 ⟨1000, 100, 100⟩ 999) [97] 0 = .returned [] none ∧
    GetClaimableAmountForAction scenarioDeps
        (scenarioState 1000 4000 ⟨1000, 100, 100⟩ 1201) [97] 0 = .returned [] none :=
  ⟨outside_window_empty.1 scenarioDeps (scenarioState 1000 4000 ⟨1000, 100, 100⟩ 999) [97] 0
      ⟨"pasg1a", [⟨"upasg", 1000⟩], [false, false, false, false]⟩
      rfl (fun _ => by decide) (by decide),
    outside_window_empty.2 scenarioDeps (scenarioState 1000 4000 ⟨1000, 100, 100⟩ 1201) [97] 0
      ⟨"pasg1a", [⟨"upasg", 1000⟩], [false, false, false, false]⟩
      rfl (fun _ => by decide) (by decide) (by decide) (by decide) (by decide) (by decide)
      (by decide)⟩

/-- C8 (midpoint of the decay window).  (1) When `durationOfDecay` is even and positive and
`decayElapsed = durationOfDecay / 2`, for a stored record with a valid allocation whose flag
for the action is false, `GetClaimableAmountForAction` returns per denomination half of the
per-action share rounded to nearest with ties to even: twice the result differs from the share
by at most one, and when it differs the result is even.  (2) Allocation 1000, four actions,
`durationUntilDecay = 100`, `durationOfDecay = 100` and `now = start + 150` give 125, for
every start time. -/
theorem midpoint_half_share :
    (∀ {β : Type} (d : Deps β) (s : State β) (addr : AccAddress) (action : Nat)
        (rec : ClaimRecord),
      GetClaimRecord d s addr = (rec, none) →
      rec.address ≠ "" →
      rec.actionCompleted[action]? = some false →
      0 < d.numActions →
      Coins.isValid d.validateDenom rec.initialClaimableAmount = true →
      0 ≤ s.params.durationUntilDecay →
      0 < s.params.durationOfDecay →
      s.params.durationUntilDecay + s.params.durationOfDecay ≤ maxInt64 →
      s.params.durationOfDecay % 2 = 0 →
      s.blockTime - s.params.airdropStartTime - s.params.durationUntilDecay
        = s.params.durationOfDecay / 2 →
      ∃ coins : Coins,
        GetClaimableAmountForAction d s addr action = .returned coins none ∧
        ∀ dn,
          -1 ≤ 2 * Coins.amountOf dn coins
            - Coins.amountOf dn rec.initialClaimableAmount / (d.numActions : Int) ∧
          2 * Coins.amountOf dn coins
            - Coins.amountOf dn rec.initialClaimableAmount / (d.numActions : Int) ≤ 1 ∧
          (2 * Coins.amountOf dn coins
              ≠ Coins.amountOf dn rec.initialClaimableAmount / (d.numActions : Int) →
            Coins.amountOf dn coins % 2 = 0)) ∧
    (∀ start : Int,
      GetClaimableAmountForAction scenarioDeps
        (scenarioState 1000 4000 ⟨start, 100, 100⟩ (start + 150)) [97] 0
        = .returned [⟨"upasg", 125⟩] none) := by
  constructor
  · intro β d s addr action rec hrec haddr hflag hN hv hU hD hsum heven hmid
    have hmax : maxInt64 = 9223372036854775807 := rfl
    refine ⟨_, claimable_decay_window d s addr action rec hrec haddr hflag hN hv hU
      (by omega) hsum (by omega) (by omega), ?_⟩
    intro dn
    rw [amountOf_decayed d _ hv, hmid, claimablePercentAt_midpoint _ hD heven]
    have hshare := share_nonneg d _ hv dn
    rw [chopNonneg_eq _ (Int.mul_nonneg hshare (by decide))]
    simp only [precisionReuse, fivePrecision]
    split_ifs <;> omega
  · intro start
    have h := claimable_decay_window scenarioDeps
      (scenarioState 1000 4000 ⟨start, 100, 100⟩ (start + 150)) [97] 0
      ⟨"pasg1a", [⟨"upasg", 1000⟩], [false, false, false, false]⟩ rfl (by decide) rfl
      (by decide) (by decide) (show (0:Int) ≤ 100 by decide)
      (show (100:Int) ≤ maxInt64 by decide) (show (100:Int) + 100 ≤ maxInt64 by decide)
      (by simp only [scenarioState]; omega) (by simp only [scenarioState]; omega)
    rw [h]
    have ht : (scenarioState 1000 4000 ⟨start, 100, 100⟩ (start + 150)).blockTime
        - (scenarioState 1000 4000 ⟨start, 100, 100⟩ (start + 150)).params.airdropStartTime
        - (scenarioState 1000 4000 ⟨start, 100, 100⟩ (start + 150)).params.durationUntilDecay
        = 50 := by
      simp only [scenarioState]; omega
    rw [ht]
    show Exit.returned (scaleCoins (fun a => chopNonneg (a * claimablePercentAt 50 100))
      (scaleCoins (fun a => a / ((4 : Nat) : Int)) [⟨"upasg", 1000⟩])) none = _
    decide

/-- Witness of C8: the allocation 1004 over four actions has the odd share 251, whose half is
a tie; the amount returned at the midpoint satisfies the rounding bounds. -/
theorem midpoint_half_share_witness :
    ∃ coins : Coins,
      GetClaimableAmountForAction scenarioDeps
        (scenarioState 1004 4000 ⟨1000, 100, 100⟩ 1150) [97] 0 = .returned coins none ∧
      ∀ dn,
        -1 ≤ 2 * Coins.amountOf dn coins
          - Coins.amountOf dn [⟨"upasg", 1004⟩] / ((4 : Nat) : Int) ∧
        2 * Coins.amountOf dn coins
          - Coins.amountOf dn [⟨"upasg", 1004⟩] / ((4 : Nat) : Int) ≤ 1 ∧
        (2 * Coins.amountOf dn coins
            ≠ Coins.amountOf dn [⟨"upasg", 1004⟩] / ((4 : Nat) : Int) →
          Coins.amountOf dn coins % 2 = 0) :=
  midpoint_half_share.1 scenarioDeps (scenarioState 1004 4000 ⟨1000, 100, 100⟩ 1150) [97] 0
    ⟨"pasg1a", [⟨"upasg", 1004⟩], [false, false, false, false]⟩
    rfl (by decide) rfl (by decide) (by decide) (by decide) (by decide) (by decide)
    (by decide) (by decide)

/-- C9 (claiming is gated).  (1) Whenever the gate `IsAirdropEnabled` is false for the
parameters and the block time, `ClaimCoinsForAction` returns the error `AirdropNotEnabled`
with the empty amount and leaves the whole state (record store, ledger, events) as it was.
(2) With the gate of the specification this is the case whenever the block time is before
`airdropStartTime`. -/
theorem claim_refused_when_not_enabled :
    (∀ {β : Type} (d : Deps β) (s : State β) (addr : AccAddress) (action : Nat),
      d.isAirdropEnabled s.params s.blockTime = false →
      ClaimCoinsForAction d s addr action = (.returned [] (some .airdropNotEnabled), s)) ∧
    (∀ {β : Type} (d : Deps β) (s : State β) (addr : AccAddress) (action : Nat),
      d.isAirdropEnabled = Params.IsAirdropEnabled →
      s.blockTime < s.params.airdropStartTime →
      ClaimCoinsForAction d s addr action = (.returned [] (some .airdropNotEnabled), s)) := by
  constructor
  · intro β d s addr action h
    simp [ClaimCoinsForAction, h]
  · intro β d s addr action hd hlt
    simp [ClaimCoinsForAction, hd, Params.IsAirdropEnabled, hlt]

/-- Witness of C9: a claim one time unit before the start of the scenario campaign. -/
theorem claim_refused_when_not_enabled_witness :
    scenarioDeps.isAirdropEnabled ⟨1000, 100, 100⟩ 999 = false ∧
    ClaimCoinsForAction scenarioDeps (scenarioState 1000 4000 ⟨1000, 100, 100⟩ 999) [97] 0
      = (.returned [] (some .airdropNotEnabled),
          scenarioState 1000 4000 ⟨1000, 100, 100⟩ 999) ∧
    ClaimCoinsForAction scenarioDeps (scenarioState 1000 4000 ⟨1000, 100, 100⟩ 999) [98] 1
      = (.returned [] (some .airdropNotEnabled),
          scenarioState 1000 4000 ⟨1000, 100, 100⟩ 999) :=
  ⟨by decide,
    claim_refused_when_not_enabled.1 scenarioDeps
      (scenarioState 1000 4000 ⟨1000, 100, 100⟩ 999) [97] 0 (by decide),
    claim_refused_when_not_enabled.2 scenarioDeps
      (scenarioState 1000 4000 ⟨1000, 100, 100⟩ 999) [98] 1 rfl (by decide)⟩

/-- C10 (a claim only sets one flag).  In a state whose record under `addr` was written by
`SetClaimRecord` with a lossless codec, the records read before and after
`ClaimCoinsForAction d s addr action` agree, for every address `a`: entirely when `a ≠ addr`;
and for `addr` itself in the address, in `initialClaimableAmount`, in every flag other than
`action`, while no flag that was true becomes false. -/
theorem claim_only_sets_flag {β : Type} (d : Deps β) (s : State β) (addr : AccAddress)
    (action : Nat)
    (hcodec : ∀ r bz, d.marshal r = .ok bz → d.unmarshal bz = .ok r)
    (hkey : KeyedByAddress d s addr) (a : AccAddress) :
    (a ≠ addr → GetClaimRecord d (ClaimCoinsForAction d s addr action).2 a
      = GetClaimRecord d s a) ∧
    (GetClaimRecord d (ClaimCoinsForAction d s addr action).2 a).1.address
      = (GetClaimRecord d s a).1.address ∧
    (GetClaimRecord d (ClaimCoinsForAction d s addr action).2 a).1.initialClaimableAmount
      = (GetClaimRecord d s a).1.initialClaimableAmount ∧
    ∀ i,
      (i ≠ action →
        (GetClaimRecord d (ClaimCoinsForAction d s addr action).2 a).1.actionCompleted[i]?
          = (GetClaimRecord d s a).1.actionCompleted[i]?) ∧
      ((GetClaimRecord d s a).1.actionCompleted[i]? = some true →
        (GetClaimRecord d (ClaimCoinsForAction d s addr action).2 a).1.actionCompleted[i]?
          = some true) := by
  have hsame : ∀ s1 : State β, s1.store = s.store →
      GetClaimRecord d s1 a = GetClaimRecord d s a := by
    intro s1 h
    simp [GetClaimRecord, h]
  have hdone : ∀ s1 : State β, GetClaimRecord d s1 a = GetClaimRecord d s a →
      (a ≠ addr → GetClaimRecord d s1 a = GetClaimRecord d s a) ∧
      (GetClaimRecord d s1 a).1.address = (GetClaimRecord d s a).1.address ∧
      (GetClaimRecord d s1 a).1.initialClaimableAmount
        = (GetClaimRecord d s a).1.initialClaimableAmount ∧
      ∀ i,
        (i ≠ action → (GetClaimRecord d s1 a).1.actionCompleted[i]?
            = (GetClaimRecord d s a).1.actionCompleted[i]?) ∧
        ((GetClaimRecord d s a).1.actionCompleted[i]? = some true →
          (GetClaimRecord d s1 a).1.actionCompleted[i]? = some true) := by
    intro s1 h
    rw [h]
    exact ⟨fun _ => rfl, rfl, rfl, fun i => ⟨fun _ => rfl, fun h => h⟩⟩
  rcases claim_cases d s addr action with ⟨_, h⟩ | ⟨hg, h⟩
  · rw [h]; exact hdone _ rfl
  rcases h with ⟨p, _, h⟩ | ⟨c, e, _, h⟩ | ⟨_, h⟩ | ⟨c, rec, hc, hgc, hrec, haddr, hflag, h⟩
  · rw [h]; exact hdone _ rfl
  · rw [h]; exact hdone _ rfl
  · rw [h]; exact hdone _ rfl
  rcases h with ⟨e, b0, _, h⟩ | ⟨bank1, hsend, ⟨e, _, h⟩ | ⟨bz, k, hm, hk, h⟩⟩
  · rw [h]; exact hdone _ (hsame _ rfl)
  · rw [h]; exact hdone _ (hsame _ rfl)
  rw [h]
  have hkaddr : k = addr := by
    have := hkey rec hrec haddr
    rw [hk] at this
    exact Except.ok.inj this
  subst hkaddr
  by_cases hak : a = k
  · subst hak
    have hget : GetClaimRecord d
        { s with bank := bank1, store := Store.set s.store a bz,
                 events := s.events ++ [(a, c)] } a = (markCompleted rec action, none) := by
      simp [GetClaimRecord, Store.get_set_same, hcodec _ _ hm]
    rw [hget, hrec]
    refine ⟨fun hne => absurd rfl hne, rfl, rfl, fun i => ?_⟩
    exact getElem?_set_true rec.actionCompleted action i
  · apply hdone
    simp [GetClaimRecord, Store.get_set_other _ _ _ _ hak]

/-- Witness of C10: the scenario claim at the midpoint of the decay window, read back at the
claimant's address. -/
theorem claim_only_sets_flag_witness :
    (GetClaimRecord scenarioDeps
        (ClaimCoinsForAction scenarioDeps
          (scenarioState 1000 4000 ⟨1000, 100, 100⟩ 1150) [97] 0).2 [97]).1.address
      = (GetClaimRecord scenarioDeps
          (scenarioState 1000 4000 ⟨1000, 100, 100⟩ 1150) [97]).1.address ∧
    (GetClaimRecord scenarioDeps
        (ClaimCoinsForAction scenarioDeps
          (scenarioState 1000 4000 ⟨1000, 100, 100⟩ 1150) [97] 0).2
        [97]).1.initialClaimableAmount
      = (GetClaimRecord scenarioDeps
          (scenarioState 1000 4000 ⟨1000, 100, 100⟩ 1150) [97]).1.initialClaimableAmount :=
  ⟨(claim_only_sets_flag scenarioDeps (scenarioState 1000 4000 ⟨1000, 100, 100⟩ 1150) [97] 0
      (fun _ _ h => by cases h; rfl) (fun _ h _ => by cases h; rfl) [97]).2.1,
    (claim_only_sets_flag scenarioDeps (scenarioState 1000 4000 ⟨1000, 100, 100⟩ 1150) [97] 0
      (fun _ _ h => by cases h; rfl) (fun _ h _ => by cases h; rfl) [97]).2.2.1⟩

/-! ## Lemmas for the record store, the totals and the sweep -/

theorem removeZeroCoins_single (c : Coin) :
    Coins.amountOf c.denom (Coins.sort (removeZeroCoins [c])) = c.amount := by
  by_cases hz : c.amount = 0
  · simp [removeZeroCoins, Coin.isZero, hz, Coins.sort, Coins.amountOf]
  · simp [removeZeroCoins, Coin.isZero, hz, Coins.sort, Coins.insertSorted, Coins.amountOf]

theorem Store.delete_nil {β : Type} (k : AccAddress) : Store.delete ([] : Store β) k = [] := rfl

theorem Store.foldl_delete_nil {β : Type} (ks : Store β) :
    ks.foldl (fun st kv => Store.delete st kv.1) ([] : Store β) = [] := by
  induction ks with
  | nil => rfl
  | cons k ks ih => simpa [List.foldl, Store.delete] using ih

theorem Store.mem_foldl_delete {β : Type} (ks : Store β) :
    ∀ (st : Store β) (x : AccAddress × β),
      x ∈ ks.foldl (fun st kv => Store.delete st kv.1) st →
      x ∈ st ∧ ∀ kv ∈ ks, kv.1 ≠ x.1 := by
  induction ks with
  | nil => intro st x h; exact ⟨h, by simp⟩
  | cons k ks ih =>
    intro st x h
    simp only [List.foldl] at h
    obtain ⟨h1, h2⟩ := ih _ x h
    simp only [Store.delete, List.mem_filter, Bool.not_eq_true', decide_eq_false_iff_not] at h1
    refine ⟨h1.1, ?_⟩
    intro kv hkv
    rcases List.mem_cons.mp hkv with rfl | h3
    · exact fun hk => h1.2 hk.symm
    · exact h2 kv h3

/-- Deleting every key the iterator visits leaves the store empty. -/
theorem clearInitialClaimables_store {β : Type} (s : State β) :
    (clearInitialClaimables s).store = [] := by
  simp only [clearInitialClaimables]
  apply List.eq_nil_iff_forall_not_mem.mpr
  intro x hx
  obtain ⟨h1, h2⟩ := Store.mem_foldl_delete s.store s.store x hx
  exact h2 x h1 rfl

theorem getClaimRecord_of_absent {β : Type} (d : Deps β) (s : State β) (addr : AccAddress)
    (h : Store.get s.store addr = none) :
    GetClaimRecord d s addr = (ClaimRecord.empty, none) := by
  simp [GetClaimRecord, h]

theorem totalClaimable_no_record {β : Type} (d : Deps β) (s : State β) (addr : AccAddress)
    (order : List Nat) (rec : ClaimRecord)
    (hrec : GetClaimRecord d s addr = (rec, none)) (haddr : rec.address = "") :
    GetUserTotalClaimable d s addr order = .returned [] none := by
  simp [GetUserTotalClaimable, hrec, haddr]

theorem amountOf_safeAddGo (dn : String) (a : Coin) (as : Coins) (recA : Coins → Coins)
    (hrec : ∀ b, Coins.amountOf dn (recA b) = Coins.amountOf dn as + Coins.amountOf dn b)
    (b : Coins) :
    Coins.amountOf dn (safeAddGo a (a :: as) recA b)
      = Coins.amountOf dn (a :: as) + Coins.amountOf dn b := by
  induction b with
  | nil => simp [safeAddGo, amountOf_removeZeroCoins, Coins.amountOf]
  | cons x xs ih =>
    simp only [safeAddGo]
    split_ifs with h1 h2 h3 h4 h5
    · have hz : a.amount = 0 := by simpa [Coin.isZero] using h2
      rw [hrec]; simp [Coins.amountOf, hz]
    · simp only [Coins.amountOf, hrec]; ring
    · rw [hrec]
      simp only [Coins.amountOf, ← h3]
      split_ifs <;> omega
    · simp only [Coins.amountOf, hrec, ← h3]
      split_ifs <;> omega
    · have hz : x.amount = 0 := by simpa [Coin.isZero] using h5
      rw [ih]; simp [Coins.amountOf, hz]
    · simp only [Coins.amountOf, ih]
      ring

/-- The sum `Coins.add` is additive in every denomination. -/
theorem amountOf_add (dn : String) (a b : Coins) :
    Coins.amountOf dn (Coins.add a b) = Coins.amountOf dn a + Coins.amountOf dn b := by
  induction a generalizing b with
  | nil => simp [Coins.add, amountOf_removeZeroCoins, Coins.amountOf]
  | cons x xs ih =>
    simp only [Coins.add]
    exact amountOf_safeAddGo dn x xs (Coins.add xs) (fun b => ih b) b

/-- Every way `fundRemainingsToCommunity` can end. -/
theorem fund_cases {β : Type} (d : Deps β) (s : State β) :
    (∃ p, fundRemainingsToCommunity d s = (.panicked p, s)) ∨
    (∃ coins err bank1 pool1,
      NewCoins d [GetModuleAccountBalance d s] = .ok coins ∧
      d.fundCommunityPool s.bank s.communityPool coins d.moduleAddress
        = (err, bank1, pool1) ∧
      fundRemainingsToCommunity d s
        = (.returned err, { s with bank := bank1, communityPool := pool1 })) := by
  unfold fundRemainingsToCommunity
  by_cases hr : (GetModuleAccountBalance d s).amount < minInt64 ∨
      maxInt64 < (GetModuleAccountBalance d s).amount
  · left; exact ⟨.int64OutOfBound, by simp only [hr, if_true]⟩
  · rcases hc : NewCoins d [GetModuleAccountBalance d s] with p | coins
    · left; exact ⟨p, by simp only [hr, if_false, hc]⟩
    · rcases hfd : d.fundCommunityPool s.bank s.communityPool coins d.moduleAddress
        with ⟨err, bank1, pool1⟩
      right
      exact ⟨coins, err, bank1, pool1, rfl, hfd, by simp only [hr, if_false, hc, hfd]⟩

theorem Store.mem_set {β : Type} (st : Store β) (k : AccAddress) (v : β)
    (hs : StoreSorted st) (x : AccAddress × β) (hx : x ∈ Store.set st k v) :
    x = (k, v) ∨ (x ∈ st ∧ x.1 ≠ k) := by
  induction st with
  | nil =>
    simp only [Store.set, List.mem_singleton] at hx
    exact Or.inl hx
  | cons kv rest ih =>
    obtain ⟨k0, v0⟩ := kv
    have hrest : StoreSorted rest := (List.pairwise_cons.mp hs).2
    have hlt : ∀ y ∈ rest, k0 < y.1 := (List.pairwise_cons.mp hs).1
    simp only [Store.set] at hx
    by_cases h1 : k0 = k
    · subst h1
      simp only [if_true, List.mem_cons] at hx
      rcases hx with h | h
      · exact Or.inl h
      · exact Or.inr ⟨List.mem_cons_of_mem _ h, fun he => lt_irrefl k0 (he ▸ hlt x h)⟩
    · by_cases h2 : k < k0
      · simp only [h1, if_false, h2, decide_True, if_true, List.mem_cons] at hx
        rcases hx with h | h | h
        · exact Or.inl h
        · subst h
          exact Or.inr ⟨List.mem_cons_self _ _, h1⟩
        · exact Or.inr ⟨List.mem_cons_of_mem _ h,
            fun he => lt_irrefl k (lt_trans h2 (he ▸ hlt x h))⟩
      · simp only [h1, if_false, h2, decide_False, Bool.false_eq_true, List.mem_cons] at hx
        rcases hx with h | h
        · subst h
          exact Or.inr ⟨List.mem_cons_self _ _, h1⟩
        · rcases ih hrest h with h3 | ⟨h3, h4⟩
          · exact Or.inl h3
          · exact Or.inr ⟨List.mem_cons_of_mem _ h3, h4⟩

theorem Store.set_sorted {β : Type} (st : Store β) (k : AccAddress) (v : β)
    (hs : StoreSorted st) : StoreSorted (Store.set st k v) := by
  induction st with
  | nil => exact List.pairwise_singleton _ _
  | cons kv rest ih =>
    obtain ⟨k0, v0⟩ := kv
    have hrest : StoreSorted rest := (List.pairwise_cons.mp hs).2
    have hlt : ∀ y ∈ rest, k0 < y.1 := (List.pairwise_cons.mp hs).1
    simp only [Store.set]
    by_cases h1 : k0 = k
    · subst h1
      simp only [if_true]
      exact List.pairwise_cons.mpr ⟨hlt, hrest⟩
    · by_cases h2 : k < k0
      · simp only [h1, if_false, h2, decide_True, if_true]
        refine List.pairwise_cons.mpr ⟨?_, hs⟩
        intro y hy
        rcases List.mem_cons.mp hy with h | h
        · subst h; exact h2
        · exact lt_trans h2 (hlt y h)
      · simp only [h1, if_false, h2, decide_False, Bool.false_eq_true]
        refine List.pairwise_cons.mpr ⟨?_, ih hrest⟩
        intro y hy
        rcases Store.mem_set rest k v hrest y hy with h | ⟨h, _⟩
        · subst h
          exact lt_of_le_of_ne (not_lt.mp h2) h1
        · exact hlt y h

theorem Store.set_keyed {β : Type} (d : Deps β) (st : Store β) (k : AccAddress) (v : β)
    (r : ClaimRecord) (hs : StoreSorted st) (hk : StoreKeyed d st)
    (hv : d.unmarshal v = .ok r) (hr : d.accAddressFromBech32 r.address = .ok k) :
    StoreKeyed d (Store.set st k v) := by
  intro x hx
  rcases Store.mem_set st k v hs x hx with h | ⟨h, _⟩
  · subst h
    exact ⟨r, hv, hr⟩
  · exact hk x h

theorem Store.set_length {β : Type} (st : Store β) (k : AccAddress) (v v0 : β)
    (hs : StoreSorted st) (hg : Store.get st k = some v0) :
    (Store.set st k v).length = st.length := by
  induction st with
  | nil => simp [Store.get] at hg
  | cons kv rest ih =>
    obtain ⟨k1, v1⟩ := kv
    have hrest : StoreSorted rest := (List.pairwise_cons.mp hs).2
    have hlt : ∀ y ∈ rest, k1 < y.1 := (List.pairwise_cons.mp hs).1
    simp only [Store.set]
    by_cases h1 : k1 = k
    · simp [h1]
    · simp only [Store.get, h1, if_false] at hg
      have hmem : ∃ y ∈ rest, y.1 = k := by
        clear ih hlt hrest hs
        induction rest with
        | nil => simp [Store.get] at hg
        | cons y ys ih2 =>
          obtain ⟨k2, v2⟩ := y
          by_cases h3 : k2 = k
          · exact ⟨(k2, v2), List.mem_cons_self _ _, h3⟩
          · simp only [Store.get, h3, if_false] at hg
            obtain ⟨z, hz, hzk⟩ := ih2 hg
            exact ⟨z, List.mem_cons_of_mem _ hz, hzk⟩
      obtain ⟨y, hy, hyk⟩ := hmem
      have h2 : ¬ k < k1 := fun h => lt_irrefl k (lt_trans h (hyk ▸ hlt y hy))
      simp only [h1, if_false, h2, decide_False, Bool.false_eq_true, List.length_cons,
        ih hrest hg]

/-- On a sorted store whose entries are keyed by the address of their record,
`GetClaimRecords` returns, and lists at most one record per address. -/
theorem getClaimRecordsLoop_unique {β : Type} (d : Deps β) (st : Store β)
    (hs : StoreSorted st) (hk : StoreKeyed d st) :
    ∃ recs, getClaimRecordsLoop d st = .ok recs ∧ recs.length = st.length ∧
      ∀ a, (recordsAt d a recs).length ≤ 1 ∧
        ((∀ kv ∈ st, kv.1 ≠ a) → recordsAt d a recs = []) := by
  induction st with
  | nil => exact ⟨[], rfl, rfl, fun a => ⟨by simp [recordsAt], fun _ => rfl⟩⟩
  | cons kv rest ih =>
    obtain ⟨k0, v0⟩ := kv
    have hrest : StoreSorted rest := (List.pairwise_cons.mp hs).2
    have hlt : ∀ y ∈ rest, k0 < y.1 := (List.pairwise_cons.mp hs).1
    obtain ⟨r, hr, hrk⟩ := hk (k0, v0) (List.mem_cons_self _ _)
    obtain ⟨recs, hrecs, hlen, hcount⟩ :=
      ih hrest (fun x hx => hk x (List.mem_cons_of_mem _ hx))
    refine ⟨r :: recs, by simp [getClaimRecordsLoop, hr, hrecs], by simp [hlen], ?_⟩
    intro a
    by_cases hka : k0 = a
    · subst hka
      have hnil : recordsAt d k0 recs = [] :=
        (hcount k0).2 (fun y hy he => lt_irrefl k0 (he ▸ hlt y hy))
      have hcons : recordsAt d k0 (r :: recs) = r :: recordsAt d k0 recs := by
        simp [recordsAt, hrk]
      rw [hcons, hnil]
      exact ⟨by simp, fun h => absurd rfl (h _ (List.mem_cons_self _ _))⟩
    · have hcons : recordsAt d a (r :: recs) = recordsAt d a recs := by
        simp [recordsAt, hrk, hka]
      rw [hcons]
      exact ⟨(hcount a).1, fun h => (hcount a).2 (fun y hy => h y (List.mem_cons_of_mem _ hy))⟩

theorem timeSub_range (t u : Int) : minInt64 ≤ timeSub t u ∧ timeSub t u ≤ maxInt64 := by
  simp only [timeSub, minInt64, maxInt64]
  split_ifs <;> omega

theorem timeSub_nonneg (t u : Int) (h : ¬ t < u) : 0 ≤ timeSub t u := by
  simp only [timeSub, minInt64, maxInt64]
  split_ifs <;> omega

/-- The arithmetic of the guards before the division: an elapsed time past
`durationUntilDecay` and not past the end of the window leaves a decay time in
`(0, durationOfDecay]`. -/
theorem decay_guard (U D e : Int)
    (hU1 : minInt64 ≤ U) (hD2 : D ≤ maxInt64)
    (hS1 : minInt64 ≤ U + D) (hS2 : U + D ≤ maxInt64)
    (h1 : ¬ e ≤ U) (h2 : ¬ wrap64 (U + D) < e) :
    0 < D ∧ 0 < wrap64 (e - U) ∧ wrap64 (e - U) ≤ D ∧ wrap64 (e - U) = e - U := by
  have hmin : minInt64 = -9223372036854775808 := rfl
  have hmax : maxInt64 = 9223372036854775807 := rfl
  rw [wrap64_id _ hS1 hS2] at h2
  have hw : wrap64 (e - U) = e - U := wrap64_id _ (by omega) (by omega)
  rw [hw]
  omega

theorem decay_guard_overflow (U D e : Int)
    (hD2 : D ≤ maxInt64)
    (hS : maxInt64 < U + D) (h1 : ¬ e ≤ U) : wrap64 (U + D) < e := by
  simp only [wrap64, maxInt64] at *
  omega

theorem quoInt64_newDec (t D : Int) (h0 : 0 < t) (hD : 0 < D) :
    Dec.quoInt64 (Dec.newDec t) D = .ok ⟨t * precisionReuse / D⟩ := by
  simp only [Dec.quoInt64, Dec.newDec, ne_of_gt hD, if_false]
  rw [Int.tdiv_eq_ediv (Int.mul_nonneg (le_of_lt h0) (by decide)) (le_of_lt hD)]

/-- Shape of the amount for an open action of a stored record with a valid allocation, at
any time, for `int64` durations whose sum does not fall below the smallest `int64`. -/
theorem claimable_shape {β : Type} (d : Deps β) (s : State β) (addr : AccAddress)
    (action : Nat) (rec : ClaimRecord)
    (hrec : GetClaimRecord d s addr = (rec, none))
    (haddr : rec.address ≠ "")
    (hflag : rec.actionCompleted[action]? = some false)
    (hN : 0 < d.numActions)
    (hv : Coins.isValid d.validateDenom rec.initialClaimableAmount = true)
    (hU : minInt64 ≤ s.params.durationUntilDecay)
    (hD2 : s.params.durationOfDecay ≤ maxInt64)
    (hS : minInt64 ≤ s.params.durationUntilDecay + s.params.durationOfDecay) :
    GetClaimableAmountForAction d s addr action = .returned [] none ∨
    GetClaimableAmountForAction d s addr action
      = .returned (scaleCoins (fun a => a / (d.numActions : Int)) rec.initialClaimableAmount)
          none ∨
    ∃ t, 0 < t ∧ t ≤ s.params.durationOfDecay ∧
      GetClaimableAmountForAction d s addr action
        = .returned
            (scaleCoins (fun a => chopNonneg (a * claimablePercentAt t s.params.durationOfDecay))
              (scaleCoins (fun a => a / (d.numActions : Int)) rec.initialClaimableAmount))
            none := by
  have hmin : minInt64 = -9223372036854775808 := rfl
  have hmax : maxInt64 = 9223372036854775807 := rfl
  by_cases hnow : s.blockTime < s.params.airdropStartTime
  · left
    exact claimable_before_start d s addr action rec hrec (fun _ => flag_lt_length hflag) hnow
  have hshape : GetClaimableAmountForAction d s addr action =
      (if timeSub s.blockTime s.params.airdropStartTime ≤ s.params.durationUntilDecay then
        .returned (scaleCoins (fun a => a / (d.numActions : Int)) rec.initialClaimableAmount)
          none
      else if wrap64 (s.params.durationUntilDecay + s.params.durationOfDecay)
          < timeSub s.blockTime s.params.airdropStartTime then .returned [] none
      else GetClaimableAmountForAction d s addr action) := by
    split_ifs with h1 h2
    · unfold GetClaimableAmountForAction
      rw [hrec]
      simp only [haddr, if_false, hflag, hnow, perAction_closed d _ hN hv, h1, if_true]
    · unfold GetClaimableAmountForAction
      rw [hrec]
      simp only [haddr, if_false, hflag, hnow, perAction_closed d _ hN hv, h1, h2, if_true]
    · rfl
  by_cases h1 : timeSub s.blockTime s.params.airdropStartTime ≤ s.params.durationUntilDecay
  · right; left
    rw [hshape, if_pos h1]
  by_cases h2 : wrap64 (s.params.durationUntilDecay + s.params.durationOfDecay)
      < timeSub s.blockTime s.params.airdropStartTime
  · left
    rw [hshape, if_neg h1, if_pos h2]
  right; right
  have hS2 : s.params.durationUntilDecay + s.params.durationOfDecay ≤ maxInt64 := by
    by_contra hov
    exact h2 (decay_guard_overflow _ _ _ hD2 (not_le.mp hov) h1)
  obtain ⟨hDpos, ht0, htD, hw⟩ := decay_guard _ _ _ hU hD2 hS hS2 h1 h2
  rw [hw] at ht0 htD
  refine ⟨timeSub s.blockTime s.params.airdropStartTime - s.params.durationUntilDecay,
    ht0, htD, ?_⟩
  obtain ⟨hps, hpall⟩ := perAction_props d _ hv
  have hcc := claimableCoins_closed d _
    (Dec.sub Dec.oneDec
      ⟨(timeSub s.blockTime s.params.airdropStartTime - s.params.durationUntilDecay)
          * precisionReuse / s.params.durationOfDecay⟩)
    (claimablePercentAt_nonneg _ _ ht0 htD) hps hpall
  unfold GetClaimableAmountForAction
  rw [hrec]
  simp only [haddr, if_false, hflag, hnow, perAction_closed d _ hN hv, h1, h2, hw,
    quoInt64_newDec _ _ ht0 hDpos, hcc]
  rfl

/-- Per denomination, the amount for an open action lies between zero and the share. -/
theorem claimable_bounds_open {β : Type} (d : Deps β) (s : State β) (addr : AccAddress)
    (action : Nat) (rec : ClaimRecord)
    (hrec : GetClaimRecord d s addr = (rec, none))
    (haddr : rec.address ≠ "")
    (hflag : rec.actionCompleted[action]? = some false)
    (hN : 0 < d.numActions)
    (hv : Coins.isValid d.validateDenom rec.initialClaimableAmount = true)
    (hU : minInt64 ≤ s.params.durationUntilDecay)
    (hD2 : s.params.durationOfDecay ≤ maxInt64)
    (hS : minInt64 ≤ s.params.durationUntilDecay + s.params.durationOfDecay) :
    ∃ c, GetClaimableAmountForAction d s addr action = .returned c none ∧
      DenomSorted c ∧ (∀ x ∈ c, d.validateDenom x.denom = true ∧ 0 < x.amount) ∧
      ∀ dn, 0 ≤ Coins.amountOf dn c ∧
        Coins.amountOf dn c
          ≤ Coins.amountOf dn rec.initialClaimableAmount / (d.numActions : Int) := by
  obtain ⟨hps, hpall⟩ := perAction_props d _ hv
  have hpos : ∀ (g : Int → Int) (l : Coins), (∀ x ∈ l, d.validateDenom x.denom = true ∧
      0 ≤ x.amount) → (∀ a, 0 ≤ a → 0 ≤ g a) →
      ∀ x ∈ scaleCoins g l, d.validateDenom x.denom = true ∧ 0 < x.amount := by
    intro g l hl hg x hx
    have hx1 := hx
    simp only [scaleCoins, removeZeroCoins, List.mem_filter, Coin.isZero, Bool.not_eq_true',
      decide_eq_false_iff_not] at hx1
    obtain ⟨c0, hc0, rfl⟩ := mem_scaleCoins hx
    have := hg c0.amount (hl c0 hc0).2
    exact ⟨(hl c0 hc0).1, lt_of_le_of_ne this (Ne.symm hx1.2)⟩
  have hvall := (isValid_sorted _ _ hv).2
  rcases claimable_shape d s addr action rec hrec haddr hflag hN hv hU hD2 hS
    with h | h | ⟨t, ht0, htD, h⟩
  · refine ⟨[], h, List.Pairwise.nil, by simp, fun dn => ?_⟩
    exact ⟨le_refl _, share_nonneg d _ hv dn⟩
  · refine ⟨_, h, hps, ?_, fun dn => ?_⟩
    · exact hpos _ _ (fun x hx => ⟨(hvall x hx).1, le_of_lt (hvall x hx).2⟩)
        (fun a ha => Int.ediv_nonneg ha (Int.ofNat_nonneg _))
    · rw [amountOf_share d _ hv]
      exact ⟨share_nonneg d _ hv dn, le_refl _⟩
  · have hp0 := claimablePercentAt_nonneg _ _ ht0 htD
    have hp1 := claimablePercentAt_le _ _ ht0 htD
    refine ⟨_, h, denomSorted_scaleCoins _ _ hps, ?_, fun dn => ?_⟩
    · exact hpos _ _ hpall (fun a ha => chopNonneg_nonneg _ (Int.mul_nonneg ha hp0))
    · rw [amountOf_decayed d _ hv]
      have hshare := share_nonneg d _ hv dn
      exact ⟨chopNonneg_nonneg _ (Int.mul_nonneg hshare hp0),
        chopNonneg_le _ _ hshare hp0 hp1⟩

/-- Per denomination, the amount for any action of any stored record lies between zero and
the share. -/
theorem claimable_bounds {β : Type} (d : Deps β) (s : State β) (addr : AccAddress)
    (action : Nat) (rec : ClaimRecord)
    (hrec : GetClaimRecord d s addr = (rec, none))
    (hidx : rec.address ≠ "" → action < rec.actionCompleted.length)
    (hN : 0 < d.numActions)
    (hv : Coins.isValid d.validateDenom rec.initialClaimableAmount = true)
    (hU : minInt64 ≤ s.params.durationUntilDecay)
    (hD2 : s.params.durationOfDecay ≤ maxInt64)
    (hS : minInt64 ≤ s.params.durationUntilDecay + s.params.durationOfDecay) :
    ∃ c, GetClaimableAmountForAction d s addr action = .returned c none ∧
      ∀ dn, 0 ≤ Coins.amountOf dn c ∧
        Coins.amountOf dn c
          ≤ Coins.amountOf dn rec.initialClaimableAmount / (d.numActions : Int) := by
  have hempty : ∀ dn, 0 ≤ Coins.amountOf dn [] ∧ Coins.amountOf dn []
      ≤ Coins.amountOf dn rec.initialClaimableAmount / (d.numActions : Int) :=
    fun dn => ⟨le_refl _, share_nonneg d _ hv dn⟩
  by_cases haddr : rec.address = ""
  · exact ⟨[], claimable_no_record d s addr action rec hrec haddr, hempty⟩
  have hlen := hidx haddr
  rcases hb : rec.actionCompleted[action] with _ | _
  · obtain ⟨c, hc, -, -, hbd⟩ := claimable_bounds_open d s addr action rec hrec haddr
      (by rw [List.getElem?_eq_getElem hlen, hb]) hN hv hU hD2 hS
    exact ⟨c, hc, hbd⟩
  · exact ⟨[], claimable_completed d s addr action rec hrec
      (by rw [List.getElem?_eq_getElem hlen, hb]), hempty⟩

/-- The loop of `GetUserTotalClaimable` adds up, per denomination, what the calls for the
visited actions return. -/
theorem totalClaimableLoop_sum {β : Type} (d : Deps β) (s : State β) (addr : AccAddress)
    (order : List Nat) :
    ∀ total : Coins,
      (∀ a ∈ order, ∃ c, GetClaimableAmountForAction d s addr a = .returned c none) →
      ∃ T, totalClaimableLoop d s addr order total = .returned T none ∧
        ∀ dn, Coins.amountOf dn T = Coins.amountOf dn total
          + (order.map (fun a => Coins.amountOf dn (claimableOf d s addr a))).sum := by
  induction order with
  | nil => intro total _; exact ⟨total, rfl, fun dn => by simp⟩
  | cons a rest ih =>
    intro total hall
    obtain ⟨c, hc⟩ := hall a (List.mem_cons_self _ _)
    obtain ⟨T, hT, hsum⟩ := ih (Coins.add total c)
      (fun x hx => hall x (List.mem_cons_of_mem _ hx))
    refine ⟨T, by simp only [totalClaimableLoop, hc]; exact hT, ?_⟩
    intro dn
    rw [hsum dn, amountOf_add]
    simp only [List.map_cons, List.sum_cons, claimableOf, hc]
    ring

/-- The total over a permutation of the actions is, per denomination, the sum over the
actions in their natural order. -/
theorem totalClaimable_sum {β : Type} (d : Deps β) (s : State β) (addr : AccAddress)
    (order : List Nat) (rec : ClaimRecord)
    (hrec : GetClaimRecord d s addr = (rec, none))
    (hall : ∀ a, a < d.numActions →
      ∃ c, GetClaimableAmountForAction d s addr a = .returned c none)
    (horder : order.Perm (List.range d.numActions)) :
    ∃ T, GetUserTotalClaimable d s addr order = .returned T none ∧
      ∀ dn, Coins.amountOf dn T
        = ((List.range d.numActions).map
            (fun a => Coins.amountOf dn (claimableOf d s addr a))).sum := by
  have hall2 : ∀ a ∈ order, ∃ c, GetClaimableAmountForAction d s addr a = .returned c none :=
    fun a ha => hall a (List.mem_range.mp (horder.mem_iff.mp ha))
  obtain ⟨T, hT, hsum⟩ := totalClaimableLoop_sum d s addr order [] hall2
  have hperm : ∀ dn, (order.map (fun a => Coins.amountOf dn (claimableOf d s addr a))).sum
      = ((List.range d.numActions).map
          (fun a => Coins.amountOf dn (claimableOf d s addr a))).sum :=
    fun dn => (horder.map _).sum_eq
  by_cases haddr : rec.address = ""
  · refine ⟨[], totalClaimable_no_record d s addr order rec hrec haddr, fun dn => ?_⟩
    have hz : ∀ a, Coins.amountOf dn (claimableOf d s addr a) = 0 := by
      intro a
      simp [claimableOf, claimable_no_record d s addr a rec hrec haddr, Coins.amountOf]
    simp [hz, Coins.amountOf]
  · refine ⟨T, by simp only [GetUserTotalClaimable, hrec, haddr, if_false]; exact hT, ?_⟩
    intro dn
    rw [hsum dn, hperm dn]
    simp [Coins.amountOf]

theorem mem_removeZeroCoins_iff {cs : Coins} {c : Coin} :
    c ∈ removeZeroCoins cs ↔ c ∈ cs ∧ c.amount ≠ 0 := by
  simp [removeZeroCoins, Coin.isZero]

theorem safeAddGo_forall (P : Coin → Prop)
    (hP : ∀ x y : Coin, P x → P y → x.denom = y.denom → P ⟨x.denom, x.amount + y.amount⟩)
    (a : Coin) (as : Coins) (recA : Coins → Coins)
    (ha : ∀ c ∈ a :: as, P c)
    (hrec : ∀ b, (∀ c ∈ b, P c) → ∀ c ∈ recA b, P c) (b : Coins) (hb : ∀ c ∈ b, P c) :
    ∀ c ∈ safeAddGo a (a :: as) recA b, P c := by
  induction b with
  | nil =>
    intro c hc
    simp only [safeAddGo] at hc
    exact ha c (mem_removeZeroCoins hc)
  | cons x xs ih =>
    have hx : P x := hb x (List.mem_cons_self _ _)
    have hxs : ∀ c ∈ xs, P c := fun c hc => hb c (List.mem_cons_of_mem _ hc)
    have hpa : P a := ha a (List.mem_cons_self _ _)
    intro c hc
    simp only [safeAddGo] at hc
    split_ifs at hc with h1 h2 h3 h4 h5
    · exact hrec _ hb c hc
    · rcases List.mem_cons.mp hc with h | h
      · subst h; exact hpa
      · exact hrec _ hb c h
    · exact hrec _ hxs c hc
    · rcases List.mem_cons.mp hc with h | h
      · subst h; exact hP a x hpa hx h3
      · exact hrec _ hxs c h
    · exact ih hxs c hc
    · rcases List.mem_cons.mp hc with h | h
      · subst h; exact hx
      · exact ih hxs c h

/-- A property of coins that survives the summing of two coins of one denomination holds for
every coin of `Coins.add a b` when it holds for every coin of `a` and of `b`. -/
theorem add_forall (P : Coin → Prop)
    (hP : ∀ x y : Coin, P x → P y → x.denom = y.denom → P ⟨x.denom, x.amount + y.amount⟩)
    (a : Coins) : ∀ b : Coins, (∀ c ∈ a, P c) → (∀ c ∈ b, P c) →
      ∀ c ∈ Coins.add a b, P c := by
  induction a with
  | nil =>
    intro b _ hb c hc
    simp only [Coins.add] at hc
    exact hb c (mem_removeZeroCoins hc)
  | cons x xs ih =>
    intro b ha hb
    simp only [Coins.add]
    exact safeAddGo_forall P hP x xs (Coins.add xs) ha
      (fun b2 hb2 => ih b2 (fun c hc => ha c (List.mem_cons_of_mem _ hc)) hb2) b hb

theorem coinOk_add {β : Type} (d : Deps β) (x y : Coin)
    (hx : d.validateDenom x.denom = true ∧ 0 ≤ x.amount)
    (hy : d.validateDenom y.denom = true ∧ 0 ≤ y.amount) (_h : x.denom = y.denom) :
    d.validateDenom (Coin.mk x.denom (x.amount + y.amount)).denom = true ∧
      0 ≤ (Coin.mk x.denom (x.amount + y.amount)).amount :=
  ⟨hx.1, Int.add_nonneg hx.2 hy.2⟩

/-- Every coin that `addEachCoin` returns has a well-formed denomination and a non-negative
amount. -/
theorem addEachCoin_forall {β : Type} (d : Deps β) (f : Int → Except Panic Int) (l : Coins) :
    ∀ (acc out : Coins),
      (∀ c ∈ acc, d.validateDenom c.denom = true ∧ 0 ≤ c.amount) →
      addEachCoin d f l acc = .ok out →
      ∀ c ∈ out, d.validateDenom c.denom = true ∧ 0 ≤ c.amount := by
  induction l with
  | nil =>
    intro acc out hacc h
    simp only [addEachCoin, Except.ok.injEq] at h
    subst h
    exact hacc
  | cons x xs ih =>
    intro acc out hacc h
    simp only [addEachCoin] at h
    rcases hf : f x.amount with p | a
    · rw [hf] at h; simp at h
    rw [hf] at h
    simp only at h
    rcases hn : NewCoin d x.denom a with p | c
    · rw [hn] at h; simp at h
    rw [hn] at h
    simp only at h
    have hc : d.validateDenom c.denom = true ∧ 0 ≤ c.amount := by
      simp only [NewCoin] at hn
      split_ifs at hn with h1 h2
      simp only [Except.ok.injEq] at hn
      subst hn
      exact ⟨by simpa using h1, not_lt.mp h2⟩
    refine ih (Coins.add acc [c]) out ?_ h
    exact add_forall _ (coinOk_add d) acc [c] hacc
      (fun y hy => by rw [List.mem_singleton.mp hy]; exact hc)

/-- The loop `addEachCoin` returns when every amount maps to a non-negative amount and every
denomination is well formed. -/
theorem addEachCoin_total {β : Type} (d : Deps β) (f : Int → Except Panic Int) (l : Coins) :
    ∀ acc : Coins,
      (∀ x ∈ l, d.validateDenom x.denom = true ∧ ∃ a, f x.amount = .ok a ∧ 0 ≤ a) →
      ∃ out, addEachCoin d f l acc = .ok out := by
  induction l with
  | nil => intro acc _; exact ⟨acc, rfl⟩
  | cons x xs ih =>
    intro acc h
    obtain ⟨hvd, a, hfa, ha⟩ := h x (List.mem_cons_self _ _)
    obtain ⟨out, hout⟩ := ih (Coins.add acc [⟨x.denom, a⟩])
      (fun y hy => h y (List.mem_cons_of_mem _ hy))
    exact ⟨out, by simp [addEachCoin, hfa, NewCoin, hvd, not_lt.mpr ha, hout]⟩

/-- Once the per-action share has been built, scaling it by a fraction in `[0, 1]` returns,
and returns non-negative amounts only. -/
theorem claimableCoins_total {β : Type} (d : Deps β) (initial perAction : Coins) (pct : Dec)
    (hp : 0 ≤ pct.i) (h1 : initialClaimablePerAction d initial = .ok perAction) :
    ∃ coins, claimableCoins d perAction pct = .ok coins ∧ ∀ c ∈ coins, 0 ≤ c.amount := by
  have hper : ∀ c ∈ perAction, d.validateDenom c.denom = true ∧ 0 ≤ c.amount :=
    addEachCoin_forall d _ initial [] perAction (by simp) h1
  obtain ⟨coins, hcoins⟩ := addEachCoin_total d
    (fun a => .ok (Dec.roundInt (Dec.mul (Dec.ofInt a) pct))) perAction []
    (fun x hx => ⟨(hper x hx).1, _, rfl, by
      rw [roundInt_mul_ofInt _ _ (Int.mul_nonneg (hper x hx).2 hp)]
      exact chopNonneg_nonneg _ (Int.mul_nonneg (hper x hx).2 hp)⟩)
  exact ⟨coins, hcoins,
    fun c hc => (addEachCoin_forall d _ perAction [] coins (by simp) hcoins c hc).2⟩

theorem sum_range_update (f g : Nat → Int) (a0 : Nat) (hg0 : g a0 = f a0 - 1)
    (hg : ∀ a, a ≠ a0 → g a = f a) :
    ∀ n, a0 < n → ((List.range n).map g).sum = ((List.range n).map f).sum - 1 := by
  intro n
  induction n with
  | zero => intro h; exact absurd h (Nat.not_lt_zero _)
  | succ n ih =>
    intro h
    simp only [List.range_succ, List.map_append, List.sum_append, List.map_cons, List.map_nil,
      List.sum_cons, List.sum_nil, add_zero]
    by_cases hn : a0 = n
    · subst hn
      have hsame : (List.range a0).map g = (List.range a0).map f := by
        apply List.map_congr_left
        intro a ha
        exact hg a (ne_of_lt (List.mem_range.mp ha))
      rw [hsame, hg0]
      ring
    · have hlt : a0 < n := lt_of_le_of_ne (Nat.lt_succ_iff.mp h) hn
      rw [ih hlt, hg n (Ne.symm hn)]
      ring

theorem openActions_nonneg (n : Nat) (r : ClaimRecord) : 0 ≤ openActions n r := by
  unfold openActions
  apply List.sum_nonneg
  intro x hx
  obtain ⟨a, _, rfl⟩ := List.mem_map.mp hx
  split_ifs <;> omega

/-- Completing an open action among the `n` defined ones takes one from the number of open
actions. -/
theorem openActions_markCompleted (n : Nat) (r : ClaimRecord) (action : Nat)
    (hflag : r.actionCompleted[action]? = some false) (hn : action < n) :
    openActions n (markCompleted r action) = openActions n r - 1 := by
  have hlen : action < r.actionCompleted.length := flag_lt_length hflag
  unfold openActions
  apply sum_range_update _ _ action _ _ n hn
  · have h1 : (markCompleted r action).actionCompleted[action]?.getD false = true := by
      simp [markCompleted, hlen]
    have h2 : r.actionCompleted[action]?.getD false = false := by
      simp [hflag]
    simp only [List.getD_eq_getElem?_getD, h1, h2]
    simp
  · intro a ha
    have h1 : (markCompleted r action).actionCompleted.getD a false
        = r.actionCompleted.getD a false := by
      simp [markCompleted, List.getD_eq_getElem?_getD, List.getElem?_set_ne (Ne.symm ha)]
    rw [h1]

theorem Store.get_mem {β : Type} (st : Store β) (k : AccAddress) (v : β)
    (h : Store.get st k = some v) : (k, v) ∈ st := by
  induction st with
  | nil => simp [Store.get] at h
  | cons kv rest ih =>
    obtain ⟨k0, v0⟩ := kv
    by_cases h1 : k0 = k
    · simp only [Store.get, h1, if_true, Option.some.injEq] at h
      subst h1 h
      exact List.mem_cons_self _ _
    · simp only [Store.get, h1, if_false] at h
      exact List.mem_cons_of_mem _ (ih h)

theorem getClaimRecordsLoop_mem {β : Type} (d : Deps β) (st : Store β) :
    ∀ recs, getClaimRecordsLoop d st = .ok recs →
      ∀ k v r, (k, v) ∈ st → d.unmarshal v = .ok r → r ∈ recs := by
  induction st with
  | nil => intro recs _ k v r h; simp at h
  | cons kv rest ih =>
    obtain ⟨k0, v0⟩ := kv
    intro recs hrecs k v r hmem hv
    simp only [getClaimRecordsLoop] at hrecs
    rcases h0 : d.unmarshal v0 with e | r0
    · rw [h0] at hrecs; simp at hrecs
    rw [h0] at hrecs
    simp only at hrecs
    rcases hl : getClaimRecordsLoop d rest with p | recs0
    · rw [hl] at hrecs; simp at hrecs
    rw [hl] at hrecs
    simp only [Except.ok.injEq] at hrecs
    subst hrecs
    rcases List.mem_cons.mp hmem with h | h
    · simp only [Prod.mk.injEq] at h
      obtain ⟨_, h2⟩ := h
      subst h2
      rw [h0] at hv
      simp only [Except.ok.injEq] at hv
      subst hv
      exact List.mem_cons_self _ _
    · exact List.mem_cons_of_mem _ (ih recs0 hl k v r h hv)

/-- Replacing the entry of a key in a sorted store replaces its record in the list of
`GetClaimRecords` and changes the outstanding sum by the difference of the two terms. -/
theorem getClaimRecordsLoop_set {β : Type} (d : Deps β) (n : Nat) (k : AccAddress)
    (v0 v1 : β) (r0 r1 : ClaimRecord)
    (h0 : d.unmarshal v0 = .ok r0) (h1 : d.unmarshal v1 = .ok r1) (st : Store β) :
    ∀ recs, StoreSorted st → Store.get st k = some v0 →
      getClaimRecordsLoop d st = .ok recs →
      ∃ recs1, getClaimRecordsLoop d (Store.set st k v1) = .ok recs1 ∧
        ∀ dn, outstanding n dn recs1 = outstanding n dn recs
          - openActions n r0 * (Coins.amountOf dn r0.initialClaimableAmount / (n : Int))
          + openActions n r1 * (Coins.amountOf dn r1.initialClaimableAmount / (n : Int)) := by
  induction st with
  | nil => intro recs _ hg; simp [Store.get] at hg
  | cons kv rest ih =>
    obtain ⟨k2, v2⟩ := kv
    intro recs hs hg hrecs
    have hrest : StoreSorted rest := (List.pairwise_cons.mp hs).2
    have hlt : ∀ y ∈ rest, k2 < y.1 := (List.pairwise_cons.mp hs).1
    simp only [getClaimRecordsLoop] at hrecs
    rcases h2 : d.unmarshal v2 with e | r2
    · rw [h2] at hrecs; simp at hrecs
    rw [h2] at hrecs
    simp only at hrecs
    rcases hl : getClaimRecordsLoop d rest with p | recs0
    · rw [hl] at hrecs; simp at hrecs
    rw [hl] at hrecs
    simp only [Except.ok.injEq] at hrecs
    subst hrecs
    by_cases hk : k2 = k
    · subst hk
      simp only [Store.get, if_true, Option.some.injEq] at hg
      subst hg
      rw [h0] at h2
      simp only [Except.ok.injEq] at h2
      subst h2
      refine ⟨r1 :: recs0, by simp [Store.set, getClaimRecordsLoop, h1, hl], fun dn => ?_⟩
      simp only [outstanding, List.map_cons, List.sum_cons]
      ring
    · simp only [Store.get, hk, if_false] at hg
      have hmem := Store.get_mem rest k v0 hg
      have hnlt : ¬ k < k2 := fun h => lt_irrefl k (lt_trans h (hlt _ hmem))
      obtain ⟨recs1, hr1, hsum⟩ := ih recs0 hrest hg hl
      refine ⟨r2 :: recs1, ?_, fun dn => ?_⟩
      · simp [Store.set, hk, hnlt, getClaimRecordsLoop, h2, hr1]
      · have := hsum dn
        simp only [outstanding, List.map_cons, List.sum_cons] at this ⊢
        rw [this]
        ring

theorem outstanding_ge_term (n : Nat) (dn : String) (recs : List ClaimRecord) (r : ClaimRecord)
    (hr : r ∈ recs)
    (hnn : ∀ x ∈ recs, 0 ≤ Coins.amountOf dn x.initialClaimableAmount / (n : Int)) :
    openActions n r * (Coins.amountOf dn r.initialClaimableAmount / (n : Int))
      ≤ outstanding n dn recs := by
  induction recs with
  | nil => simp at hr
  | cons x xs ih =>
    simp only [outstanding, List.map_cons, List.sum_cons]
    have hx : 0 ≤ openActions n x * (Coins.amountOf dn x.initialClaimableAmount / (n : Int)) :=
      Int.mul_nonneg (openActions_nonneg n x) (hnn x (List.mem_cons_self _ _))
    have hxs : 0 ≤ outstanding n dn xs := by
      unfold outstanding
      apply List.sum_nonneg
      intro y hy
      obtain ⟨z, hz, rfl⟩ := List.mem_map.mp hy
      exact Int.mul_nonneg (openActions_nonneg n z) (hnn z (List.mem_cons_of_mem _ hz))
    rcases List.mem_cons.mp hr with h | h
    · subst h
      unfold outstanding at hxs
      omega
    · have := ih h (fun y hy => hnn y (List.mem_cons_of_mem _ hy))
      unfold outstanding at this
      omega

theorem amountOf_of_mem_sorted (cs : Coins) (hs : DenomSorted cs) (c : Coin) (hc : c ∈ cs) :
    Coins.amountOf c.denom cs = c.amount := by
  induction cs with
  | nil => simp at hc
  | cons x xs ih =>
    have hs1 : DenomSorted xs := (List.pairwise_cons.mp hs).2
    have hlt : ∀ y ∈ xs, denomLt x.denom y.denom = true := (List.pairwise_cons.mp hs).1
    rcases List.mem_cons.mp hc with h | h
    · subst h
      simp [Coins.amountOf, amountOf_eq_zero_of_lt _ xs hlt]
    · have hne : x.denom ≠ c.denom := denomLt_ne (hlt c h)
      simp [Coins.amountOf, hne, ih hs1 h]

/-- The debit loop succeeds when the balance covers every coin of a denomination-sorted
amount. -/
theorem Bank.subLoop_ok (a : AccAddress) (cs : Coins) :
    ∀ b : Bank, DenomSorted cs → (∀ c ∈ cs, c.amount ≤ b.getBalance a c.denom) →
      ∃ b1, Bank.subLoop b a cs = (none, b1) := by
  induction cs with
  | nil => intro b _ _; exact ⟨b, rfl⟩
  | cons x xs ih =>
    intro b hs hcov
    have hs1 : DenomSorted xs := (List.pairwise_cons.mp hs).2
    have hlt : ∀ y ∈ xs, denomLt x.denom y.denom = true := (List.pairwise_cons.mp hs).1
    have hx := hcov x (List.mem_cons_self _ _)
    obtain ⟨b1, hb1⟩ := ih (b.setBalance a x.denom (b.getBalance a x.denom - x.amount)) hs1
      (fun c hc => by
        have hne : c.denom ≠ x.denom := Ne.symm (denomLt_ne (hlt c hc))
        rw [Bank.getBalance_setBalance]
        simp only [hne, and_false, if_false]
        exact hcov c (List.mem_cons_of_mem _ hc))
    exact ⟨b1, by simp only [Bank.subLoop, not_lt.mpr hx, if_false]; exact hb1⟩

/-- A transfer out of the module account fails for lack of funds only if some denomination
of the amount exceeds the balance. -/
theorem send_not_insufficient {β : Type} (d : Deps β) (b : Bank) (addr : AccAddress)
    (amt : Coins) (hs : DenomSorted amt)
    (hcov : ∀ dn, Coins.amountOf dn amt ≤ b.getBalance d.moduleAddress dn) :
    (sendCoinsFromModuleToAccount d b addr amt).1 ≠ some .insufficientFunds := by
  obtain ⟨b1, hb1⟩ := Bank.subLoop_ok d.moduleAddress amt b hs
    (fun c hc => by rw [← amountOf_of_mem_sorted amt hs c hc]; exact hcov c.denom)
  unfold sendCoinsFromModuleToAccount Bank.sendCoins
  split_ifs <;> simp [hb1]

/-- A successful transfer out of the module account lowers its balance by at most the amount
sent. -/
theorem send_module_balance_ge {β : Type} (d : Deps β) (b b1 : Bank) (addr : AccAddress)
    (amt : Coins) (h : sendCoinsFromModuleToAccount d b addr amt = (none, b1)) (dn : String)
    (hnn : 0 ≤ Coins.amountOf dn amt) :
    b.getBalance d.moduleAddress dn - Coins.amountOf dn amt
      ≤ b1.getBalance d.moduleAddress dn := by
  unfold sendCoinsFromModuleToAccount at h
  split at h
  · exact absurd h (by simp)
  · unfold Bank.sendCoins at h
    split at h
    · exact absurd h (by simp)
    · rcases hsub : Bank.subLoop b d.moduleAddress amt with ⟨_ | e, b2⟩
      swap
      · rw [hsub] at h; exact absurd h (by simp)
      · rw [hsub] at h
        simp only [Prod.mk.injEq, true_and] at h
        subst h
        have h1 := Bank.subLoop_balance _ _ _ _ hsub
        simp only [Bank.addLoop_balance, h1]
        by_cases hm : addr = d.moduleAddress
        · subst hm
          simp
          exact hnn
        · simp [hm, Ne.symm hm]

theorem getClaimRecord_inv {β : Type} (d : Deps β) (s : State β) (addr : AccAddress)
    (rec : ClaimRecord) (hrec : GetClaimRecord d s addr = (rec, none))
    (haddr : rec.address ≠ "") :
    ∃ v0, Store.get s.store addr = some v0 ∧ d.unmarshal v0 = .ok rec := by
  simp only [GetClaimRecord] at hrec
  rcases hg : Store.get s.store addr with _ | v0
  · rw [hg] at hrec
    simp only [Prod.mk.injEq, and_true] at hrec
    subst hrec
    exact absurd rfl haddr
  · rw [hg] at hrec
    simp only at hrec
    rcases hu : d.unmarshal v0 with e | r
    · rw [hu] at hrec; simp at hrec
    · rw [hu] at hrec
      simp only [Prod.mk.injEq, and_true] at hrec
      subst hrec
      exact ⟨v0, rfl, hu⟩

theorem outstanding_nonneg (n : Nat) (dn : String) (recs : List ClaimRecord)
    (hnn : ∀ x ∈ recs, 0 ≤ Coins.amountOf dn x.initialClaimableAmount / (n : Int)) :
    0 ≤ outstanding n dn recs := by
  unfold outstanding
  apply List.sum_nonneg
  intro y hy
  obtain ⟨z, hz, rfl⟩ := List.mem_map.mp hy
  exact Int.mul_nonneg (openActions_nonneg n z) (hnn z hz)

/-- Reading a store after a sequence of `Set` calls: the value of the last call for the key, or
the earlier value when no call was for the key. -/
theorem Store.get_setAll {β : Type} (kvs : List (AccAddress × β)) :
    ∀ (st : Store β) (k : AccAddress),
      Store.get (Store.setAll st kvs) k
        = match (kvs.filter (fun kv => decide (kv.1 = k))).getLast? with
          | some kv => some kv.2
          | none => Store.get st k := by
  induction kvs with
  | nil => intro st k; rfl
  | cons kv kvs ih =>
    intro st k
    have hstep : Store.setAll st (kv :: kvs) = Store.setAll (Store.set st kv.1 kv.2) kvs := rfl
    rw [hstep, ih]
    by_cases hk : kv.1 = k
    · subst hk
      rcases hl : (kvs.filter (fun x => decide (x.1 = kv.1))).getLast? with _ | kv1
      · have hnil : kvs.filter (fun x => decide (x.1 = kv.1)) = [] :=
          List.getLast?_eq_none_iff.mp hl
        simp [List.filter_cons, hnil, Store.get_set_same]
      · have hne : kvs.filter (fun x => decide (x.1 = kv.1)) ≠ [] := by
          intro h
          rw [h] at hl
          simp at hl
        obtain ⟨y, ys, hys⟩ := List.exists_cons_of_ne_nil hne
        rw [hys] at hl
        simp only [List.filter_cons, decide_True, if_true, hys, List.getLast?_cons_cons, hl]
    · have hk2 : k ≠ kv.1 := fun h => hk h.symm
      simp only [List.filter_cons, hk, decide_False, Bool.false_eq_true, if_false]
      rw [Store.get_set_other _ _ _ _ hk2]

theorem setClaimRecords_cons_ok {β : Type} (d : Deps β) (s : State β) (r : ClaimRecord)
    (rs : List ClaimRecord) (k : AccAddress) (bz : β)
    (hm : d.marshal r = .ok bz) (hk : d.accAddressFromBech32 r.address = .ok k) :
    SetClaimRecords d s (r :: rs)
      = SetClaimRecords d { s with store := Store.set s.store k bz } rs ∧
    writtenEntries d (r :: rs) = (k, bz) :: writtenEntries d rs := by
  simp [SetClaimRecords, SetClaimRecord, writtenEntries, hm, hk]

theorem setClaimRecords_cons_error {β : Type} (d : Deps β) (s : State β) (r : ClaimRecord)
    (rs : List ClaimRecord) (e : Err)
    (h : d.marshal r = .error e ∨
      ((∃ bz, d.marshal r = .ok bz) ∧ d.accAddressFromBech32 r.address = .error e)) :
    SetClaimRecords d s (r :: rs) = (some e, s) ∧ writtenEntries d (r :: rs) = [] := by
  rcases h with hm | ⟨⟨bz, hm⟩, hk⟩
  · simp [SetClaimRecords, SetClaimRecord, writtenEntries, hm]
  · simp [SetClaimRecords, SetClaimRecord, writtenEntries, hm, hk]

theorem setClaimRecord_cases {β : Type} (d : Deps β) (r : ClaimRecord) :
    (∃ k bz, d.marshal r = .ok bz ∧ d.accAddressFromBech32 r.address = .ok k) ∨
    ∃ e, d.marshal r = .error e ∨
      ((∃ bz, d.marshal r = .ok bz) ∧ d.accAddressFromBech32 r.address = .error e) := by
  rcases hm : d.marshal r with e | bz
  · exact Or.inr ⟨e, Or.inl rfl⟩
  · rcases hk : d.accAddressFromBech32 r.address with e | k
    · exact Or.inr ⟨e, Or.inr ⟨⟨bz, rfl⟩, rfl⟩⟩
    · exact Or.inl ⟨k, bz, rfl, rfl⟩

/-! ## The claims on solvency, totals, the end of the airdrop and the store -/

/-- C11 (claiming preserves solvency).  Take a state whose store is in ascending key order,
whose records all decode and carry valid allocations, whose record under `addr` is keyed by
its address, with a codec that encodes every record losslessly, an action among the `N`
defined ones and durations that are non-negative `int64` values.  If the balance of the module
account is, per denomination, at least the sum over all stored records and over their
not-yet-completed actions of `floor(initialClaimableAmount / N)`, then at every block time the
transfer of the claimable amount does not fail for lack of funds, and after
`ClaimCoinsForAction` the records still decode and the same inequality holds. -/
theorem claim_preserves_solvency {β : Type} (d : Deps β) (s : State β) (addr : AccAddress)
    (action : Nat) (recs : List ClaimRecord)
    (hmarshal : ∀ r, ∃ bz, d.marshal r = .ok bz ∧ d.unmarshal bz = .ok r)
    (hsorted : StoreSorted s.store)
    (hkey : KeyedByAddress d s addr)
    (hrecs : GetClaimRecords d s = .ok recs)
    (hvalid : ∀ r ∈ recs, Coins.isValid d.validateDenom r.initialClaimableAmount = true)
    (hN : 0 < d.numActions) (haction : action < d.numActions)
    (hU : 0 ≤ s.params.durationUntilDecay)
    (hD : 0 ≤ s.params.durationOfDecay) (hD2 : s.params.durationOfDecay ≤ maxInt64)
    (hpool : ∀ dn, outstanding d.numActions dn recs ≤ s.bank.getBalance d.moduleAddress dn) :
    (∀ amt, GetClaimableAmountForAction d s addr action = .returned amt none →
      (sendCoinsFromModuleToAccount d s.bank addr amt).1 ≠ some .insufficientFunds) ∧
    ∃ recs1, GetClaimRecords d (ClaimCoinsForAction d s addr action).2 = .ok recs1 ∧
      ∀ dn, outstanding d.numActions dn recs1
        ≤ (ClaimCoinsForAction d s addr action).2.bank.getBalance d.moduleAddress dn := by
  have hshare : ∀ dn, ∀ x ∈ recs,
      0 ≤ Coins.amountOf dn x.initialClaimableAmount / (d.numActions : Int) :=
    fun dn x hx => share_nonneg d _ (hvalid x hx) dn
  -- what a non-empty claimable amount tells about the record and the amount
  have hopen : ∀ amt, amt ≠ [] →
      GetClaimableAmountForAction d s addr action = .returned amt none →
      ∃ rec v0, GetClaimRecord d s addr = (rec, none) ∧ rec.address ≠ "" ∧
        rec.actionCompleted[action]? = some false ∧
        Store.get s.store addr = some v0 ∧ d.unmarshal v0 = .ok rec ∧ rec ∈ recs ∧
        DenomSorted amt ∧
        ∀ dn, 0 ≤ Coins.amountOf dn amt ∧ Coins.amountOf dn amt
          ≤ Coins.amountOf dn rec.initialClaimableAmount / (d.numActions : Int) := by
    intro amt hne hamt
    obtain ⟨-, rec, hrec, haddr, hflag⟩ :=
      claimable_nonempty_inv d s addr action amt none hamt hne
    obtain ⟨v0, hg, hu⟩ := getClaimRecord_inv d s addr rec hrec haddr
    have hmem : rec ∈ recs :=
      getClaimRecordsLoop_mem d s.store recs hrecs addr v0 rec (Store.get_mem _ _ _ hg) hu
    have hmin : minInt64 = -9223372036854775808 := rfl
    obtain ⟨c, hc, hcs, -, hbd⟩ := claimable_bounds_open d s addr action rec hrec haddr hflag
      hN (hvalid rec hmem) (by omega) hD2 (by omega)
    rw [hamt] at hc
    simp only [Exit.returned.injEq, and_true] at hc
    subst hc
    exact ⟨rec, v0, hrec, haddr, hflag, hg, hu, hmem, hcs, hbd⟩
  have hterm : ∀ rec, rec ∈ recs → rec.actionCompleted[action]? = some false → ∀ dn,
      Coins.amountOf dn rec.initialClaimableAmount / (d.numActions : Int)
        ≤ outstanding d.numActions dn recs := by
    intro rec hmem hflag dn
    have h1 := outstanding_ge_term d.numActions dn recs rec hmem (hshare dn)
    have h2 := openActions_markCompleted d.numActions rec action hflag haction
    have h3 := openActions_nonneg d.numActions (markCompleted rec action)
    have h4 := hshare dn rec hmem
    have h5 : 1 ≤ openActions d.numActions rec := by omega
    calc Coins.amountOf dn rec.initialClaimableAmount / (d.numActions : Int)
        = 1 * (Coins.amountOf dn rec.initialClaimableAmount / (d.numActions : Int)) := by ring
      _ ≤ openActions d.numActions rec
            * (Coins.amountOf dn rec.initialClaimableAmount / (d.numActions : Int)) :=
          Int.mul_le_mul_of_nonneg_right h5 h4
      _ ≤ outstanding d.numActions dn recs := h1
  have hsame : ∀ s1 : State β, s1.store = s.store → s1.bank = s.bank →
      ∃ recs1, GetClaimRecords d s1 = .ok recs1 ∧
        ∀ dn, outstanding d.numActions dn recs1 ≤ s1.bank.getBalance d.moduleAddress dn := by
    intro s1 h1 h2
    refine ⟨recs, by simp only [GetClaimRecords, h1]; exact hrecs, fun dn => ?_⟩
    rw [h2]
    exact hpool dn
  have hcovered : ∀ amt, GetClaimableAmountForAction d s addr action = .returned amt none →
      (sendCoinsFromModuleToAccount d s.bank addr amt).1 ≠ some .insufficientFunds := by
    intro amt hamt
    by_cases hne : amt = []
    · subst hne
      exact send_not_insufficient d s.bank addr [] List.Pairwise.nil
        (fun dn => le_trans (outstanding_nonneg _ dn recs (hshare dn)) (hpool dn))
    · obtain ⟨rec, v0, -, -, hflag, -, -, hmem, hcs, hbd⟩ := hopen amt hne hamt
      exact send_not_insufficient d s.bank addr amt hcs
        (fun dn => le_trans (hbd dn).2 (le_trans (hterm rec hmem hflag dn) (hpool dn)))
  refine ⟨hcovered, ?_⟩
  · rcases claim_cases d s addr action with ⟨_, h⟩ | ⟨hg, h⟩
    · rw [h]; exact hsame _ rfl rfl
    rcases h with ⟨p, _, h⟩ | ⟨c, e, _, h⟩ | ⟨_, h⟩ | ⟨c, rec, hc, hgc, hrec, haddr, hflag, h⟩
    · rw [h]; exact hsame _ rfl rfl
    · rw [h]; exact hsame _ rfl rfl
    · rw [h]; exact hsame _ rfl rfl
    rcases h with ⟨e, b0, hsend0, h⟩ | ⟨bank1, hsend, h⟩
    · rw [h]
      -- a refused transfer has debited nothing, since it was not refused for lack of funds
      rcases send_fail_cases d s.bank b0 addr c e hsend0 with hb | ⟨he, -⟩
      · exact hsame _ rfl hb
      · exact absurd (by rw [hsend0, he]) (hcovered c hgc)
    obtain ⟨bz, hm, hu1⟩ := hmarshal (markCompleted rec action)
    have hk := hkey rec hrec haddr
    rcases h with ⟨e, hset, _⟩ | ⟨bz2, k, hm2, hk2, h⟩
    · have hm1 := hm
      simp only [markCompleted] at hm1
      have hk1 : d.accAddressFromBech32 (markCompleted rec action).address = .ok addr := hk
      simp [SetClaimRecord, hm, hk1] at hset
    rw [hm] at hm2
    simp only [Except.ok.injEq] at hm2
    subst hm2
    rw [hk] at hk2
    simp only [Except.ok.injEq] at hk2
    subst hk2
    rw [h]
    obtain ⟨rec2, v0, hrec2, -, -, hget, hu0, hmem, -, hbd⟩ := hopen c hc hgc
    have hrr : rec2 = rec := by
      rw [hrec] at hrec2
      exact (Prod.mk.inj hrec2).1.symm
    subst hrr
    obtain ⟨recs1, hr1, hsum⟩ := getClaimRecordsLoop_set d d.numActions addr v0 bz rec2
      (markCompleted rec2 action) hu0 hu1 s.store recs hsorted hget hrecs
    refine ⟨recs1, hr1, fun dn => ?_⟩
    have hge := send_module_balance_ge d s.bank bank1 addr c hsend dn (hbd dn).1
    have h2 := openActions_markCompleted d.numActions rec2 action hflag haction
    have h3 := hsum dn
    have h4 : (markCompleted rec2 action).initialClaimableAmount
        = rec2.initialClaimableAmount := rfl
    rw [h4, h2] at h3
    have h5 := hpool dn
    have h6 := (hbd dn).2
    show outstanding d.numActions dn recs1 ≤ bank1.getBalance d.moduleAddress dn
    have h7 : outstanding d.numActions dn recs1 = outstanding d.numActions dn recs
        - Coins.amountOf dn rec2.initialClaimableAmount / (d.numActions : Int) := by
      rw [h3]; ring
    omega

/-- Witness of C11: the scenario record with allocation 1000 and a pool of exactly 1000,
claimed at the midpoint of the decay window. -/
theorem claim_preserves_solvency_witness :
    (sendCoinsFromModuleToAccount scenarioDeps
        (scenarioState 1000 1000 ⟨1000, 100, 100⟩ 1150).bank [97] [⟨"upasg", 125⟩]).1
      ≠ some .insufficientFunds ∧
    ∃ recs1, GetClaimRecords scenarioDeps
        (ClaimCoinsForAction scenarioDeps
          (scenarioState 1000 1000 ⟨1000, 100, 100⟩ 1150) [97] 0).2 = .ok recs1 ∧
      ∀ dn, outstanding 4 dn recs1
        ≤ (ClaimCoinsForAction scenarioDeps
            (scenarioState 1000 1000 ⟨1000, 100, 100⟩ 1150) [97] 0).2.bank.getBalance
              [0] dn :=
  ⟨(claim_preserves_solvency scenarioDeps (scenarioState 1000 1000 ⟨1000, 100, 100⟩ 1150)
      [97] 0 [⟨"pasg1a", [⟨"upasg", 1000⟩], [false, false, false, false]⟩]
      (fun r => ⟨r, rfl, rfl⟩) (List.pairwise_singleton _ _)
      (fun _ h _ => by cases h; rfl) rfl
      (fun r hr => by rw [List.mem_singleton.mp hr]; decide)
      (by decide) (by decide) (by decide) (by decide) (by decide)
      (fun dn => by
        by_cases h : dn = "upasg"
        · subst h; decide
        · have h2 : ¬ ("upasg" = dn) := fun e => h e.symm
          simp [outstanding, openActions, Coins.amountOf, scenarioState, Bank.getBalance, h,
            h2, scenarioDeps])).1 [⟨"upasg", 125⟩] (by decide),
    (claim_preserves_solvency scenarioDeps (scenarioState 1000 1000 ⟨1000, 100, 100⟩ 1150)
      [97] 0 [⟨"pasg1a", [⟨"upasg", 1000⟩], [false, false, false, false]⟩]
      (fun r => ⟨r, rfl, rfl⟩) (List.pairwise_singleton _ _)
      (fun _ h _ => by cases h; rfl) rfl
      (fun r hr => by rw [List.mem_singleton.mp hr]; decide)
      (by decide) (by decide) (by decide) (by decide) (by decide)
      (fun dn => by
        by_cases h : dn = "upasg"
        · subst h; decide
        · have h2 : ¬ ("upasg" = dn) := fun e => h e.symm
          simp [outstanding, openActions, Coins.amountOf, scenarioState, Bank.getBalance, h,
            h2, scenarioDeps])).2⟩

/-- C12 (total over the actions).  For a stored or absent record that decodes, when
`GetClaimableAmountForAction` returns for each of the `N` actions, `GetUserTotalClaimable`
returns, for every order in which the actions are visited (every permutation of `0 .. N-1`),
an amount that holds per denomination the sum over the `N` actions of the amounts of
`GetClaimableAmountForAction`; the sum does not mention the order.  The call is a function of
the state that returns no state: it has no write to perform. -/
theorem totalClaimable_is_sum {β : Type} (d : Deps β) (s : State β) (addr : AccAddress)
    (order : List Nat) (rec : ClaimRecord)
    (hrec : GetClaimRecord d s addr = (rec, none))
    (hall : ∀ a, a < d.numActions →
      ∃ c, GetClaimableAmountForAction d s addr a = .returned c none)
    (horder : order.Perm (List.range d.numActions)) :
    ∃ T, GetUserTotalClaimable d s addr order = .returned T none ∧
      ∀ dn, Coins.amountOf dn T
        = ((List.range d.numActions).map
            (fun a => Coins.amountOf dn (claimableOf d s addr a))).sum :=
  totalClaimable_sum d s addr order rec hrec hall horder

/-- Witness of C12: the scenario record at the midpoint of the decay window, the actions
visited in the order 2, 0, 3, 1. -/
theorem totalClaimable_is_sum_witness :
    ∃ T, GetUserTotalClaimable scenarioDeps (scenarioState 1000 4000 ⟨1000, 100, 100⟩ 1150)
        [97] [2, 0, 3, 1] = .returned T none ∧
      ∀ dn, Coins.amountOf dn T
        = ((List.range 4).map
            (fun a => Coins.amountOf dn
              (claimableOf scenarioDeps (scenarioState 1000 4000 ⟨1000, 100, 100⟩ 1150)
                [97] a))).sum :=
  totalClaimable_is_sum scenarioDeps (scenarioState 1000 4000 ⟨1000, 100, 100⟩ 1150) [97]
    [2, 0, 3, 1] ⟨"pasg1a", [⟨"upasg", 1000⟩], [false, false, false, false]⟩ rfl
    (fun a ha => by
      have h4 : a < 4 := ha
      interval_cases a <;> exact ⟨[⟨"upasg", 125⟩], by decide⟩)
    (by decide)

/-- C13 (remainder lost to floor division).  For a stored record with a valid allocation and
no completed action, at every time of the no-decay window and for every order of visiting the
actions, the total that `GetUserTotalClaimable` returns is per denomination at most
`initialClaimableAmount` and short of it by at most `N - 1` units. -/
theorem total_noDecay_bounds {β : Type} (d : Deps β) (s : State β) (addr : AccAddress)
    (order : List Nat) (rec : ClaimRecord)
    (hrec : GetClaimRecord d s addr = (rec, none))
    (haddr : rec.address ≠ "")
    (hflags : ∀ a, a < d.numActions → rec.actionCompleted[a]? = some false)
    (hN : 0 < d.numActions)
    (hv : Coins.isValid d.validateDenom rec.initialClaimableAmount = true)
    (hU : s.params.durationUntilDecay ≤ maxInt64)
    (h0 : 0 ≤ s.blockTime - s.params.airdropStartTime)
    (h1 : s.blockTime - s.params.airdropStartTime ≤ s.params.durationUntilDecay)
    (horder : order.Perm (List.range d.numActions)) :
    ∃ T, GetUserTotalClaimable d s addr order = .returned T none ∧
      ∀ dn, Coins.amountOf dn T ≤ Coins.amountOf dn rec.initialClaimableAmount ∧
        Coins.amountOf dn rec.initialClaimableAmount - ((d.numActions : Int) - 1)
          ≤ Coins.amountOf dn T := by
  have hG : ∀ a, a < d.numActions → GetClaimableAmountForAction d s addr a
      = .returned (scaleCoins (fun a => a / (d.numActions : Int)) rec.initialClaimableAmount)
          none :=
    fun a ha => claimable_full_window d s addr a rec hrec haddr (hflags a ha) hN hv hU h0 h1
  obtain ⟨T, hT, hsum⟩ := totalClaimable_sum d s addr order rec hrec
    (fun a ha => ⟨_, hG a ha⟩) horder
  refine ⟨T, hT, fun dn => ?_⟩
  have hterm : ∀ a ∈ List.range d.numActions,
      Coins.amountOf dn (claimableOf d s addr a)
        = Coins.amountOf dn rec.initialClaimableAmount / (d.numActions : Int) := by
    intro a ha
    simp only [claimableOf, hG a (List.mem_range.mp ha), amountOf_share d _ hv]
  rw [hsum dn, List.map_congr_left hterm]
  simp only [List.map_const', List.sum_replicate, List.length_range, nsmul_eq_mul]
  have hNpos : (0 : Int) < (d.numActions : Int) := by exact_mod_cast hN
  have hdiv := Int.ediv_add_emod (Coins.amountOf dn rec.initialClaimableAmount)
    (d.numActions : Int)
  have hmod1 := Int.emod_nonneg (Coins.amountOf dn rec.initialClaimableAmount)
    (ne_of_gt hNpos)
  have hmod2 := Int.emod_lt_of_pos (Coins.amountOf dn rec.initialClaimableAmount) hNpos
  constructor <;> omega

/-- Witness of C13: allocation 1003 over four actions, total 1000. -/
theorem total_noDecay_bounds_witness :
    ∃ T, GetUserTotalClaimable scenarioDeps (scenarioState 1003 4000 ⟨1000, 100, 100⟩ 1050)
        [97] [3, 2, 1, 0] = .returned T none ∧
      ∀ dn, Coins.amountOf dn T ≤ Coins.amountOf dn [⟨"upasg", 1003⟩] ∧
        Coins.amountOf dn [⟨"upasg", 1003⟩] - (((4 : Nat) : Int) - 1) ≤ Coins.amountOf dn T :=
  total_noDecay_bounds scenarioDeps (scenarioState 1003 4000 ⟨1000, 100, 100⟩ 1050) [97]
    [3, 2, 1, 0] ⟨"pasg1a", [⟨"upasg", 1003⟩], [false, false, false, false]⟩ rfl (by decide)
    (fun a ha => by
      have h4 : a < 4 := ha
      interval_cases a <;> rfl)
    (by decide) (by decide) (by decide) (by decide) (by decide) (by decide)

/-- C14 (end of the airdrop).  (1) In every state where the module balance is an `int64`,
`sdk.NewCoins` accepts it and `FundCommunityPool` succeeds, `EndAirdrop` returns without
error, takes the ledger and community pool that `FundCommunityPool` produced, and leaves the
store empty: `GetClaimRecords` returns the empty list, `GetClaimRecord` the zero record for
every address, and `GetClaimableAmountForAction` the empty amount for every address, action
and time.  (2) With the distribution keeper of the SDK and a distribution account other than
the claim module account, the whole balance of the claim denomination has left the module
account and has been added to the distribution account and to the community pool.  (3) A pool
of 4000 gives the community pool 4000. -/
theorem endAirdrop_sweeps_and_clears :
    (∀ {β : Type} (d : Deps β) (s : State β) (coins : Coins) (bank1 : Bank) (pool1 : Coins),
      minInt64 ≤ (GetModuleAccountBalance d s).amount →
      (GetModuleAccountBalance d s).amount ≤ maxInt64 →
      NewCoins d [GetModuleAccountBalance d s] = .ok coins →
      d.fundCommunityPool s.bank s.communityPool coins d.moduleAddress
        = (none, bank1, pool1) →
      (EndAirdrop d s).1 = .returned none ∧
      (EndAirdrop d s).2.bank = bank1 ∧
      (EndAirdrop d s).2.communityPool = pool1 ∧
      (EndAirdrop d s).2.store = [] ∧
      GetClaimRecords d (EndAirdrop d s).2 = .ok [] ∧
      (∀ a, GetClaimRecord d (EndAirdrop d s).2 a = (⟨"", [], []⟩, none)) ∧
      (∀ a action now,
        GetClaimableAmountForAction d { (EndAirdrop d s).2 with blockTime := now } a action
          = .returned [] none)) ∧
    (∀ {β : Type} (d : Deps β) (s : State β),
      d.fundCommunityPool = sdkFundCommunityPool d.validateDenom d.distrModuleAddress →
      d.distrModuleAddress ≠ d.moduleAddress →
      (EndAirdrop d s).1 = .returned none →
      (EndAirdrop d s).2.bank.getBalance d.moduleAddress d.claimDenom = 0 ∧
      (EndAirdrop d s).2.bank.getBalance d.distrModuleAddress d.claimDenom
        = s.bank.getBalance d.distrModuleAddress d.claimDenom
          + s.bank.getBalance d.moduleAddress d.claimDenom ∧
      Coins.amountOf d.claimDenom (EndAirdrop d s).2.communityPool
        = Coins.amountOf d.claimDenom s.communityPool
          + s.bank.getBalance d.moduleAddress d.claimDenom) ∧
    ((EndAirdrop scenarioDeps (scenarioState 1000 4000 ⟨1000, 100, 100⟩ 1300)).1
        = .returned none ∧
      (EndAirdrop scenarioDeps (scenarioState 1000 4000 ⟨1000, 100, 100⟩ 1300)).2.communityPool
        = [⟨"upasg", 4000⟩] ∧
      (EndAirdrop scenarioDeps
        (scenarioState 1000 4000 ⟨1000, 100, 100⟩ 1300)).2.bank.getBalance [1] "upasg" = 4000 ∧
      (EndAirdrop scenarioDeps
        (scenarioState 1000 4000 ⟨1000, 100, 100⟩ 1300)).2.bank.getBalance [0] "upasg" = 0 ∧
      GetClaimRecords scenarioDeps
        (EndAirdrop scenarioDeps (scenarioState 1000 4000 ⟨1000, 100, 100⟩ 1300)).2
        = .ok []) := by
  refine ⟨?_, ?_, ⟨by decide, by decide, by decide, by decide, rfl⟩⟩
  · intro β d s coins bank1 pool1 hmin hmax hcoins hfund
    have hf : fundRemainingsToCommunity d s
        = (.returned none, { s with bank := bank1, communityPool := pool1 }) := by
      have hr : ¬ ((GetModuleAccountBalance d s).amount < minInt64 ∨
          maxInt64 < (GetModuleAccountBalance d s).amount) := by
        rintro (h | h) <;> omega
      simp only [fundRemainingsToCommunity, hr, if_false, hcoins, hfund]
    have he : EndAirdrop d s
        = (.returned none,
            clearInitialClaimables { s with bank := bank1, communityPool := pool1 }) := by
      simp only [EndAirdrop, hf]
    rw [he]
    have hst : (clearInitialClaimables
        { s with bank := bank1, communityPool := pool1 }).store = [] :=
      clearInitialClaimables_store _
    refine ⟨rfl, rfl, rfl, hst, ?_, ?_, ?_⟩
    · simp [GetClaimRecords, hst, getClaimRecordsLoop]
    · intro a
      exact getClaimRecord_of_absent d _ a (by rw [hst]; rfl)
    · intro a action now
      exact claimable_no_record d _ a action ClaimRecord.empty
        (getClaimRecord_of_absent d _ a (by
          show Store.get (clearInitialClaimables
            { s with bank := bank1, communityPool := pool1 }).store a = none
          rw [hst]; rfl)) rfl
  · intro β d s hstd hne hok
    rcases fund_cases d s with ⟨p, hf⟩ | ⟨coins, _ | e, bank1, pool1, hc, hfd, hf⟩
    · simp [EndAirdrop, hf] at hok
    swap
    · simp [EndAirdrop, hf] at hok
    have he : EndAirdrop d s
        = (.returned none,
            clearInitialClaimables { s with bank := bank1, communityPool := pool1 }) := by
      simp only [EndAirdrop, hf]
    rw [he]
    have hcoins : coins = Coins.sort (removeZeroCoins [GetModuleAccountBalance d s]) := by
      simp only [NewCoins] at hc
      split at hc
      · exact (Except.ok.inj hc).symm
      · simp at hc
    have hamt : Coins.amountOf d.claimDenom coins
        = s.bank.getBalance d.moduleAddress d.claimDenom := by
      rw [hcoins]
      exact removeZeroCoins_single (GetModuleAccountBalance d s)
    rw [hstd] at hfd
    simp only [sdkFundCommunityPool] at hfd
    rcases hsend : Bank.sendCoins d.validateDenom s.bank d.moduleAddress
      d.distrModuleAddress coins with ⟨_ | e, b1⟩
    swap
    · rw [hsend] at hfd; simp at hfd
    rw [hsend] at hfd
    simp only [Prod.mk.injEq, true_and] at hfd
    obtain ⟨hb, hp⟩ := hfd
    subst hb hp
    simp only [Bank.sendCoins] at hsend
    split at hsend
    · simp at hsend
    rcases hsub : Bank.subLoop s.bank d.moduleAddress coins with ⟨_ | e, b2⟩
    swap
    · rw [hsub] at hsend; simp at hsend
    rw [hsub] at hsend
    simp only [Prod.mk.injEq, true_and] at hsend
    subst hsend
    have h1 := Bank.subLoop_balance _ _ _ _ hsub
    simp only [clearInitialClaimables, Bank.addLoop_balance, h1, amountOf_add,
      hamt, Ne.symm hne, hne, if_true, if_false]
    exact ⟨sub_self _, trivial, trivial⟩

/-- Witness of C14: the scenario state with a pool of 4000, swept after the campaign. -/
theorem endAirdrop_sweeps_and_clears_witness :
    (EndAirdrop scenarioDeps (scenarioState 1000 4000 ⟨1000, 100, 100⟩ 1300)).2.store = [] ∧
    (EndAirdrop scenarioDeps
      (scenarioState 1000 4000 ⟨1000, 100, 100⟩ 1300)).2.bank.getBalance
        scenarioDeps.moduleAddress scenarioDeps.claimDenom = 0 :=
  ⟨(endAirdrop_sweeps_and_clears.1 scenarioDeps (scenarioState 1000 4000 ⟨1000, 100, 100⟩ 1300)
      [⟨"upasg", 4000⟩]
      (Bank.addLoop
        ((scenarioState 1000 4000 ⟨1000, 100, 100⟩ 1300).bank.setBalance [0] "upasg" 0)
        [1] [⟨"upasg", 4000⟩])
      [⟨"upasg", 4000⟩] (by decide) (by decide) rfl rfl).2.2.2.1,
    (endAirdrop_sweeps_and_clears.2.1 scenarioDeps
      (scenarioState 1000 4000 ⟨1000, 100, 100⟩ 1300) rfl (by decide) (by decide)).1⟩

/-- C15 (a failed sweep clears nothing).  When `FundCommunityPool` fails with error `e` on the
swept balance, leaving the ledger `bank1` and the community pool `pool1`, `EndAirdrop` returns
`e`; the state after the call is the state before it with that ledger and that community pool,
so that no claim record is deleted: the record store is the store before the call and
`GetClaimRecords` returns what it returned before. -/
theorem endAirdrop_transfer_failure {β : Type} (d : Deps β) (s : State β) (coins : Coins)
    (e : Err) (bank1 : Bank) (pool1 : Coins)
    (hmin : minInt64 ≤ (GetModuleAccountBalance d s).amount)
    (hmax : (GetModuleAccountBalance d s).amount ≤ maxInt64)
    (hcoins : NewCoins d [GetModuleAccountBalance d s] = .ok coins)
    (hfund : d.fundCommunityPool s.bank s.communityPool coins d.moduleAddress
      = (some e, bank1, pool1)) :
    EndAirdrop d s = (.returned (some e), { s with bank := bank1, communityPool := pool1 }) ∧
    (EndAirdrop d s).2.store = s.store ∧
    GetClaimRecords d (EndAirdrop d s).2 = GetClaimRecords d s := by
  have hr : ¬ ((GetModuleAccountBalance d s).amount < minInt64 ∨
      maxInt64 < (GetModuleAccountBalance d s).amount) := by
    rintro (h | h) <;> omega
  have hf : fundRemainingsToCommunity d s
      = (.returned (some e), { s with bank := bank1, communityPool := pool1 }) := by
    simp only [fundRemainingsToCommunity, hr, if_false, hcoins, hfund]
  have he : EndAirdrop d s
      = (.returned (some e), { s with bank := bank1, communityPool := pool1 }) := by
    simp only [EndAirdrop, hf]
  rw [he]
  exact ⟨rfl, rfl, rfl⟩

/-- Witness of C15: a distribution keeper that refuses the funding and touches nothing; the
state after the call is the state before it. -/
theorem endAirdrop_transfer_failure_witness :
    EndAirdrop refusingDistrDeps (scenarioState 1000 4000 ⟨1000, 100, 100⟩ 1300)
      = (.returned (some .unauthorized), scenarioState 1000 4000 ⟨1000, 100, 100⟩ 1300) :=
  (endAirdrop_transfer_failure refusingDistrDeps
    (scenarioState 1000 4000 ⟨1000, 100, 100⟩ 1300) [⟨"upasg", 4000⟩] .unauthorized
    (scenarioState 1000 4000 ⟨1000, 100, 100⟩ 1300).bank []
    (by decide) (by decide) rfl rfl).1

/-- C16, counterexample.  On an empty store, the list of a well-formed record for `pasg1a`
followed by a record whose address does not decode: `SetClaimRecords` returns the decoding
error although the first record has been written, so the call neither succeeded nor left the
store as it was. -/
theorem setClaimRecords_partial_write :
    (SetClaimRecords scenarioDeps
        { scenarioState 1000 4000 ⟨1000, 100, 100⟩ 1000 with store := [] }
        [⟨"pasg1a", [⟨"upasg", 10⟩], [false, false, false, false]⟩,
         ⟨"a", [⟨"upasg", 20⟩], [false, false, false, false]⟩]).1
      = some .invalidAddress ∧
    (SetClaimRecords scenarioDeps
        { scenarioState 1000 4000 ⟨1000, 100, 100⟩ 1000 with store := [] }
        [⟨"pasg1a", [⟨"upasg", 10⟩], [false, false, false, false]⟩,
         ⟨"a", [⟨"upasg", 20⟩], [false, false, false, false]⟩]).2.store
      = [([97], ⟨"pasg1a", [⟨"upasg", 10⟩], [false, false, false, false]⟩)] ∧
    (SetClaimRecords scenarioDeps
        { scenarioState 1000 4000 ⟨1000, 100, 100⟩ 1000 with store := [] }
        [⟨"pasg1a", [⟨"upasg", 10⟩], [false, false, false, false]⟩,
         ⟨"a", [⟨"upasg", 20⟩], [false, false, false, false]⟩]).2.store
      ≠ ({ scenarioState 1000 4000 ⟨1000, 100, 100⟩ 1000 with
            store := [] } : State ClaimRecord).store := by
  decide

/-- C16, amended (writes stop at the first error).  `SetClaimRecords` writes the records in
list order and stops at the first one that `SetClaimRecord` refuses.  With `writtenEntries`
the keys and bytes of the leading records that marshal and whose address decodes: (1) the
state after the call is the state before it with exactly these entries set in turn; (2) entry
`i` is the key the address of record `i` decodes to, with the bytes record `i` marshals to;
(3) under every key the store holds the bytes of the last of these records with that key, and
what it held before when there is none; (4) the call returns no error exactly when every
record of the list has been written; (5) otherwise it returns the error of `proto.Marshal` or
of `AccAddressFromBech32` on the first record that has not been written. -/
theorem setClaimRecords_stops_at_first_error {β : Type} (d : Deps β) (rs : List ClaimRecord) :
    ∀ s : State β,
      (SetClaimRecords d s rs).2
        = { s with store := Store.setAll s.store (writtenEntries d rs) } ∧
      ((writtenEntries d rs).length ≤ rs.length ∧
        ∀ i r, rs[i]? = some r → i < (writtenEntries d rs).length →
          ∃ k bz, (writtenEntries d rs)[i]? = some (k, bz) ∧
            d.marshal r = .ok bz ∧ d.accAddressFromBech32 r.address = .ok k) ∧
      (∀ k, Store.get (SetClaimRecords d s rs).2.store k
        = match ((writtenEntries d rs).filter (fun kv => decide (kv.1 = k))).getLast? with
          | some kv => some kv.2
          | none => Store.get s.store k) ∧
      ((SetClaimRecords d s rs).1 = none ↔ (writtenEntries d rs).length = rs.length) ∧
      (∀ r, rs[(writtenEntries d rs).length]? = some r →
        ∃ e, (SetClaimRecords d s rs).1 = some e ∧
          (d.marshal r = .error e ∨
            ((∃ bz, d.marshal r = .ok bz) ∧ d.accAddressFromBech32 r.address = .error e))) := by
  have hstate : ∀ (rs : List ClaimRecord) (s : State β),
      (SetClaimRecords d s rs).2
        = { s with store := Store.setAll s.store (writtenEntries d rs) } := by
    intro rs
    induction rs with
    | nil => intro s; rfl
    | cons r rs ih =>
      intro s
      rcases setClaimRecord_cases d r with ⟨k, bz, hm, hk⟩ | ⟨e, he⟩
      · obtain ⟨h1, h2⟩ := setClaimRecords_cons_ok d s r rs k bz hm hk
        rw [h1, h2, ih]
        rfl
      · obtain ⟨h1, h2⟩ := setClaimRecords_cons_error d s r rs e he
        rw [h1, h2]
        rfl
  intro s
  refine ⟨hstate rs s, ?_, ?_, ?_, ?_⟩
  · induction rs with
    | nil => exact ⟨le_refl _, fun i r h => by simp at h⟩
    | cons r0 rs ih =>
      rcases setClaimRecord_cases d r0 with ⟨k, bz, hm, hk⟩ | ⟨e, he⟩
      · obtain ⟨-, h2⟩ := setClaimRecords_cons_ok d s r0 rs k bz hm hk
        rw [h2]
        refine ⟨Nat.succ_le_succ ih.1, fun i r hi hlt => ?_⟩
        cases i with
        | zero =>
          simp only [List.getElem?_cons_zero, Option.some.injEq] at hi
          subst hi
          exact ⟨k, bz, by simp, hm, hk⟩
        | succ j =>
          simp only [List.getElem?_cons_succ] at hi ⊢
          exact ih.2 j r hi (Nat.lt_of_succ_lt_succ hlt)
      · obtain ⟨-, h2⟩ := setClaimRecords_cons_error d s r0 rs e he
        rw [h2]
        exact ⟨Nat.zero_le _, fun i r _ hlt => absurd hlt (Nat.not_lt_zero _)⟩
  · intro k
    rw [hstate rs s]
    exact Store.get_setAll _ _ _
  · induction rs generalizing s with
    | nil => exact ⟨fun _ => rfl, fun _ => rfl⟩
    | cons r0 rs ih =>
      rcases setClaimRecord_cases d r0 with ⟨k, bz, hm, hk⟩ | ⟨e, he⟩
      · obtain ⟨h1, h2⟩ := setClaimRecords_cons_ok d s r0 rs k bz hm hk
        rw [h1, h2]
        simp only [List.length_cons, Nat.succ.injEq, add_left_inj]
        exact ih _
      · obtain ⟨h1, h2⟩ := setClaimRecords_cons_error d s r0 rs e he
        rw [h1, h2]
        simp
  · induction rs generalizing s with
    | nil => intro r h; simp at h
    | cons r0 rs ih =>
      rcases setClaimRecord_cases d r0 with ⟨k, bz, hm, hk⟩ | ⟨e, he⟩
      · obtain ⟨h1, h2⟩ := setClaimRecords_cons_ok d s r0 rs k bz hm hk
        rw [h1, h2]
        intro r hr
        simp only [List.length_cons, List.getElem?_cons_succ] at hr
        exact ih _ r hr
      · obtain ⟨h1, h2⟩ := setClaimRecords_cons_error d s r0 rs e he
        rw [h1, h2]
        intro r hr
        simp only [List.length_nil, List.getElem?_cons_zero, Option.some.injEq] at hr
        subst hr
        exact ⟨e, rfl, he⟩

/-- Witness of the amended C16, at the input of the counterexample: one entry is written, the
record of `pasg1a` under the key `[97]`, the call returns the address error of the second
record, and the store holds the first record. -/
theorem setClaimRecords_stops_at_first_error_witness :
    (SetClaimRecords scenarioDeps
        { scenarioState 1000 4000 ⟨1000, 100, 100⟩ 1000 with store := [] }
        [⟨"pasg1a", [⟨"upasg", 10⟩], [false, false, false, false]⟩,
         ⟨"a", [⟨"upasg", 20⟩], [false, false, false, false]⟩]).2
      = { scenarioState 1000 4000 ⟨1000, 100, 100⟩ 1000 with
          store := [([97], ⟨"pasg1a", [⟨"upasg", 10⟩], [false, false, false, false]⟩)] } ∧
    ∃ e, (SetClaimRecords scenarioDeps
        { scenarioState 1000 4000 ⟨1000, 100, 100⟩ 1000 with store := [] }
        [⟨"pasg1a", [⟨"upasg", 10⟩], [false, false, false, false]⟩,
         ⟨"a", [⟨"upasg", 20⟩], [false, false, false, false]⟩]).1 = some e ∧
      (scenarioDeps.marshal
          (⟨"a", [⟨"upasg", 20⟩], [false, false, false, false]⟩ : ClaimRecord) = .error e ∨
        ((∃ bz, scenarioDeps.marshal
            (⟨"a", [⟨"upasg", 20⟩], [false, false, false, false]⟩ : ClaimRecord) = .ok bz) ∧
          scenarioDeps.accAddressFromBech32 "a" = .error e)) :=
  ⟨(setClaimRecords_stops_at_first_error scenarioDeps
      [⟨"pasg1a", [⟨"upasg", 10⟩], [false, false, false, false]⟩,
       ⟨"a", [⟨"upasg", 20⟩], [false, false, false, false]⟩]
      { scenarioState 1000 4000 ⟨1000, 100, 100⟩ 1000 with store := [] }).1,
    (setClaimRecords_stops_at_first_error scenarioDeps
      [⟨"pasg1a", [⟨"upasg", 10⟩], [false, false, false, false]⟩,
       ⟨"a", [⟨"upasg", 20⟩], [false, false, false, false]⟩]
      { scenarioState 1000 4000 ⟨1000, 100, 100⟩ 1000 with store := [] }).2.2.2.2
      ⟨"a", [⟨"upasg", 20⟩], [false, false, false, false]⟩ rfl⟩

/-- C17 (an absent address is not an error).  For an address with no entry in the store,
`GetClaimRecord` returns the zero record (empty address, no allocation, no flag) without
error, and `GetClaimableAmountForAction` and `GetUserTotalClaimable` return the empty amount
without error, at every block time, for every action and every order of visiting the
actions. -/
theorem absent_address_is_empty {β : Type} (d : Deps β) (s : State β) (addr : AccAddress)
    (habs : Store.get s.store addr = none) :
    GetClaimRecord d s addr = (⟨"", [], []⟩, none) ∧
    (∀ (now : Int) (action : Nat),
      GetClaimableAmountForAction d { s with blockTime := now } addr action
        = .returned [] none) ∧
    (∀ (now : Int) (order : List Nat),
      GetUserTotalClaimable d { s with blockTime := now } addr order = .returned [] none) := by
  have h := getClaimRecord_of_absent d s addr habs
  refine ⟨h, ?_, ?_⟩
  · intro now action
    exact claimable_no_record d _ addr action ClaimRecord.empty
      (by rw [getClaimRecord_blockTime]; exact h) rfl
  · intro now order
    exact totalClaimable_no_record d _ addr order ClaimRecord.empty
      (by rw [getClaimRecord_blockTime]; exact h) rfl

/-- Witness of C17: the address `[98]` has no record in the scenario state. -/
theorem absent_address_is_empty_witness :
    Store.get (scenarioState 1000 4000 ⟨1000, 100, 100⟩ 1150).store [98] = none ∧
    GetClaimRecord scenarioDeps (scenarioState 1000 4000 ⟨1000, 100, 100⟩ 1150) [98]
      = (⟨"", [], []⟩, none) ∧
    GetClaimableAmountForAction scenarioDeps
      { scenarioState 1000 4000 ⟨1000, 100, 100⟩ 1150 with blockTime := 1050 } [98] 2
      = .returned [] none ∧
    GetUserTotalClaimable scenarioDeps
      { scenarioState 1000 4000 ⟨1000, 100, 100⟩ 1150 with blockTime := 1050 } [98]
        [2, 0, 3, 1]
      = .returned [] none :=
  ⟨by decide,
    (absent_address_is_empty scenarioDeps (scenarioState 1000 4000 ⟨1000, 100, 100⟩ 1150)
      [98] (by decide)).1,
    (absent_address_is_empty scenarioDeps (scenarioState 1000 4000 ⟨1000, 100, 100⟩ 1150)
      [98] (by decide)).2.1 1050 2,
    (absent_address_is_empty scenarioDeps (scenarioState 1000 4000 ⟨1000, 100, 100⟩ 1150)
      [98] (by decide)).2.2 1050 [2, 0, 3, 1]⟩

/-- C18 (set, then get).  (1) With a lossless codec, after `SetClaimRecord` has stored a
record `r` whose address decodes to the key `k`, `GetClaimRecord` returns exactly `r` at `k`
and what it returned before at every other address; a later `SetClaimRecord` for the same
address replaces the record.  (2) On a store in ascending key order whose entries are keyed by
the address of their record, the store after the call is again such a store, a set for an
address already present does not add an entry, and `GetClaimRecords` returns one record per
entry, at most one for every address. -/
theorem setClaimRecord_then_get :
    (∀ {β : Type} (d : Deps β) (s s1 : State β) (r : ClaimRecord) (k : AccAddress),
      (∀ r bz, d.marshal r = .ok bz → d.unmarshal bz = .ok r) →
      d.accAddressFromBech32 r.address = .ok k →
      SetClaimRecord d s r = (none, s1) →
      GetClaimRecord d s1 k = (r, none) ∧
      (∀ a, a ≠ k → GetClaimRecord d s1 a = GetClaimRecord d s a) ∧
      (∀ (r2 : ClaimRecord) (s2 : State β),
        d.accAddressFromBech32 r2.address = .ok k →
        SetClaimRecord d s1 r2 = (none, s2) →
        GetClaimRecord d s2 k = (r2, none))) ∧
    (∀ {β : Type} (d : Deps β) (s s1 : State β) (r : ClaimRecord) (k : AccAddress),
      (∀ r bz, d.marshal r = .ok bz → d.unmarshal bz = .ok r) →
      StoreSorted s.store → StoreKeyed d s.store →
      d.accAddressFromBech32 r.address = .ok k →
      SetClaimRecord d s r = (none, s1) →
      StoreSorted s1.store ∧ StoreKeyed d s1.store ∧
      (Store.get s.store k ≠ none → s1.store.length = s.store.length) ∧
      ∃ recs, GetClaimRecords d s1 = .ok recs ∧ recs.length = s1.store.length ∧
        ∀ a, (recordsAt d a recs).length ≤ 1) := by
  have hinv : ∀ {β : Type} (d : Deps β) (s s1 : State β) (r : ClaimRecord) (k : AccAddress),
      d.accAddressFromBech32 r.address = .ok k →
      SetClaimRecord d s r = (none, s1) →
      ∃ bz, d.marshal r = .ok bz ∧ s1 = { s with store := Store.set s.store k bz } := by
    intro β d s s1 r k hk hset
    simp only [SetClaimRecord] at hset
    rcases hm : d.marshal r with e | bz
    · rw [hm] at hset; simp at hset
    · rw [hm, hk] at hset
      simp only [Prod.mk.injEq, true_and] at hset
      exact ⟨bz, rfl, hset.symm⟩
  have hget : ∀ {β : Type} (d : Deps β) (s s1 : State β) (r : ClaimRecord) (k : AccAddress),
      (∀ r bz, d.marshal r = .ok bz → d.unmarshal bz = .ok r) →
      d.accAddressFromBech32 r.address = .ok k →
      SetClaimRecord d s r = (none, s1) → GetClaimRecord d s1 k = (r, none) := by
    intro β d s s1 r k hcodec hk hset
    obtain ⟨bz, hm, rfl⟩ := hinv d s s1 r k hk hset
    simp [GetClaimRecord, Store.get_set_same, hcodec _ _ hm]
  constructor
  · intro β d s s1 r k hcodec hk hset
    refine ⟨hget d s s1 r k hcodec hk hset, ?_, ?_⟩
    · intro a ha
      obtain ⟨bz, hm, rfl⟩ := hinv d s s1 r k hk hset
      simp [GetClaimRecord, Store.get_set_other _ _ _ _ ha]
    · intro r2 s2 hk2 hset2
      exact hget d s1 s2 r2 k hcodec hk2 hset2
  · intro β d s s1 r k hcodec hs hkeyed hk hset
    obtain ⟨bz, hm, rfl⟩ := hinv d s s1 r k hk hset
    have hs1 : StoreSorted (Store.set s.store k bz) := Store.set_sorted _ _ _ hs
    have hk1 : StoreKeyed d (Store.set s.store k bz) :=
      Store.set_keyed d _ _ _ r hs hkeyed (hcodec _ _ hm) hk
    refine ⟨hs1, hk1, ?_, ?_⟩
    · intro hne
      rcases hg : Store.get s.store k with _ | v0
      · exact absurd hg hne
      · exact Store.set_length _ _ _ v0 hs hg
    · obtain ⟨recs, hrecs, hlen, hcount⟩ := getClaimRecordsLoop_unique d _ hs1 hk1
      exact ⟨recs, hrecs, hlen, fun a => (hcount a).1⟩

/-- Witness of C18: the record of `pasg1a` is set again, with another allocation, in the
scenario state. -/
theorem setClaimRecord_then_get_witness :
    GetClaimRecord scenarioDeps
        (SetClaimRecord scenarioDeps (scenarioState 1000 4000 ⟨1000, 100, 100⟩ 1000)
          ⟨"pasg1a", [⟨"upasg", 77⟩], [true, false, false, false]⟩).2 [97]
      = (⟨"pasg1a", [⟨"upasg", 77⟩], [true, false, false, false]⟩, none) ∧
    (SetClaimRecord scenarioDeps (scenarioState 1000 4000 ⟨1000, 100, 100⟩ 1000)
        ⟨"pasg1a", [⟨"upasg", 77⟩], [true, false, false, false]⟩).2.store.length
      = (scenarioState 1000 4000 ⟨1000, 100, 100⟩ 1000).store.length :=
  ⟨(setClaimRecord_then_get.1 scenarioDeps (scenarioState 1000 4000 ⟨1000, 100, 100⟩ 1000)
      (SetClaimRecord scenarioDeps (scenarioState 1000 4000 ⟨1000, 100, 100⟩ 1000)
        ⟨"pasg1a", [⟨"upasg", 77⟩], [true, false, false, false]⟩).2
      ⟨"pasg1a", [⟨"upasg", 77⟩], [true, false, false, false]⟩ [97]
      (fun _ _ h => by cases h; rfl) rfl rfl).1,
    (setClaimRecord_then_get.2 scenarioDeps (scenarioState 1000 4000 ⟨1000, 100, 100⟩ 1000)
      (SetClaimRecord scenarioDeps (scenarioState 1000 4000 ⟨1000, 100, 100⟩ 1000)
        ⟨"pasg1a", [⟨"upasg", 77⟩], [true, false, false, false]⟩).2
      ⟨"pasg1a", [⟨"upasg", 77⟩], [true, false, false, false]⟩ [97]
      (fun _ _ h => by cases h; rfl)
      (List.pairwise_singleton _ _)
      (fun kv hkv => by
        simp only [scenarioState, List.mem_singleton] at hkv
        subst hkv
        exact ⟨_, rfl, rfl⟩)
      rfl rfl).2.2.1 (by decide)⟩

/-- C19 (no division by zero, fraction in the unit interval).  For `int64` durations whose
sum does not overflow, of any sign: (1) when neither early return of lines 152 and 157 is
taken (`elapsed > durationUntilDecay` and not `elapsed > durationUntilDecay +
durationOfDecay`), then `durationOfDecay > 0`, the decay time lies in `(0, durationOfDecay]`,
the division `QuoInt64` returns, and the claimable fraction lies in `[0, 10^18]`, that is in
`[0, 1]`; (2) for every record with a slot for the action whose per-action share has been
built (lines 141-148), `GetClaimableAmountForAction` returns at every time without panic and
every coin it returns has a non-negative amount. -/
theorem decay_division_is_safe :
    (∀ (U D e : Int),
      minInt64 ≤ U → D ≤ maxInt64 → minInt64 ≤ U + D → U + D ≤ maxInt64 →
      ¬ e ≤ U → ¬ wrap64 (U + D) < e →
      0 < D ∧ 0 < wrap64 (e - U) ∧ wrap64 (e - U) ≤ D ∧
      ∃ decayPercent, Dec.quoInt64 (Dec.newDec (wrap64 (e - U))) D = .ok decayPercent ∧
        0 ≤ (Dec.sub Dec.oneDec decayPercent).i ∧
        (Dec.sub Dec.oneDec decayPercent).i ≤ precisionReuse) ∧
    (∀ {β : Type} (d : Deps β) (s : State β) (addr : AccAddress) (action : Nat)
        (rec : ClaimRecord) (perAction : Coins),
      GetClaimRecord d s addr = (rec, none) →
      (rec.address ≠ "" → action < rec.actionCompleted.length) →
      initialClaimablePerAction d rec.initialClaimableAmount = .ok perAction →
      minInt64 ≤ s.params.durationUntilDecay →
      s.params.durationOfDecay ≤ maxInt64 →
      minInt64 ≤ s.params.durationUntilDecay + s.params.durationOfDecay →
      s.params.durationUntilDecay + s.params.durationOfDecay ≤ maxInt64 →
      ∃ c, GetClaimableAmountForAction d s addr action = .returned c none ∧
        ∀ x ∈ c, 0 ≤ x.amount) := by
  have hguard : ∀ (U D e : Int),
      minInt64 ≤ U → D ≤ maxInt64 → minInt64 ≤ U + D → U + D ≤ maxInt64 →
      ¬ e ≤ U → ¬ wrap64 (U + D) < e →
      0 < D ∧ 0 < wrap64 (e - U) ∧ wrap64 (e - U) ≤ D ∧
      Dec.quoInt64 (Dec.newDec (wrap64 (e - U))) D
        = .ok ⟨wrap64 (e - U) * precisionReuse / D⟩ ∧
      0 ≤ (Dec.sub Dec.oneDec ⟨wrap64 (e - U) * precisionReuse / D⟩).i ∧
      (Dec.sub Dec.oneDec ⟨wrap64 (e - U) * precisionReuse / D⟩).i ≤ precisionReuse := by
    intro U D e hU hD hS1 hS2 h1 h2
    obtain ⟨hDpos, ht0, htD, _⟩ := decay_guard U D e hU hD hS1 hS2 h1 h2
    exact ⟨hDpos, ht0, htD, quoInt64_newDec _ _ ht0 hDpos,
      claimablePercentAt_nonneg _ _ ht0 htD, claimablePercentAt_le _ _ ht0 htD⟩
  constructor
  · intro U D e hU hD hS1 hS2 h1 h2
    obtain ⟨a, b, c, h4, h5, h6⟩ := hguard U D e hU hD hS1 hS2 h1 h2
    exact ⟨a, b, c, _, h4, h5, h6⟩
  · intro β d s addr action rec perAction hrec hidx hper hU hD hS1 hS2
    by_cases haddr : rec.address = ""
    · exact ⟨[], claimable_no_record d s addr action rec hrec haddr, by simp⟩
    have hlen := hidx haddr
    rcases hb : rec.actionCompleted[action] with _ | _
    swap
    · exact ⟨[], claimable_completed d s addr action rec hrec
        (by rw [List.getElem?_eq_getElem hlen, hb]), by simp⟩
    have hflag : rec.actionCompleted[action]? = some false := by
      rw [List.getElem?_eq_getElem hlen, hb]
    by_cases hnow : s.blockTime < s.params.airdropStartTime
    · exact ⟨[], claimable_before_start d s addr action rec hrec hidx hnow, by simp⟩
    have hperOk : ∀ c ∈ perAction, d.validateDenom c.denom = true ∧ 0 ≤ c.amount :=
      addEachCoin_forall d _ _ [] perAction (by simp) hper
    by_cases h1 : timeSub s.blockTime s.params.airdropStartTime ≤ s.params.durationUntilDecay
    · refine ⟨perAction, ?_, fun x hx => (hperOk x hx).2⟩
      unfold GetClaimableAmountForAction
      rw [hrec]
      simp only [haddr, if_false, hflag, hnow, hper, h1, if_true]
    by_cases h2 : wrap64 (s.params.durationUntilDecay + s.params.durationOfDecay)
        < timeSub s.blockTime s.params.airdropStartTime
    · refine ⟨[], ?_, by simp⟩
      unfold GetClaimableAmountForAction
      rw [hrec]
      simp only [haddr, if_false, hflag, hnow, hper, h1, h2, if_true]
    obtain ⟨_, _, _, hq, hp0, _⟩ := hguard _ _ _ hU hD hS1 hS2 h1 h2
    obtain ⟨coins, hcoins, hnn⟩ := claimableCoins_total d _ perAction _ hp0 hper
    refine ⟨coins, ?_, hnn⟩
    unfold GetClaimableAmountForAction
    rw [hrec]
    simp only [haddr, if_false, hflag, hnow, hper, h1, h2, hq, hcoins]

/-- Witness of C19: a decay window of length zero, and one of negative length, never reach the
division; the call returns at a time past `durationUntilDecay`. -/
theorem decay_division_is_safe_witness :
    (∃ c, GetClaimableAmountForAction scenarioDeps
        (scenarioState 1000 4000 ⟨1000, 100, 0⟩ 1101) [97] 0 = .returned c none ∧
      ∀ x ∈ c, 0 ≤ x.amount) ∧
    (∃ c, GetClaimableAmountForAction scenarioDeps
        (scenarioState 1000 4000 ⟨1000, 100, -50⟩ 1080) [97] 0 = .returned c none ∧
      ∀ x ∈ c, 0 ≤ x.amount) ∧
    (0 < (100 : Int) ∧ 0 < wrap64 (150 - 100) ∧ wrap64 (150 - 100) ≤ 100 ∧
      ∃ decayPercent, Dec.quoInt64 (Dec.newDec (wrap64 (150 - 100))) 100 = .ok decayPercent ∧
        0 ≤ (Dec.sub Dec.oneDec decayPercent).i ∧
        (Dec.sub Dec.oneDec decayPercent).i ≤ precisionReuse) :=
  ⟨decay_division_is_safe.2 scenarioDeps (scenarioState 1000 4000 ⟨1000, 100, 0⟩ 1101) [97] 0
      ⟨"pasg1a", [⟨"upasg", 1000⟩], [false, false, false, false]⟩ [⟨"upasg", 250⟩] rfl
      (fun _ => by decide) rfl (by decide) (by decide) (by decide) (by decide),
    decay_division_is_safe.2 scenarioDeps (scenarioState 1000 4000 ⟨1000, 100, -50⟩ 1080)
      [97] 0 ⟨"pasg1a", [⟨"upasg", 1000⟩], [false, false, false, false]⟩ [⟨"upasg", 250⟩] rfl
      (fun _ => by decide) rfl (by decide) (by decide) (by decide) (by decide),
    decay_division_is_safe.1 100 100 150 (by decide) (by decide) (by decide) (by decide)
      (by decide) (by decide)⟩

/-- C20 (bounds of the claimable amount).  For a record that decodes, with a valid
allocation and a slot for the action, and `int64` durations of any sign whose sum does not
fall below the smallest `int64`:
(1) `GetClaimableAmountForAction` returns, at every time, an amount that is per denomination
at least 0 and at most `floor(initialClaimableAmount / N)`; (2) when the record has a slot for
each of the `N` actions, `GetUserTotalClaimable` returns, for every order of visiting the
actions, an amount that is per denomination at most `initialClaimableAmount`. -/
theorem claimable_within_share :
    (∀ {β : Type} (d : Deps β) (s : State β) (addr : AccAddress) (action : Nat)
        (rec : ClaimRecord),
      GetClaimRecord d s addr = (rec, none) →
      (rec.address ≠ "" → action < rec.actionCompleted.length) →
      0 < d.numActions →
      Coins.isValid d.validateDenom rec.initialClaimableAmount = true →
      minInt64 ≤ s.params.durationUntilDecay → s.params.durationOfDecay ≤ maxInt64 →
      minInt64 ≤ s.params.durationUntilDecay + s.params.durationOfDecay →
      ∃ c, GetClaimableAmountForAction d s addr action = .returned c none ∧
        ∀ dn, 0 ≤ Coins.amountOf dn c ∧
          Coins.amountOf dn c
            ≤ Coins.amountOf dn rec.initialClaimableAmount / (d.numActions : Int)) ∧
    (∀ {β : Type} (d : Deps β) (s : State β) (addr : AccAddress) (order : List Nat)
        (rec : ClaimRecord),
      GetClaimRecord d s addr = (rec, none) →
      (rec.address ≠ "" → d.numActions ≤ rec.actionCompleted.length) →
      0 < d.numActions →
      Coins.isValid d.validateDenom rec.initialClaimableAmount = true →
      minInt64 ≤ s.params.durationUntilDecay → s.params.durationOfDecay ≤ maxInt64 →
      minInt64 ≤ s.params.durationUntilDecay + s.params.durationOfDecay →
      order.Perm (List.range d.numActions) →
      ∃ T, GetUserTotalClaimable d s addr order = .returned T none ∧
        ∀ dn, 0 ≤ Coins.amountOf dn T ∧
          Coins.amountOf dn T ≤ Coins.amountOf dn rec.initialClaimableAmount) := by
  constructor
  · intro β d s addr action rec hrec hidx hN hv hU hD2 hS
    exact claimable_bounds d s addr action rec hrec hidx hN hv hU hD2 hS
  · intro β d s addr order rec hrec hlen hN hv hU hD2 hS horder
    have hb : ∀ a, a < d.numActions → ∃ c,
        GetClaimableAmountForAction d s addr a = .returned c none ∧
        ∀ dn, 0 ≤ Coins.amountOf dn c ∧ Coins.amountOf dn c
          ≤ Coins.amountOf dn rec.initialClaimableAmount / (d.numActions : Int) :=
      fun a ha => claimable_bounds d s addr a rec hrec
        (fun hne => lt_of_lt_of_le ha (hlen hne)) hN hv hU hD2 hS
    obtain ⟨T, hT, hsum⟩ := totalClaimable_sum d s addr order rec hrec
      (fun a ha => (hb a ha).imp (fun _ h => h.1)) horder
    refine ⟨T, hT, fun dn => ?_⟩
    have hterm : ∀ x ∈ (List.range d.numActions).map
        (fun a => Coins.amountOf dn (claimableOf d s addr a)),
        0 ≤ x ∧ x ≤ Coins.amountOf dn rec.initialClaimableAmount / (d.numActions : Int) := by
      intro x hx
      obtain ⟨a, ha, rfl⟩ := List.mem_map.mp hx
      obtain ⟨c, hc, hbd⟩ := hb a (List.mem_range.mp ha)
      simp only [claimableOf, hc]
      exact hbd dn
    have hlen2 : ((List.range d.numActions).map
        (fun a => Coins.amountOf dn (claimableOf d s addr a))).length = d.numActions := by
      simp
    have hle := List.sum_le_card_nsmul _ _ (fun x hx => (hterm x hx).2)
    have hge := List.sum_nonneg (fun x hx => (hterm x hx).1)
    rw [hlen2, nsmul_eq_mul] at hle
    rw [hsum dn]
    refine ⟨hge, le_trans hle ?_⟩
    have hNpos : (0 : Int) < (d.numActions : Int) := by exact_mod_cast hN
    have hdiv := Int.ediv_add_emod (Coins.amountOf dn rec.initialClaimableAmount)
      (d.numActions : Int)
    have hmod1 := Int.emod_nonneg (Coins.amountOf dn rec.initialClaimableAmount)
      (ne_of_gt hNpos)
    omega

/-- Witness of C20: the scenario record in the decay window. -/
theorem claimable_within_share_witness :
    (∃ c, GetClaimableAmountForAction scenarioDeps
        (scenarioState 1000 4000 ⟨1000, 100, 100⟩ 1130) [97] 1 = .returned c none ∧
      ∀ dn, 0 ≤ Coins.amountOf dn c ∧
        Coins.amountOf dn c ≤ Coins.amountOf dn [⟨"upasg", 1000⟩] / ((4 : Nat) : Int)) ∧
    (∃ T, GetUserTotalClaimable scenarioDeps
        (scenarioState 1000 4000 ⟨1000, 100, 100⟩ 1130) [97] [1, 3, 0, 2] = .returned T none ∧
      ∀ dn, 0 ≤ Coins.amountOf dn T ∧
        Coins.amountOf dn T ≤ Coins.amountOf dn [⟨"upasg", 1000⟩]) :=
  ⟨claimable_within_share.1 scenarioDeps (scenarioState 1000 4000 ⟨1000, 100, 100⟩ 1130)
      [97] 1 ⟨"pasg1a", [⟨"upasg", 1000⟩], [false, false, false, false]⟩ rfl
      (fun _ => by decide) (by decide) (by decide) (by decide) (by decide) (by decide),
    claimable_within_share.2 scenarioDeps (scenarioState 1000 4000 ⟨1000, 100, 100⟩ 1130)
      [97] [1, 3, 0, 2] ⟨"pasg1a", [⟨"upasg", 1000⟩], [false, false, false, false]⟩ rfl
      (fun _ => by decide) (by decide) (by decide) (by decide) (by decide) (by decide)
      (by decide)⟩

end Claim
